import Mathlib

/-!
# simpleconf: the rule-driven configuration line compiler of pure-ftpd

A shallow embedding of `src/simpleconf.c`.

* A C string is the list of its bytes without the terminating NUL
  (`CStr`); reading at or past the end yields the NUL byte `0`.
* A pointer into the line buffer is a byte offset into it; a pointer into
  the pattern or the template is the remainder of the string it points at.
* `size_t` arithmetic is taken modulo `2 ^ 64`.
* The `<ctype.h>` predicates are those of the "C" locale.
* `malloc`, `realloc`, `strdup` and `fopen` are assumed to succeed.
* A file is given as the list of the strings that successive calls of `fgets`
  store in the line buffer.
-/

namespace SimpleConf

/-- Bytes of a NUL-terminated C string, terminator excluded. -/
abbrev CStr := List Nat

/-- Bytes of an ASCII string literal. -/
def ofString (s : String) : CStr := s.toList.map Char.toNat

def MAX_ARG_LENGTH : Nat := 65536

/-- Number of values of `size_t`. -/
def SIZE_T_MOD : Nat := 2 ^ 64

/-- Value of `(sizeof matches) / (sizeof matches[0])` for `Match matches[10]`. -/
def MATCHES_CAP : Nat := 10

/-- Value of `INT_MAX / (int) (sizeof arg)` with 32-bit `int` and 8-byte pointers. -/
def ARGC_LIMIT : Nat := 2147483647 / 8

/-- The byte `buf[i]`; the terminating NUL when `i` is the length. -/
def byteAt (buf : CStr) (i : Nat) : Nat := buf.getD i 0

/-- The byte `*p` for a pointer given as the rest of its string. -/
def peek (p : CStr) : Nat := p.headD 0

/-! ## ctype.h in the "C" locale -/

def isspace (c : Nat) : Bool := c == 32 || (9 ≤ c && c ≤ 13)

def isdigit (c : Nat) : Bool := 48 ≤ c && c ≤ 57

def isupper (c : Nat) : Bool := 65 ≤ c && c ≤ 90

def islower (c : Nat) : Bool := 97 ≤ c && c ≤ 122

def isalpha (c : Nat) : Bool := isupper c || islower c

def isalnum (c : Nat) : Bool := isalpha c || isdigit c

def isxdigit (c : Nat) : Bool := isdigit c || (65 ≤ c && c ≤ 70) || (97 ≤ c && c ≤ 102)

def isgraph (c : Nat) : Bool := 33 ≤ c && c ≤ 126

def isprint (c : Nat) : Bool := 32 ≤ c && c ≤ 126

def tolower (c : Nat) : Nat := if isupper c then c + 32 else c

/-! ## Data model -/

inductive State where
  | UNDEFINED
  | PROPNAME
  | AFTERPROPNAME
  | AFTERPROPNAME2
  | AFTERPROPNAMESEP
  | RCHAR
  | MATCH_ALPHA
  | MATCH_ALNUM
  | MATCH_DIGITS
  | MATCH_XDIGITS
  | MATCH_NOSPACE
  | MATCH_ANY
  | MATCH_SPACES
  | MATCH_BOOLEAN
  | TEMPLATE_UNDEFINED
  | TEMPLATE_RCHAR
  | TEMPLATE_SUBST_ESC
  deriving DecidableEq, Repr

/-- A capture: `str` is the offset of its first byte in the line buffer. -/
structure Match where
  str : Nat
  str_len : Nat
  deriving DecidableEq, Repr

inductive EntryResult where
  | UNDEFINED
  | OK
  | IGNORE
  | PROPNOTFOUND
  | MISMATCH
  | SYNTAX
  | INVALID_ENTRY
  | INTERNAL
  | E2BIG
  deriving DecidableEq, Repr

/-- A rule: `in_` is the field `in` (the pattern), `out` the template. -/
structure SimpleConfEntry where
  in_ : CStr
  out : CStr
  deriving DecidableEq, Repr

/-- What `try_entry` hands back: its return value, `*arg_p` and `*err_p`
(`none` is `NULL`; `err` is an offset into the line buffer). -/
structure Ret where
  result : EntryResult
  arg : Option CStr
  err : Option Nat
  deriving DecidableEq, Repr

/-! ## Helpers of try_entry -/

/-- Number of bytes `skip_spaces` steps over. -/
def skip_spaces_count : CStr → Nat
  | [] => 0
  | c :: cs => if c != 0 && isspace c then skip_spaces_count cs + 1 else 0

/-- The function `skip_spaces` on a pointer `str` into `buf`. -/
def skip_spaces (buf : CStr) (str : Nat) : Nat :=
  str + skip_spaces_count (buf.drop str)

/-- The accumulator `x` of `prefix_match` after its `for` loop. -/
def prefix_match_x : CStr → CStr → Nat → Nat
  | s :: ss, p :: ps, x => prefix_match_x ss ps (x ||| (tolower s ^^^ tolower p))
  | _, _, x => x

/-- The return value of `prefix_match`, as a Bool; on `true` the caller's
pointer moves forward by the length of `pfx`. -/
def prefix_match (str pfx : CStr) : Bool :=
  if str.length < pfx.length then false
  else prefix_match_x str pfx 0 == 0

/-- The trimming loop of `add_to_matches`:
`while (len > 0 && isspace(start[len - 1])) len--`. -/
def trim_len (buf : CStr) (start : Nat) : Nat → Nat
  | 0 => 0
  | len + 1 =>
    if isspace (byteAt buf ((start + len) % SIZE_T_MOD)) then trim_len buf start len
    else len + 1

/-- The function `add_to_matches`: `none` is the return value `-1`, `some ms`
is the return value `0` with the new contents of `matches`. -/
def add_to_matches (buf : CStr) (ms : List Match) (start end_ : Nat) : Option (List Match) :=
  let start := skip_spaces buf start
  let len := (end_ + SIZE_T_MOD - start) % SIZE_T_MOD
  let len := trim_len buf start len
  if len == 0 then none
  else some (ms ++ [{ str := start, str_len := len }])

def err_mismatch (buf : CStr) (line_pnt line : Nat) : Ret :=
  { result := .MISMATCH, arg := none,
    err := some (if byteAt buf line_pnt != 0 then line_pnt else line) }

def err_syntax (buf : CStr) (line_pnt line : Nat) : Ret :=
  { result := .SYNTAX, arg := none,
    err := some (if byteAt buf line_pnt != 0 then line_pnt else line) }

/-- A return from `try_entry` that leaves `*arg_p` and `*err_p` at `NULL`. -/
def ret_plain (r : EntryResult) : Ret := { result := r, arg := none, err := none }

/-! ## The pattern tags -/

def tag_alpha : CStr := [60, 97, 108, 112, 104, 97, 62]
def tag_alnum : CStr := [60, 97, 108, 110, 117, 109, 62]
def tag_digits : CStr := [60, 100, 105, 103, 105, 116, 115, 62]
def tag_xdigits : CStr := [60, 120, 100, 105, 103, 105, 116, 115, 62]
def tag_nospace : CStr := [60, 110, 111, 115, 112, 97, 99, 101, 62]
def tag_any : CStr := [60, 97, 110, 121, 62]
def tag_bool : CStr := [60, 98, 111, 111, 108, 62]

def lit_yes : CStr := [121, 101, 115]
def lit_on : CStr := [111, 110]
def lit_true : CStr := [116, 114, 117, 101]
def lit_1 : CStr := [49]
def lit_no : CStr := [110, 111]
def lit_off : CStr := [111, 102, 102]
def lit_false : CStr := [102, 97, 108, 115, 101]
def lit_0 : CStr := [48]

/-! ## The matching loop of try_entry -/

/-- The local variables of `try_entry` that live across loop iterations.
`matches_` is the array `matches`, of which `matches_len` is the length. -/
structure Vars where
  in_pnt : CStr
  line_pnt : Nat
  match_start : Option Nat
  wildcard_start : Option Nat
  matches_ : List Match
  state : State
  expect_char : Bool
  is_boolean : Bool
  is_enabled : Bool
  d : Nat
  deriving DecidableEq, Repr

/-- One iteration of the loop either goes on or returns from `try_entry`. -/
inductive Step where
  | cont (v : Vars)
  | ret (r : Ret)
  deriving DecidableEq, Repr

/-- The loop condition `*in_pnt != 0 || *line_pnt != 0`. -/
def loop_cond (buf : CStr) (v : Vars) : Bool :=
  peek v.in_pnt != 0 || byteAt buf v.line_pnt != 0

/-- The case `STATE_RCHAR` of the switch. -/
def rchar_case (buf : CStr) (line : Nat) (v : Vars) (c d : Nat) : Step :=
  if d == 0 then .ret (err_mismatch buf v.line_pnt line)
  else if d == 40 then
    .cont { v with match_start := some v.line_pnt, in_pnt := v.in_pnt.tail }
  else if d == 41 then
    match v.match_start with
    | none => .ret (err_mismatch buf line line)
    | some ms =>
      if v.matches_.length ≥ MATCHES_CAP then .ret (err_mismatch buf line line)
      else
        match add_to_matches buf v.matches_ ms v.line_pnt with
        | none => .ret (err_mismatch buf line line)
        | some m => .cont { v with matches_ := m, in_pnt := v.in_pnt.tail }
  else if prefix_match v.in_pnt tag_alpha then
    .cont { v with in_pnt := v.in_pnt.drop tag_alpha.length, expect_char := true,
                   state := .MATCH_ALPHA }
  else if prefix_match v.in_pnt tag_alnum then
    .cont { v with in_pnt := v.in_pnt.drop tag_alnum.length, expect_char := true,
                   state := .MATCH_ALNUM }
  else if prefix_match v.in_pnt tag_digits then
    .cont { v with in_pnt := v.in_pnt.drop tag_digits.length, expect_char := true,
                   state := .MATCH_DIGITS }
  else if prefix_match v.in_pnt tag_xdigits then
    .cont { v with in_pnt := v.in_pnt.drop tag_xdigits.length, expect_char := true,
                   state := .MATCH_XDIGITS }
  else if prefix_match v.in_pnt tag_nospace then
    .cont { v with in_pnt := v.in_pnt.drop tag_nospace.length, expect_char := true,
                   state := .MATCH_NOSPACE }
  else if prefix_match v.in_pnt tag_any then
    .cont { v with in_pnt := v.in_pnt.drop tag_any.length, expect_char := true,
                   state := .MATCH_ANY }
  else if prefix_match v.in_pnt tag_bool then
    if v.is_enabled then .ret (ret_plain .INVALID_ENTRY)
    else .cont { v with in_pnt := v.in_pnt.drop tag_bool.length, state := .MATCH_BOOLEAN }
  else if d == 60 then .ret (ret_plain .INVALID_ENTRY)
  else if isspace d then
    .cont { v with in_pnt := v.in_pnt.tail, expect_char := true, state := .MATCH_SPACES }
  else if isgraph d then
    if c == d then .cont { v with in_pnt := v.in_pnt.tail, line_pnt := v.line_pnt + 1 }
    else .ret (err_mismatch buf v.line_pnt line)
  else .ret (err_mismatch buf v.line_pnt line)

/-- The case `STATE_MATCH_BOOLEAN` of the switch. -/
def boolean_case (buf : CStr) (line : Nat) (v : Vars) : Step :=
  let s := buf.drop v.line_pnt
  if prefix_match s lit_yes then
    .cont { v with line_pnt := v.line_pnt + lit_yes.length, is_enabled := true, state := .RCHAR }
  else if prefix_match s lit_on then
    .cont { v with line_pnt := v.line_pnt + lit_on.length, is_enabled := true, state := .RCHAR }
  else if prefix_match s lit_true then
    .cont { v with line_pnt := v.line_pnt + lit_true.length, is_enabled := true, state := .RCHAR }
  else if prefix_match s lit_1 then
    .cont { v with line_pnt := v.line_pnt + lit_1.length, is_enabled := true, state := .RCHAR }
  else if prefix_match s lit_no then
    .cont { v with line_pnt := v.line_pnt + lit_no.length, is_enabled := false, state := .RCHAR }
  else if prefix_match s lit_off then
    .cont { v with line_pnt := v.line_pnt + lit_off.length, is_enabled := false, state := .RCHAR }
  else if prefix_match s lit_false then
    .cont { v with line_pnt := v.line_pnt + lit_false.length, is_enabled := false,
                   state := .RCHAR }
  else if prefix_match s lit_0 then
    .cont { v with line_pnt := v.line_pnt + lit_0.length, is_enabled := false, state := .RCHAR }
  else .ret ( err_syntax buf v.line_pnt line)

/-- The body of the matching loop. `e_in` is `entry->in` (to which
`prop_name` points), `buf` the line buffer and `line` the offset of the first
non-blank byte of the line. -/
def loop_body (e_in buf : CStr) (line : Nat) (v0 : Vars) : Step :=
  let c := byteAt buf v0.line_pnt
  let d := peek v0.in_pnt
  let v : Vars := { v0 with d := d }
  match v0.state with
  | .PROPNAME =>
    if isspace d then .cont { v with in_pnt := v.in_pnt.tail, state := .AFTERPROPNAME }
    else if d == 63 then .cont { v with is_boolean := true, in_pnt := v.in_pnt.tail }
    else if c != 0 && d != 0 && tolower c == tolower d then
      .cont { v with in_pnt := v.in_pnt.tail, line_pnt := v.line_pnt + 1 }
    else .ret (ret_plain .PROPNOTFOUND)
  | .AFTERPROPNAME =>
    if c == 61 || c == 58 then
      .cont { v with state := .AFTERPROPNAMESEP, line_pnt := v.line_pnt + 1 }
    else if isspace c then
      .cont { v with state := .AFTERPROPNAME2, line_pnt := v.line_pnt + 1 }
    else .ret ( err_syntax buf v.line_pnt line)
  | .AFTERPROPNAME2 =>
    if c == 61 || c == 58 then
      .cont { v with state := .AFTERPROPNAMESEP, line_pnt := v.line_pnt + 1 }
    else if isspace c then .cont { v with line_pnt := v.line_pnt + 1 }
    else .cont { v with state := .AFTERPROPNAMESEP }
  | .AFTERPROPNAMESEP =>
    if c == 61 || c == 58 then .ret ( err_syntax buf v.line_pnt line)
    else if isspace c then .cont { v with line_pnt := v.line_pnt + 1 }
    else if peek v.in_pnt == 0 || v.in_pnt.length == e_in.length then
      .ret ( err_syntax buf v.line_pnt line)
    else .cont { v with wildcard_start := some v.line_pnt, state := .RCHAR }
  | .RCHAR => rchar_case buf line v c d
  | .MATCH_ALPHA =>
    if isalpha c then .cont { v with expect_char := false, line_pnt := v.line_pnt + 1 }
    else .cont { v with state := .RCHAR }
  | .MATCH_ALNUM =>
    if isalnum c then .cont { v with expect_char := false, line_pnt := v.line_pnt + 1 }
    else .cont { v with state := .RCHAR }
  | .MATCH_DIGITS =>
    if isdigit c then .cont { v with expect_char := false, line_pnt := v.line_pnt + 1 }
    else .cont { v with state := .RCHAR }
  | .MATCH_XDIGITS =>
    if isxdigit c then .cont { v with line_pnt := v.line_pnt + 1 }
    else .cont { v with state := .RCHAR }
  | .MATCH_NOSPACE =>
    if isgraph c then .cont { v with expect_char := false, line_pnt := v.line_pnt + 1 }
    else .cont { v with state := .RCHAR }
  | .MATCH_ANY =>
    if isprint c then .cont { v with expect_char := false, line_pnt := v.line_pnt + 1 }
    else .cont { v with state := .RCHAR }
  | .MATCH_SPACES =>
    if isspace c then .cont { v with expect_char := false, line_pnt := v.line_pnt + 1 }
    else .cont { v with state := .RCHAR }
  | .MATCH_BOOLEAN => boolean_case buf line v
  | _ => .ret (ret_plain .INVALID_ENTRY)

/-- Rank of a state: how many iterations it may take without moving a pointer. -/
def state_rank : State → Nat
  | .AFTERPROPNAME2 => 2
  | .RCHAR => 0
  | .PROPNAME => 0
  | .AFTERPROPNAME => 0
  | _ => 1

/-- A bound on the number of loop iterations still to come. -/
def loop_measure (buf : CStr) (v : Vars) : Nat :=
  3 * (v.in_pnt.length + (buf.length - v.line_pnt)) + state_rank v.state

/-- The matching loop, run for at most `fuel` iterations: `none` when the
fuel is used up, `some (.cont v)` when the loop condition fails at `v`,
`some (.ret r)` when the body returns `r`. -/
def run_loop (e_in buf : CStr) (line : Nat) : Nat → Vars → Option Step
  | 0, _ => none
  | fuel + 1, v =>
    if loop_cond buf v then
      match loop_body e_in buf line v with
      | .cont v1 => run_loop e_in buf line fuel v1
      | .ret r => some (.ret r)
    else some (.cont v)

/-! ## The template expansion of try_entry -/

/-- The two copy loops `while (arg_len < MAX_ARG_LENGTH && i < len)
arg[arg_len++] = str[i++]`. -/
def copy_bounded (buf arg : CStr) (str len : Nat) : CStr :=
  arg ++ (List.range (min len (MAX_ARG_LENGTH - arg.length))).map (fun i => byteAt buf (str + i))

/-- What follows the expansion loop: the size check and the hand-over. -/
def expand_finish (arg : CStr) : Ret :=
  if arg.length ≥ MAX_ARG_LENGTH then ret_plain .E2BIG
  else { result := .OK, arg := some arg, err := none }

/-- The expansion loop and what follows it. `out_pnt` is the rest of the
template, `arg` the bytes written so far (`arg_len` is its length). The
unreachable `default: abort()` is rendered as the result `UNDEFINED`, on
which the caller aborts as well. -/
def expand (buf : CStr) (ms : List Match) (wildcard_start wildcard_len : Nat) :
    State → CStr → CStr → Ret
  | _, [], arg => expand_finish arg
  | st, d :: out, arg =>
    if arg.length < MAX_ARG_LENGTH && d != 0 then
      match st with
      | .TEMPLATE_RCHAR =>
        if d == 36 then expand buf ms wildcard_start wildcard_len .TEMPLATE_SUBST_ESC out arg
        else expand buf ms wildcard_start wildcard_len .TEMPLATE_RCHAR out (arg ++ [d])
      | .TEMPLATE_SUBST_ESC =>
        if d == 42 then
          expand buf ms wildcard_start wildcard_len .TEMPLATE_RCHAR out
            (copy_bounded buf arg wildcard_start wildcard_len)
        else if 48 ≤ d && d ≤ 57 then
          let match_id := d - 48
          if match_id ≥ ms.length then ret_plain .INVALID_ENTRY
          else
            expand buf ms wildcard_start wildcard_len .TEMPLATE_RCHAR out
              (copy_bounded buf arg (ms.getD match_id ⟨0, 0⟩).str
                (ms.getD match_id ⟨0, 0⟩).str_len)
        else ret_plain .INVALID_ENTRY
      | _ => ret_plain .UNDEFINED
    else expand_finish arg

/-- The states in which the `switch` after the matching loop goes on. -/
def final_state_ok : State → Bool
  | .RCHAR | .MATCH_ALPHA | .MATCH_ALNUM | .MATCH_DIGITS | .MATCH_XDIGITS
  | .MATCH_NOSPACE | .MATCH_ANY | .MATCH_SPACES | .MATCH_BOOLEAN => true
  | _ => false

/-- The part of `try_entry` from the end of the matching loop to the start
of the expansion: either a return, or the captures with which the expansion
starts. -/
def after_loop_checks (buf : CStr) (line : Nat) (v : Vars) : Ret ⊕ List Match :=
  if !final_state_ok v.state then .inl (err_mismatch buf v.line_pnt line)
  else if v.expect_char then .inl (err_mismatch buf v.line_pnt line)
  else
    let closing : Option (List Match) :=
      if v.d == 41 then
        match v.match_start with
        | none => none
        | some ms =>
          if v.matches_.length ≥ MATCHES_CAP then none
          else add_to_matches buf v.matches_ ms v.line_pnt
      else some v.matches_
    match closing with
    | none => .inl (ret_plain .SYNTAX)
    | some m =>
      if v.is_boolean && !v.is_enabled then .inl (ret_plain .IGNORE)
      else .inr m

/-- Everything `try_entry` does after the matching loop. -/
def after_loop (e_out buf : CStr) (line : Nat) (v : Vars) : Ret :=
  match after_loop_checks buf line v with
  | .inl r => r
  | .inr m =>
    let wildcard_len :=
      match v.wildcard_start with
      | none => 0
      | some w => v.line_pnt - w
    expand buf m (v.wildcard_start.getD 0) wildcard_len .TEMPLATE_RCHAR e_out []

/-- The values of the locals when the matching loop is entered. -/
def init_vars (e_in : CStr) (line : Nat) : Vars :=
  { in_pnt := e_in, line_pnt := line, match_start := none, wildcard_start := none,
    matches_ := [], state := .PROPNAME, expect_char := false, is_boolean := false,
    is_enabled := false, d := 0 }

/-- The matching loop entered with the locals `v`, with a bound of
iterations that depends on how much of the pattern and of the line is left. -/
def run (e_in buf : CStr) (line : Nat) (v : Vars) : Option Step :=
  run_loop e_in buf line (loop_measure buf v + 1) v

/-- The function `try_entry` from the point where its matching loop is
entered with the locals `v`. -/
def try_from (entry : SimpleConfEntry) (buf : CStr) (line : Nat) (v : Vars) : Option Ret :=
  match run entry.in_ buf line v with
  | none => none
  | some (.ret r) => some r
  | some (.cont v1) => some (after_loop entry.out buf line v1)

/-- The function `try_entry` on the rule `entry` and the line held in `buf`.
`none` would mean that the matching loop did not end within its bound of
iterations, which does not happen (`try_entry_total`). -/
def try_entry (entry : SimpleConfEntry) (buf : CStr) : Option Ret :=
  let line := skip_spaces buf 0
  if byteAt buf line == 0 || byteAt buf line == 35 then some (ret_plain .IGNORE)
  else try_from entry buf line (init_vars entry.in_ line)

/-- The locals after `k` full iterations of the matching loop from `v`,
when none of them returns and the loop condition holds before each. -/
def loop_iter (e_in buf : CStr) (line : Nat) : Nat → Vars → Option Vars
  | 0, v => some v
  | k + 1, v =>
    if loop_cond buf v then
      match loop_body e_in buf line v with
      | .cont v1 => loop_iter e_in buf line k v1
      | .ret _ => none
    else none

/-- The matching of `buf` against `entry` gets to the locals `v`: the line is
neither blank nor a comment, and some number of iterations of the matching
loop leads from its entry to `v`. -/
def Reaches (entry : SimpleConfEntry) (buf : CStr) (v : Vars) : Prop :=
  (byteAt buf (skip_spaces buf 0) == 0 || byteAt buf (skip_spaces buf 0) == 35) = false ∧
  ∃ k, loop_iter entry.in_ buf (skip_spaces buf 0) k
    (init_vars entry.in_ (skip_spaces buf 0)) = some v

/-! ## The sequencing layer -/

/-- The function `strlen` on a buffer. -/
def strlen (buf : CStr) : Nat := (buf.takeWhile (fun b => b != 0)).length

/-- The string held in a buffer: its bytes up to the first NUL. -/
def cstr (buf : CStr) : CStr := buf.takeWhile (fun b => b != 0)

/-- The `do ... while` loop of `chomp`, entered with `i + 1` for `i`. -/
def chomp_loop (str : CStr) : Nat → CStr
  | 0 => str
  | i + 1 => if isspace (byteAt str i) then chomp_loop (str.set i 0) i else str

/-- The function `chomp`, on the buffer it rewrites. -/
def chomp (str : CStr) : CStr := chomp_loop str (strlen str)

/-- The content of the buffer `line` after `fgets` has stored `chunk` in it. -/
def fgets_store (buf chunk : CStr) : CStr :=
  chunk ++ 0 :: buf.drop (chunk.length + 1)

inductive DiagKind where
  | syntaxError
  | propertyNotFound
  deriving DecidableEq, Repr

/-- A line written to `stderr`: `file:line:column: kind line line: [text].` -/
structure Diagnostic where
  kind : DiagKind
  line_count : Nat
  column : Nat
  text : CStr
  deriving DecidableEq, Repr

/-- How `sc_build_command_line_from_file` ends: `success` is the return value
`0` with the content of `*argv_p`, `failure` the return value `-1` with what
was printed, `aborted` a call of `abort()`. -/
inductive BuildResult where
  | success (argv : List CStr)
  | failure (diag : Option Diagnostic)
  | aborted
  deriving DecidableEq, Repr

/-- The diagnostic printed for an error pointer `err` into the buffer. -/
def syntax_diag (buf : CStr) (line_count : Nat) (err : Option Nat) : Diagnostic :=
  match err with
  | some e =>
    if byteAt buf e != 0 then
      { kind := .syntaxError, line_count := line_count, column := e + 1,
        text := cstr (buf.drop e) }
    else { kind := .syntaxError, line_count := line_count, column := 1, text := cstr buf }
  | none => { kind := .syntaxError, line_count := line_count, column := 1, text := cstr buf }

/-- The diagnostic printed when the `for` loop has tried every rule. -/
def exhausted_diag (buf : CStr) (line_count : Nat) (err : Option Nat) : Diagnostic :=
  match err with
  | some e =>
    if byteAt buf e != 0 then
      { kind := .syntaxError, line_count := line_count, column := e + 1,
        text := cstr (buf.drop e) }
    else
      { kind := .propertyNotFound, line_count := line_count, column := 1, text := cstr buf }
  | none =>
    { kind := .propertyNotFound, line_count := line_count, column := 1, text := cstr buf }

/-- How the `for` loop over the rules ends for one line. -/
inductive LineOutcome where
  | next (argv : List CStr) (err : Option Nat)
  | stop (r : BuildResult)
  deriving DecidableEq, Repr

/-- The `for` loop over the rules, from rule `i` on (`entries` holds the rules
not tried yet), and the check that follows it. `none` only when `try_entry`
is `none`. -/
def try_entries (buf : CStr) (line_count : Nat) :
    List SimpleConfEntry → List CStr → Option Nat → Option LineOutcome
  | [], _, err => some (.stop (.failure (some (exhausted_diag buf line_count err))))
  | e :: es, argv, err =>
    match try_entry e (cstr buf) with
    | none => none
    | some r =>
      match r.result with
      | .IGNORE => some (.next argv err)
      | .PROPNOTFOUND => try_entries buf line_count es argv err
      | .E2BIG => some (.stop (.failure none))
      | .INVALID_ENTRY => some (.stop .aborted)
      | .INTERNAL => some (.stop (.failure none))
      | .MISMATCH => try_entries buf line_count es argv r.err
      | .SYNTAX => some (.stop (.failure (some (syntax_diag buf line_count r.err))))
      | .OK =>
        match r.arg with
        | none => some (.next argv err)
        | some a =>
          if peek a == 0 then some (.next argv err)
          else if argv.length ≥ ARGC_LIMIT then some (.stop .aborted)
          else some (.next (argv ++ [a]) err)
      | .UNDEFINED => some (.stop .aborted)

/-- The `while (fgets ...)` loop: `chunks` are the strings `fgets` stores one
after the other, `buf` the content of the buffer `line` left by the previous
round. -/
def read_lines (entries : List SimpleConfEntry) :
    List CStr → CStr → Nat → List CStr → Option Nat → Option BuildResult
  | [], _, _, argv, _ => some (.success argv)
  | chunk :: rest, buf, line_count, argv, err =>
    let buf1 := chomp (fgets_store buf chunk)
    match try_entries buf1 (line_count + 1) entries argv err with
    | none => none
    | some (.stop r) => some r
    | some (.next argv1 err1) => read_lines entries rest buf1 (line_count + 1) argv1 err1

/-- The function `sc_build_command_line_from_file` on a file that `fgets`
reads as `chunks`. -/
def sc_build_command_line_from_file (chunks : List CStr) (entries : List SimpleConfEntry)
    (app_name : CStr) : Option BuildResult :=
  read_lines entries chunks [] 0 [app_name] none

/-! ## Auxiliary notions used in the statements -/

/-- The class predicate that a `STATE_MATCH_*` state tests, and whether a
matching byte resets `expect_char` in that state. -/
def class_of : State → Option ((Nat → Bool) × Bool)
  | .MATCH_ALPHA => some (isalpha, true)
  | .MATCH_ALNUM => some (isalnum, true)
  | .MATCH_DIGITS => some (isdigit, true)
  | .MATCH_XDIGITS => some (isxdigit, false)
  | .MATCH_NOSPACE => some (isgraph, true)
  | .MATCH_ANY => some (isprint, true)
  | .MATCH_SPACES => some (isspace, true)
  | _ => none

/-- The pattern text `? <bool>` that ends a boolean rule. -/
def bool_suffix : CStr := 63 :: 32 :: tag_bool

/-- The boolean literals that enable, in the order in which they are tried. -/
def true_literals : List CStr := [lit_yes, lit_on, lit_true, lit_1]

/-- The boolean literals that disable, in the order in which they are tried. -/
def false_literals : List CStr := [lit_no, lit_off, lit_false, lit_0]

/-- The class tags of the pattern language with the state each one leads to,
in the order in which `STATE_RCHAR` tries them. -/
def class_tags : List (CStr × State) :=
  [(tag_alpha, .MATCH_ALPHA), (tag_alnum, .MATCH_ALNUM), (tag_digits, .MATCH_DIGITS),
   (tag_xdigits, .MATCH_XDIGITS), (tag_nospace, .MATCH_NOSPACE), (tag_any, .MATCH_ANY)]

/-- The boolean literals with the value of `is_enabled` each one gives. -/
def bool_literals : List (CStr × Bool) :=
  [(lit_yes, true), (lit_on, true), (lit_true, true), (lit_1, true),
   (lit_no, false), (lit_off, false), (lit_false, false), (lit_0, false)]

/-- The string `s` without its trailing whitespace. -/
def rstrip (s : CStr) : CStr := s.rdropWhile isspace

/-- Whether the `for` loop over the rules goes on to the next rule after an
outcome. -/
def passes_over (r : EntryResult) : Bool := r == .PROPNOTFOUND || r == .MISMATCH

/-- The argument that a line contributes under a rule table: the expansion
handed back by the first rule, in list order, that the loop does not pass
over, when that rule returns `OK` and the expansion is not the empty string. -/
def produced (line : CStr) : List SimpleConfEntry → Option CStr
  | [] => none
  | e :: es =>
    match try_entry e line with
    | none => none
    | some r =>
      if passes_over r.result then produced line es
      else if r.result = .OK then
        match r.arg with
        | some a => if peek a == 0 then none else some a
        | none => none
      else none

/-- The error position that the rules passed over leave behind: that of the
last `MISMATCH` among them, or else the one that was there before. -/
def pending_err (line : CStr) : List SimpleConfEntry → Option Nat → Option Nat
  | [], err => err
  | e :: es, err =>
    match try_entry e line with
    | some r => pending_err line es (if r.result = .MISMATCH then r.err else err)
    | none => pending_err line es err

/-- What the `switch` does with the outcome `r` of a rule that the loop does
not pass over. -/
def decided (buf : CStr) (line_count : Nat) (r : Ret) (argv : List CStr) (err : Option Nat) :
    LineOutcome :=
  match r.result with
  | .IGNORE => .next argv err
  | .E2BIG => .stop (.failure none)
  | .INTERNAL => .stop (.failure none)
  | .INVALID_ENTRY => .stop .aborted
  | .SYNTAX => .stop (.failure (some (syntax_diag buf line_count r.err)))
  | .OK =>
    match r.arg with
    | none => .next argv err
    | some a =>
      if peek a == 0 then .next argv err
      else if argv.length ≥ ARGC_LIMIT then .stop .aborted
      else .next (argv ++ [a]) err
  | _ => .stop .aborted

/-- The text of the span of `len` bytes at the offset `str` of the line. -/
def span_text (buf : CStr) (str len : Nat) : CStr :=
  (List.range len).map (fun i => byteAt buf (str + i))

/-- A template is well formed for `n` captures: every `$` in it is followed
by `*` or by a decimal digit below `n`. -/
def well_formed (n : Nat) : CStr → Bool
  | [] => true
  | [c] => c != 36
  | c :: d :: rest =>
    if c == 36 then (d == 42 || (48 ≤ d && d ≤ 57 && d - 48 < n)) && well_formed n rest
    else well_formed n (d :: rest)

/-- The template with every `$*` replaced by the text of the wildcard span
and every `$N` by the text of capture `N`. -/
def expansion (buf : CStr) (ms : List Match) (wildcard_start wildcard_len : Nat) : CStr → CStr
  | [] => []
  | [c] => if c == 36 then [] else [c]
  | c :: d :: rest =>
    if c == 36 then
      (if d == 42 then span_text buf wildcard_start wildcard_len
       else span_text buf (ms.getD (d - 48) ⟨0, 0⟩).str (ms.getD (d - 48) ⟨0, 0⟩).str_len) ++
        expansion buf ms wildcard_start wildcard_len rest
    else c :: expansion buf ms wildcard_start wildcard_len (d :: rest)

/-- The length of the wildcard span when the matching loop has ended at the
locals `v`: `line_pnt - wildcard_start`, or `0` without a wildcard start. -/
def wildcard_len (v : Vars) : Nat :=
  match v.wildcard_start with
  | none => 0
  | some w => v.line_pnt - w

/-- The pattern of `entry` matches the line held in `buf`: the matching loop
gets to the locals `v`, ends there, and the checks that follow it hand the
captures `ms` over to the expansion of the template. -/
def Matches (entry : SimpleConfEntry) (buf : CStr) (v : Vars) (ms : List Match) : Prop :=
  Reaches entry buf v ∧ loop_cond buf v = false ∧
    after_loop_checks buf (skip_spaces buf 0) v = .inr ms

/-- The number of steps of the expansion loop of `try_entry`: one for each
iteration of the outer loop and one for each byte copied by a `$*` or `$N`
loop. `arg_len` is the number of bytes written so far. -/
def expand_steps (ms : List Match) (wildcard_len : Nat) : State → CStr → Nat → Nat
  | _, [], _ => 0
  | st, d :: out, arg_len =>
    if arg_len < MAX_ARG_LENGTH && d != 0 then
      match st with
      | .TEMPLATE_RCHAR =>
        if d == 36 then 1 + expand_steps ms wildcard_len .TEMPLATE_SUBST_ESC out arg_len
        else 1 + expand_steps ms wildcard_len .TEMPLATE_RCHAR out (arg_len + 1)
      | .TEMPLATE_SUBST_ESC =>
        if d == 42 then
          1 + min wildcard_len (MAX_ARG_LENGTH - arg_len) +
            expand_steps ms wildcard_len .TEMPLATE_RCHAR out
              (arg_len + min wildcard_len (MAX_ARG_LENGTH - arg_len))
        else if 48 ≤ d && d ≤ 57 then
          let match_id := d - 48
          if match_id ≥ ms.length then 1
          else
            1 + min (ms.getD match_id ⟨0, 0⟩).str_len (MAX_ARG_LENGTH - arg_len) +
              expand_steps ms wildcard_len .TEMPLATE_RCHAR out
                (arg_len + min (ms.getD match_id ⟨0, 0⟩).str_len (MAX_ARG_LENGTH - arg_len))
        else 1
      | _ => 1
    else 0

/-- What one iteration of the matching loop that does not return changes,
from the locals `v` to `v1`: it steps over a word `w` of the pattern and over
`n` bytes of the line, none of them a terminator; the word is empty, or the one
byte `*in_pnt`, or a tag (no `)` in it); the iteration leaves `*in_pnt` in `d`;
it records at most one capture, and only when it steps over a `)`; and when it
moves neither position it goes to a state of lower rank. -/
def step_shape (buf : CStr) (v v1 : Vars) : Prop :=
  ∃ (w : CStr) (n : Nat),
    v.in_pnt = w ++ v1.in_pnt ∧ (∀ b ∈ w, b ≠ 0) ∧
    (w = [] ∨ w = [peek v.in_pnt] ∨ ∀ b ∈ w, b ≠ 41) ∧
    v1.line_pnt = v.line_pnt + n ∧ (∀ i, i < n → byteAt buf (v.line_pnt + i) ≠ 0) ∧
    v1.d = peek v.in_pnt ∧
    (v1.matches_ = v.matches_ ∨
      (∃ m, v1.matches_ = v.matches_ ++ [m]) ∧ w = [41] ∧ v.matches_.length < MATCHES_CAP) ∧
    (w ≠ [] ∨ 0 < n ∨ (state_rank v1.state < state_rank v.state))

/-- From the locals `v` to `v1` one of the two positions has advanced: the
pattern position over a non-empty word, or the line position over at least one
byte, and no byte stepped over is the terminator. -/
def advances (buf : CStr) (v v1 : Vars) : Prop :=
  (∃ w, w ≠ [] ∧ (∀ b ∈ w, b ≠ 0) ∧ v.in_pnt = w ++ v1.in_pnt) ∨
  (∃ n, 0 < n ∧ v1.line_pnt = v.line_pnt + n ∧ ∀ i, i < n → byteAt buf (v.line_pnt + i) ≠ 0)

/-- The iteration of the matching loop at the locals `v` returns, or advances
one of the two positions. -/
def settles (e_in buf : CStr) (line : Nat) (v : Vars) : Prop :=
  (∃ r, loop_body e_in buf line v = .ret r) ∨
  (∃ v1, loop_body e_in buf line v = .cont v1 ∧ advances buf v v1)

/-- The iteration at `v` goes to the locals `v1` and moves neither position. -/
def switches (e_in buf : CStr) (line : Nat) (v v1 : Vars) : Prop :=
  loop_body e_in buf line v = .cont v1 ∧ v1.in_pnt = v.in_pnt ∧ v1.line_pnt = v.line_pnt

/-- A valid separator between the property name and the value: one or more
whitespace bytes, or one `=` or `:` with optional whitespace around it. -/
def valid_separator (sep : CStr) : Prop :=
  (sep ≠ [] ∧ ∀ b ∈ sep, isspace b = true) ∨
  ∃ S1 s S2, sep = S1 ++ s :: S2 ∧ (s = 61 ∨ s = 58) ∧
    (∀ b ∈ S1, isspace b = true) ∧ (∀ b ∈ S2, isspace b = true)

/-- The pattern `name (<nospace>)`. -/
def nospace_pattern : CStr := ofString "name (<nospace>)"

/-- The first `k` bytes of the line, after its leading blanks, are those of
`name` up to letter case. -/
def name_matched (buf : CStr) (k : Nat) : Prop :=
  ∀ i, i < k → tolower (byteAt buf (skip_spaces buf 0 + i)) = tolower (nospace_pattern.getD i 0)

/-- The bytes of the line from offset `a` up to offset `w` are a separator:
there is at least one, and they are whitespace, but for at most one `=` or
`:`. -/
def separator_zone (buf : CStr) (a w : Nat) : Prop :=
  a < w ∧
  ((∀ i, a ≤ i → i < w → isspace (byteAt buf i) = true) ∨
    ∃ j, a ≤ j ∧ j < w ∧ (byteAt buf j = 61 ∨ byteAt buf j = 58) ∧
      ∀ i, a ≤ i → i < w → i ≠ j → isspace (byteAt buf i) = true)

/-- Offset `w` is where the value of a `name` line starts: the line, after
its leading blanks, is `name` up to letter case, then a separator up to `w`,
and the byte at `w` is neither whitespace nor `=` nor `:`. -/
def value_start (buf : CStr) (w : Nat) : Prop :=
  name_matched buf 4 ∧ separator_zone buf (skip_spaces buf 0 + 4) w ∧
  isspace (byteAt buf w) = false ∧ byteAt buf w ≠ 61 ∧ byteAt buf w ≠ 58

/-- The locals of the matching loop for the pattern `name (<nospace>)`, phase
by phase. -/
inductive nospace_inv (buf : CStr) : Vars → Prop where
  | in_name (v : Vars) (k : Nat) : v.state = .PROPNAME → k ≤ 4 →
      v.in_pnt = nospace_pattern.drop k → v.line_pnt = skip_spaces buf 0 + k →
      name_matched buf k → v.matches_ = [] → nospace_inv buf v
  | after_name (v : Vars) : v.state = .AFTERPROPNAME → v.in_pnt = nospace_pattern.drop 5 →
      v.line_pnt = skip_spaces buf 0 + 4 → name_matched buf 4 → v.matches_ = [] →
      nospace_inv buf v
  | blanks (v : Vars) : v.state = .AFTERPROPNAME2 → v.in_pnt = nospace_pattern.drop 5 →
      skip_spaces buf 0 + 4 < v.line_pnt →
      (∀ i, skip_spaces buf 0 + 4 ≤ i → i < v.line_pnt → isspace (byteAt buf i) = true) →
      name_matched buf 4 → v.matches_ = [] → nospace_inv buf v
  | after_sep (v : Vars) : v.state = .AFTERPROPNAMESEP → v.in_pnt = nospace_pattern.drop 5 →
      separator_zone buf (skip_spaces buf 0 + 4) v.line_pnt →
      ((∃ j, skip_spaces buf 0 + 4 ≤ j ∧ j < v.line_pnt ∧
          (byteAt buf j = 61 ∨ byteAt buf j = 58)) ∨
        (isspace (byteAt buf v.line_pnt) = false ∧ byteAt buf v.line_pnt ≠ 61 ∧
          byteAt buf v.line_pnt ≠ 58)) →
      name_matched buf 4 → v.matches_ = [] → nospace_inv buf v
  | at_open (v : Vars) : v.state = .RCHAR → v.in_pnt = nospace_pattern.drop 5 →
      v.wildcard_start = some v.line_pnt → value_start buf v.line_pnt → v.matches_ = [] →
      nospace_inv buf v
  | at_tag (v : Vars) : v.state = .RCHAR → v.in_pnt = nospace_pattern.drop 6 →
      v.wildcard_start = some v.line_pnt → v.match_start = some v.line_pnt →
      value_start buf v.line_pnt → v.matches_ = [] → nospace_inv buf v
  | in_value (v : Vars) (w : Nat) : (v.state = .MATCH_NOSPACE ∨ v.state = .RCHAR) →
      v.in_pnt = nospace_pattern.drop 15 →
      v.wildcard_start = some w → v.match_start = some w → value_start buf w →
      w ≤ v.line_pnt → (∀ i, w ≤ i → i < v.line_pnt → isgraph (byteAt buf i) = true) →
      v.matches_ = [] → nospace_inv buf v
  | closed (v : Vars) (w : Nat) : v.state = .RCHAR → v.in_pnt = [] →
      v.wildcard_start = some w → v.match_start = some w → value_start buf w →
      w < v.line_pnt → (∀ i, w ≤ i → i < v.line_pnt → isgraph (byteAt buf i) = true) →
      v.matches_ = [{ str := w, str_len := v.line_pnt - w }] → v.d = 41 → nospace_inv buf v

/-! # Theorems -/

/-! ### Bytes, pointers and prefix_match -/

theorem lor_eq_zero {a b : Nat} : a ||| b = 0 ↔ a = 0 ∧ b = 0 := by
  constructor
  · intro h
    have key : ∀ i, a.testBit i = false ∧ b.testBit i = false := by
      intro i
      have := congrArg (fun n => n.testBit i) h
      simpa [Nat.testBit_or] using this
    exact ⟨Nat.eq_of_testBit_eq (fun i => by simp [(key i).1]),
      Nat.eq_of_testBit_eq (fun i => by simp [(key i).2])⟩
  · rintro ⟨rfl, rfl⟩; simp

theorem prefix_match_x_acc (s p : CStr) (x : Nat) :
    prefix_match_x s p x = x ||| prefix_match_x s p 0 := by
  induction s generalizing p x with
  | nil => cases p <;> simp [prefix_match_x]
  | cons a s ih =>
    cases p with
    | nil => simp [prefix_match_x]
    | cons b p =>
      simp only [prefix_match_x]
      rw [ih p (x ||| (tolower a ^^^ tolower b)), ih p (0 ||| (tolower a ^^^ tolower b))]
      simp [Nat.or_assoc]

@[simp] theorem prefix_match_nil (s : CStr) : prefix_match s [] = true := by
  cases s <;> simp [prefix_match, prefix_match_x]

@[simp] theorem prefix_match_nil_cons (b : Nat) (p : CStr) : prefix_match [] (b :: p) = false := by
  simp [prefix_match]

theorem prefix_match_cons (a b : Nat) (s p : CStr) :
    prefix_match (a :: s) (b :: p) = (tolower a == tolower b && prefix_match s p) := by
  unfold prefix_match
  simp only [List.length_cons, Nat.add_lt_add_iff_right, prefix_match_x]
  by_cases hl : s.length < p.length
  · simp [hl]
  · simp only [hl, if_false]
    rw [prefix_match_x_acc]
    rw [Bool.eq_iff_iff]
    simp [lor_eq_zero, Nat.xor_eq_zero]

theorem byteAt_ne_zero_lt {buf : CStr} {i : Nat} (h : byteAt buf i ≠ 0) : i < buf.length := by
  by_contra hlt
  apply h
  unfold byteAt
  rw [List.getD_eq_default _ _ (Nat.le_of_not_lt hlt)]

theorem peek_ne_zero_tail {p : CStr} (h : peek p ≠ 0) : p.tail.length + 1 = p.length := by
  cases p with
  | nil => simp [peek] at h
  | cons a t => simp

theorem prefix_match_length {s p : CStr} (h : prefix_match s p = true) : p.length ≤ s.length := by
  unfold prefix_match at h
  split at h
  · simp at h
  · omega

theorem isspace_ne_zero {c : Nat} (h : isspace c = true) : c ≠ 0 := by
  rintro rfl; simp [isspace] at h

theorem class_ne_zero {c : Nat} :
    (isalpha c = true → c ≠ 0) ∧ (isalnum c = true → c ≠ 0) ∧ (isdigit c = true → c ≠ 0) ∧
    (isxdigit c = true → c ≠ 0) ∧ (isgraph c = true → c ≠ 0) ∧ (isprint c = true → c ≠ 0) := by
  refine ⟨?_, ?_, ?_, ?_, ?_, ?_⟩ <;> rintro h rfl <;>
    simp [isalpha, isalnum, isdigit, isxdigit, isgraph, isprint, isupper, islower] at h

theorem boolean_case_measure (buf : CStr) (line : Nat) (v v1 : Vars)
    (hs : v.state = .MATCH_BOOLEAN)
    (h : boolean_case buf line v = .cont v1) :
    loop_measure buf v1 < loop_measure buf v := by
  unfold boolean_case at h
  dsimp only at h
  have hl : lit_yes.length = 3 ∧ lit_on.length = 2 ∧ lit_true.length = 4 ∧ lit_1.length = 1 ∧
      lit_no.length = 2 ∧ lit_off.length = 3 ∧ lit_false.length = 5 ∧ lit_0.length = 1 := by
    decide
  obtain ⟨l1, l2, l3, l4, l5, l6, l7, l8⟩ := hl
  repeat' (split at h)
  all_goals try (cases h; done)
  all_goals
    cases h
    rename_i hm
    have := prefix_match_length hm
    simp only [loop_measure, hs, state_rank, List.length_drop] at this ⊢
    omega

theorem tag_lengths : tag_alpha.length = 7 ∧ tag_alnum.length = 7 ∧ tag_digits.length = 8 ∧
      tag_xdigits.length = 9 ∧ tag_nospace.length = 9 ∧ tag_any.length = 5 ∧
      tag_bool.length = 6 := by decide

theorem rchar_case_measure (buf : CStr) (line : Nat) (v v1 : Vars) (c : Nat)
    (hs : v.state = .RCHAR)
    (h : rchar_case buf line v c (peek v.in_pnt) = .cont v1) :
    loop_measure buf v1 < loop_measure buf v := by
  unfold rchar_case at h
  obtain ⟨t1, t2, t3, t4, t5, t6, t7⟩ := tag_lengths
  by_cases h0 : (peek v.in_pnt == 0) = true
  · rw [if_pos h0] at h; cases h
  rw [if_neg h0] at h
  have hp := peek_ne_zero_tail (p := v.in_pnt) (by simpa using h0)
  by_cases h1 : (peek v.in_pnt == 40) = true
  · rw [if_pos h1] at h; cases h
    simp only [loop_measure, hs, state_rank]; omega
  rw [if_neg h1] at h
  by_cases h2 : (peek v.in_pnt == 41) = true
  · rw [if_pos h2] at h
    cases hm : v.match_start with
    | none => rw [hm] at h; cases h
    | some ms =>
      rw [hm] at h
      dsimp only at h
      by_cases hc : v.matches_.length ≥ MATCHES_CAP
      · rw [if_pos hc] at h; cases h
      · rw [if_neg hc] at h
        cases ha : add_to_matches buf v.matches_ ms v.line_pnt with
        | none => rw [ha] at h; cases h
        | some m =>
          rw [ha] at h; cases h
          simp only [loop_measure, hs, state_rank]; omega
  rw [if_neg h2] at h
  by_cases g0 : prefix_match v.in_pnt tag_alpha = true
  · rw [if_pos g0] at h; cases h
    have := prefix_match_length g0
    simp only [loop_measure, hs, state_rank, List.length_drop]; omega
  rw [if_neg g0] at h
  by_cases g1 : prefix_match v.in_pnt tag_alnum = true
  · rw [if_pos g1] at h; cases h
    have := prefix_match_length g1
    simp only [loop_measure, hs, state_rank, List.length_drop]; omega
  rw [if_neg g1] at h
  by_cases g2 : prefix_match v.in_pnt tag_digits = true
  · rw [if_pos g2] at h; cases h
    have := prefix_match_length g2
    simp only [loop_measure, hs, state_rank, List.length_drop]; omega
  rw [if_neg g2] at h
  by_cases g3 : prefix_match v.in_pnt tag_xdigits = true
  · rw [if_pos g3] at h; cases h
    have := prefix_match_length g3
    simp only [loop_measure, hs, state_rank, List.length_drop]; omega
  rw [if_neg g3] at h
  by_cases g4 : prefix_match v.in_pnt tag_nospace = true
  · rw [if_pos g4] at h; cases h
    have := prefix_match_length g4
    simp only [loop_measure, hs, state_rank, List.length_drop]; omega
  rw [if_neg g4] at h
  by_cases g5 : prefix_match v.in_pnt tag_any = true
  · rw [if_pos g5] at h; cases h
    have := prefix_match_length g5
    simp only [loop_measure, hs, state_rank, List.length_drop]; omega
  rw [if_neg g5] at h
  by_cases g6 : prefix_match v.in_pnt tag_bool = true
  · rw [if_pos g6] at h
    by_cases ge : v.is_enabled = true
    · rw [if_pos ge] at h; cases h
    · rw [if_neg ge] at h; cases h
      have := prefix_match_length g6
      simp only [loop_measure, hs, state_rank, List.length_drop]; omega
  rw [if_neg g6] at h
  repeat' (split at h)
  all_goals try (cases h; done)
  all_goals
    cases h
    simp only [loop_measure, hs, state_rank]; omega

theorem loop_body_measure (e_in buf : CStr) (line : Nat) (v v1 : Vars)
    (h : loop_body e_in buf line v = .cont v1) :
    loop_measure buf v1 < loop_measure buf v := by
  have hP : peek v.in_pnt ≠ 0 → v.in_pnt.tail.length + 1 = v.in_pnt.length := peek_ne_zero_tail
  have hB : byteAt buf v.line_pnt ≠ 0 → v.line_pnt < buf.length := byteAt_ne_zero_lt
  unfold loop_body at h
  dsimp only at h
  split at h
  case h_5 hs => exact rchar_case_measure buf line { v with d := peek v.in_pnt } v1 _ hs h
  case h_13 hs => exact boolean_case_measure buf line { v with d := peek v.in_pnt } v1 hs h
  all_goals
    rename_i hs
    repeat' (split at h)
    all_goals try (cases h; done)
    all_goals
      cases h
      simp only [loop_measure, hs, state_rank]
      first
      | omega
      | (have hd : peek v.in_pnt ≠ 0 := by
           intro h0
           simp_all [isspace]
         have := hP hd; omega)
      | (have hc : byteAt buf v.line_pnt ≠ 0 := by
           intro h0
           simp_all [isspace, isalpha, isalnum, isdigit, isxdigit, isgraph, isprint, isupper,
             islower]
         have := hB hc; omega)

/-! ### The matching loop ends -/

theorem run_loop_fuel (e_in buf : CStr) (line : Nat) :
    ∀ (n m : Nat) (v : Vars), loop_measure buf v < n → loop_measure buf v < m →
      run_loop e_in buf line n v = run_loop e_in buf line m v ∧
      run_loop e_in buf line n v ≠ none := by
  intro n
  induction n with
  | zero => intro m v h; omega
  | succ n ih =>
    intro m v hn hm
    obtain ⟨m, rfl⟩ : ∃ k, m = k + 1 := ⟨m - 1, by omega⟩
    simp only [run_loop]
    by_cases hc : loop_cond buf v = true
    · simp only [hc, if_true]
      cases hb : loop_body e_in buf line v with
      | cont v1 =>
        have := loop_body_measure e_in buf line v v1 hb
        exact ih m v1 (by omega) (by omega)
      | ret r => simp
    · simp [hc]

theorem run_eq (e_in buf : CStr) (line : Nat) (v : Vars) :
    run e_in buf line v =
      if loop_cond buf v then
        match loop_body e_in buf line v with
        | .cont v1 => run e_in buf line v1
        | .ret r => some (.ret r)
      else some (.cont v) := by
  unfold run
  simp only [run_loop]
  by_cases hc : loop_cond buf v = true
  · simp only [hc, if_true]
    cases hb : loop_body e_in buf line v with
    | cont v1 =>
      have := loop_body_measure e_in buf line v v1 hb
      exact (run_loop_fuel e_in buf line (loop_measure buf v) (loop_measure buf v1 + 1) v1
        (by omega) (by omega)).1
    | ret r => rfl
  · simp [hc]

theorem run_ne_none (e_in buf : CStr) (line : Nat) (v : Vars) : run e_in buf line v ≠ none :=
  (run_loop_fuel e_in buf line _ _ v (Nat.lt_succ_self _) (Nat.lt_succ_self _)).2

theorem try_from_eq (entry : SimpleConfEntry) (buf : CStr) (line : Nat) (v : Vars) :
    try_from entry buf line v =
      if loop_cond buf v then
        match loop_body entry.in_ buf line v with
        | .cont v1 => try_from entry buf line v1
        | .ret r => some r
      else some (after_loop entry.out buf line v) := by
  unfold try_from
  rw [run_eq]
  by_cases hc : loop_cond buf v = true
  · simp only [hc, if_true]
    cases hb : loop_body entry.in_ buf line v <;> rfl
  · simp [hc]

theorem try_from_cont {entry : SimpleConfEntry} {buf : CStr} {line : Nat} {v : Vars} (v1 : Vars)
    (hc : loop_cond buf v = true) (hb : loop_body entry.in_ buf line v = .cont v1) :
    try_from entry buf line v = try_from entry buf line v1 := by
  rw [try_from_eq, hc, if_pos rfl, hb]

theorem try_from_ret {entry : SimpleConfEntry} {buf : CStr} {line : Nat} {v : Vars} {r : Ret}
    (hc : loop_cond buf v = true) (hb : loop_body entry.in_ buf line v = .ret r) :
    try_from entry buf line v = some r := by
  rw [try_from_eq, hc, if_pos rfl, hb]

theorem try_from_done {entry : SimpleConfEntry} {buf : CStr} {line : Nat} {v : Vars}
    (hc : loop_cond buf v = false) :
    try_from entry buf line v = some (after_loop entry.out buf line v) := by
  rw [try_from_eq, hc]; rfl

theorem try_from_ne_none (entry : SimpleConfEntry) (buf : CStr) (line : Nat) (v : Vars) :
    try_from entry buf line v ≠ none := by
  unfold try_from
  have := run_ne_none entry.in_ buf line v
  cases h : run entry.in_ buf line v with
  | none => exact absurd h this
  | some s => cases s <;> simp

theorem try_from_iter {entry : SimpleConfEntry} {buf : CStr} {line : Nat} :
    ∀ (k : Nat) (v v1 : Vars), loop_iter entry.in_ buf line k v = some v1 →
      try_from entry buf line v = try_from entry buf line v1 := by
  intro k
  induction k with
  | zero => intro v v1 h; simp only [loop_iter, Option.some.injEq] at h; rw [h]
  | succ k ih =>
    intro v v1 h
    simp only [loop_iter] at h
    by_cases hc : loop_cond buf v = true
    · simp only [hc, if_true] at h
      cases hb : loop_body entry.in_ buf line v with
      | cont v2 =>
        rw [hb] at h
        rw [try_from_cont v2 hc hb]
        exact ih v2 v1 h
      | ret r => rw [hb] at h; cases h
    · simp [hc] at h

theorem try_entry_total (entry : SimpleConfEntry) (buf : CStr) : try_entry entry buf ≠ none := by
  unfold try_entry
  dsimp only
  split
  · simp
  · exact try_from_ne_none _ _ _ _

/-! ### The phases of a match -/

theorem tolower_eq_zero {c : Nat} : tolower c = 0 ↔ c = 0 := by
  unfold tolower
  split
  · simp_all [isupper]; omega
  · rfl

theorem byteAt_of_drop {buf : CStr} {i c : Nat} {t : CStr} (h : buf.drop i = c :: t) :
    byteAt buf i = c ∧ buf.drop (i + 1) = t := by
  constructor
  · unfold byteAt
    have : buf.getD i 0 = (buf.drop i).getD 0 0 := by simp [List.getD_eq_getElem?_getD]
    rw [this, h]; rfl
  · have : buf.drop (i + 1) = (buf.drop i).drop 1 := by simp [List.drop_drop, Nat.add_comm]
    rw [this, h]; rfl

theorem byteAt_of_drop_nil {buf : CStr} {i : Nat} (h : buf.drop i = []) : byteAt buf i = 0 := by
  unfold byteAt
  have : buf.getD i 0 = (buf.drop i).getD 0 0 := by simp [List.getD_eq_getElem?_getD]
  rw [this, h]; rfl

theorem propname_phase (entry : SimpleConfEntry) (buf : CStr) (line : Nat) (w : Nat) (V rest : CStr)
    (hw : isspace w = true) :
    ∀ (N L : CStr) (v : Vars), v.state = .PROPNAME → v.in_pnt = N ++ w :: V →
      (∀ b ∈ N, isspace b = false ∧ b ≠ 0) →
      buf.drop v.line_pnt = L ++ rest →
      L.map tolower = (N.filter (fun b => b != 63)).map tolower →
      try_from entry buf line v = try_from entry buf line
        { v with in_pnt := V, line_pnt := v.line_pnt + L.length, state := .AFTERPROPNAME,
                 is_boolean := v.is_boolean || N.contains 63, d := w } := by
  intro N
  induction N with
  | nil =>
    intro L v hs hin _ hbuf hL
    have hL0 : L = [] := by simpa using hL
    subst hL0
    have hw0 := isspace_ne_zero hw
    rw [try_from_cont ({ v with in_pnt := V, state := .AFTERPROPNAME, d := w })]
    · simp
    · simp [loop_cond, hin, peek, hw0]
    · simp [loop_body, hs, hin, peek, hw]
  | cons b N ih =>
    intro L v hs hin hN hbuf hL
    have hb := hN b (by simp)
    have hN1 : ∀ b ∈ N, isspace b = false ∧ b ≠ 0 := fun x hx => hN x (by simp [hx])
    by_cases hq : b = 63
    · subst hq
      rw [try_from_cont ({ v with in_pnt := N ++ w :: V, is_boolean := true, d := 63 })]
      · rw [ih L { v with in_pnt := N ++ w :: V, is_boolean := true, d := 63 } hs rfl hN1 hbuf
          (by simpa using hL)]
        simp
      · simp [loop_cond, hin, peek]
      · simp [loop_body, hs, hin, peek, isspace]
    · have hL1 : L.map tolower = tolower b :: (N.filter (fun b => b != 63)).map tolower := by
        simpa [List.filter_cons, hq] using hL
      cases L with
      | nil => simp at hL1
      | cons c L =>
        simp only [List.map_cons, List.cons.injEq] at hL1
        have hc0 : c ≠ 0 := by
          intro h0
          have : tolower b = 0 := by rw [← hL1.1, h0]; rfl
          exact hb.2 (tolower_eq_zero.mp this)
        obtain ⟨hc, hdrop⟩ := byteAt_of_drop (t := L ++ rest) (by simpa using hbuf)
        rw [try_from_cont ({ v with in_pnt := N ++ w :: V, line_pnt := v.line_pnt + 1, d := b })]
        · rw [ih L { v with in_pnt := N ++ w :: V, line_pnt := v.line_pnt + 1, d := b } hs rfl hN1
            hdrop hL1.2]
          have hq1 : ¬ (63 = b) := fun h => hq h.symm
          simp [hq1, Nat.add_assoc, Nat.add_comm 1]
        · simp [loop_cond, hin, peek, hb.2]
        · simp [loop_body, hs, hin, peek, hb.1, hq, hc, hc0, hb.2, hL1.1]

theorem class_of_zero {st : State} {p : Nat → Bool} {clr : Bool}
    (h : class_of st = some (p, clr)) : p 0 = false := by
  cases st <;> simp [class_of] at h <;> obtain ⟨rfl, _⟩ := h <;> rfl

theorem loop_body_class {e_in buf : CStr} {line : Nat} {v : Vars} {p : Nat → Bool} {clr : Bool}
    (h : class_of v.state = some (p, clr)) :
    loop_body e_in buf line v =
      if p (byteAt buf v.line_pnt) then
        .cont { v with d := peek v.in_pnt, expect_char := v.expect_char && !clr,
                       line_pnt := v.line_pnt + 1 }
      else .cont { v with d := peek v.in_pnt, state := .RCHAR } := by
  cases hs : v.state <;> rw [hs] at h <;> simp [class_of] at h <;> obtain ⟨rfl, rfl⟩ := h <;>
    simp [loop_body, hs]

theorem class_run (entry : SimpleConfEntry) (buf : CStr) (line : Nat) (p : Nat → Bool) (clr : Bool)
    (rest : CStr) :
    ∀ (R : CStr) (v : Vars), R ≠ [] → class_of v.state = some (p, clr) →
      buf.drop v.line_pnt = R ++ rest → (∀ b ∈ R, p b = true) →
      try_from entry buf line v = try_from entry buf line
        { v with line_pnt := v.line_pnt + R.length, expect_char := v.expect_char && !clr,
                 d := peek v.in_pnt } := by
  intro R
  induction R with
  | nil => intro v h; exact absurd rfl h
  | cons x R ih =>
    intro v _ hcl hbuf hp
    obtain ⟨hc, hdrop⟩ := byteAt_of_drop (t := R ++ rest) (by simpa using hbuf)
    have hx : p x = true := hp x (by simp)
    have hx0 : x ≠ 0 := by
      rintro rfl
      rw [class_of_zero hcl] at hx
      cases hx
    have hstep : try_from entry buf line v = try_from entry buf line
        { v with d := peek v.in_pnt, expect_char := v.expect_char && !clr,
                 line_pnt := v.line_pnt + 1 } :=
      try_from_cont _ (by simp [loop_cond, hc, hx0]) (by rw [loop_body_class hcl, hc, hx]; rfl)
    rw [hstep]
    cases R with
    | nil => simp
    | cons y R =>
      rw [ih { v with d := peek v.in_pnt, expect_char := v.expect_char && !clr,
                      line_pnt := v.line_pnt + 1 } (by simp) hcl hdrop
            (fun b hb => hp b (by simp [hb]))]
      simp [Nat.add_assoc, Nat.add_comm 1]

theorem class_exit (entry : SimpleConfEntry) (buf : CStr) (line : Nat) (p : Nat → Bool) (clr : Bool)
    (v : Vars) (hcl : class_of v.state = some (p, clr)) (hc : loop_cond buf v = true)
    (hp : p (byteAt buf v.line_pnt) = false) :
    try_from entry buf line v =
      try_from entry buf line { v with d := peek v.in_pnt, state := .RCHAR } := by
  rw [try_from_cont _ hc (by rw [loop_body_class hcl, hp]; rfl)]

theorem skip_spaces_stay {buf : CStr} {s : Nat} (h : isspace (byteAt buf s) = false) :
    skip_spaces buf s = s := by
  unfold skip_spaces
  cases hd : buf.drop s with
  | nil => simp [skip_spaces_count]
  | cons c t =>
    rw [(byteAt_of_drop hd).1] at h
    simp [skip_spaces_count, h]

theorem add_to_matches_plain {buf : CStr} {ms : List Match} {s e : Nat}
    (h1 : isspace (byteAt buf s) = false) (hse : s < e) (he : e < SIZE_T_MOD)
    (h2 : isspace (byteAt buf (e - 1)) = false) :
    add_to_matches buf ms s e = some (ms ++ [{ str := s, str_len := e - s }]) := by
  unfold add_to_matches
  rw [skip_spaces_stay h1]
  have hlen : (e + SIZE_T_MOD - s) % SIZE_T_MOD = (e - s - 1) + 1 := by
    have : e + SIZE_T_MOD - s = (e - s) + SIZE_T_MOD := by omega
    rw [this, Nat.add_mod_right, Nat.mod_eq_of_lt (by omega)]; omega
  dsimp only
  rw [hlen]
  have hidx : (s + (e - s - 1)) % SIZE_T_MOD = e - 1 := by
    rw [Nat.mod_eq_of_lt (by omega)]; omega
  simp only [trim_len, hidx, h2]
  have h3 : e - s - 1 + 1 = e - s := by omega
  have h4 : ¬ (e - s = 0) := by omega
  simp [h3, h4]

theorem copy_bounded_plain {buf arg : CStr} {str len : Nat}
    (h1 : str + len ≤ buf.length) (h2 : arg.length + len ≤ MAX_ARG_LENGTH) :
    copy_bounded buf arg str len = arg ++ (buf.drop str).take len := by
  unfold copy_bounded
  congr 1
  rw [Nat.min_eq_left (by omega)]
  apply List.ext_getElem
  · simp; omega
  · intro i hi1 hi2
    simp at hi1
    simp [byteAt, List.getD_eq_getElem?_getD, List.getElem?_eq_getElem (show str + i < buf.length by omega)]

theorem expand_literal (buf : CStr) (ms : List Match) (ws wl : Nat) (out : CStr) :
    ∀ (T arg : CStr), (∀ b ∈ T, b ≠ 0 ∧ b ≠ 36) → arg.length + T.length ≤ MAX_ARG_LENGTH →
      expand buf ms ws wl .TEMPLATE_RCHAR (T ++ out) arg =
        expand buf ms ws wl .TEMPLATE_RCHAR out (arg ++ T) := by
  intro T
  induction T with
  | nil => intro arg _ _; simp
  | cons t T ih =>
    intro arg hT hlen
    have ht := hT t (by simp)
    simp only [List.length_cons] at hlen
    have : arg.length < MAX_ARG_LENGTH := by omega
    simp only [List.cons_append, expand]
    simp only [this, ht.1, ht.2, decide_True, Bool.true_and, bne_iff_ne, ne_eq, not_false_eq_true,
      if_true, beq_iff_eq, if_false]
    have h3 := ih (arg ++ [t]) (fun b hb => hT b (by simp [hb])) (by simp; omega)
    simp only [List.append_assoc, List.singleton_append] at h3
    exact h3

theorem byteAt_append_right (pre s : CStr) (i : Nat) :
    byteAt (pre ++ s) (pre.length + i) = byteAt s i := by
  unfold byteAt
  simp [List.getD_eq_getElem?_getD, List.getElem?_append_right]

theorem isdigit_facts {x : Nat} (h : isdigit x = true) :
    isspace x = false ∧ x ≠ 61 ∧ x ≠ 58 ∧ x ≠ 0 := by
  have : 48 ≤ x ∧ x ≤ 57 := by simpa [isdigit] using h
  refine ⟨?_, by omega, by omega, by omega⟩
  simp [isspace]; omega

theorem byteAt_last (pre D : CStr) (hD : D ≠ []) (p : Nat → Bool) (hp : ∀ b ∈ D, p b = true) :
    p (byteAt (pre ++ D) (pre.length + D.length - 1)) = true := by
  have hl : 0 < D.length := List.length_pos.mpr hD
  have : pre.length + D.length - 1 = pre.length + (D.length - 1) := by omega
  rw [this, byteAt_append_right]
  unfold byteAt
  rw [List.getD_eq_getElem _ _ (by omega)]
  exact hp _ (List.getElem_mem _)

theorem tolower_idem (c : Nat) : tolower (tolower c) = tolower c := by
  unfold tolower
  by_cases h : isupper c = true
  · have : isupper (c + 32) = false := by simp [isupper] at h ⊢; omega
    simp [h, this]
  · simp [h]

theorem prefix_match_iff (s p : CStr) :
    prefix_match s p = true ↔ p.map tolower <+: s.map tolower := by
  induction p generalizing s with
  | nil => simp
  | cons b p ih =>
    cases s with
    | nil => simp
    | cons a s =>
      rw [prefix_match_cons]
      simp only [Bool.and_eq_true, beq_iff_eq, List.map_cons, ih]
      rw [List.cons_prefix_cons]
      constructor
      · rintro ⟨h1, h2⟩; exact ⟨h1.symm, h2⟩
      · rintro ⟨h1, h2⟩; exact ⟨h1.symm, h2⟩

/-- A byte whose lower-case form is a lower-case letter or a digit is neither
blank, nor a separator, nor NUL. -/
theorem tolower_alnum_facts {c k : Nat} (h : tolower c = k)
    (hk : (97 ≤ k ∧ k ≤ 122) ∨ (48 ≤ k ∧ k ≤ 57)) :
    isspace c = false ∧ c ≠ 61 ∧ c ≠ 58 ∧ c ≠ 0 := by
  unfold tolower at h
  by_cases hu : isupper c = true
  · simp only [hu, if_true] at h
    simp only [isupper, Bool.and_eq_true, decide_eq_true_eq] at hu
    refine ⟨?_, by omega, by omega, by omega⟩
    simp [isspace]; omega
  · simp only [hu, Bool.false_eq_true, if_false] at h
    subst h
    refine ⟨?_, by omega, by omega, by omega⟩
    simp [isspace]; omega

/-- A boolean rule `P? <bool>` on a line `P tok` gets to the `<bool>` tag with
the line pointer on the first byte of `tok`. -/
theorem bool_rule_reach (P T tok : CStr) (t0 : Nat) (tok1 : CStr) (htok : tok = t0 :: tok1)
    (hP : P ≠ []) (hPb : ∀ b ∈ P, isspace b = false ∧ b ≠ 0 ∧ b ≠ 63) (hP0 : P.headD 0 ≠ 35)
    (ht0 : isspace t0 = false ∧ t0 ≠ 61 ∧ t0 ≠ 58 ∧ t0 ≠ 0) :
    try_entry ⟨P ++ bool_suffix, T⟩ (P ++ 32 :: tok) =
      try_from ⟨P ++ bool_suffix, T⟩ (P ++ 32 :: tok) 0
        { in_pnt := [], line_pnt := P.length + 1, match_start := none,
          wildcard_start := some (P.length + 1), matches_ := [], state := .MATCH_BOOLEAN,
          expect_char := false, is_boolean := true, is_enabled := false, d := 60 } := by
  subst htok
  obtain ⟨p0, P1, rfl⟩ : ∃ p0 P1, P = p0 :: P1 := by
    cases P with
    | nil => exact absurd rfl hP
    | cons p0 P1 => exact ⟨p0, P1, rfl⟩
  have hp0 := hPb p0 (by simp)
  simp only [List.headD_cons] at hP0
  set buf : CStr := (p0 :: P1) ++ 32 :: t0 :: tok1 with hbuf
  have h0 : byteAt buf 0 = p0 := by simp [hbuf, byteAt]
  have hline : skip_spaces buf 0 = 0 := skip_spaces_stay (by rw [h0]; exact hp0.1)
  have hsp : byteAt buf (P1.length + 1) = 32 := by
    exact byteAt_append_right (p0 :: P1) (32 :: t0 :: tok1) 0
  have ht : byteAt buf (P1.length + 1 + 1) = t0 := by
    exact byteAt_append_right (p0 :: P1) (32 :: t0 :: tok1) 1
  unfold try_entry
  simp only [hline, h0]
  have hc : (p0 == 0 || p0 == 35) = false := by simp [hp0.2.1, hP0]
  simp only [hc, Bool.false_eq_true, if_false]
  rw [propname_phase _ buf 0 32 tag_bool (32 :: t0 :: tok1) (by decide) ((p0 :: P1) ++ [63])
    (p0 :: P1) (init_vars ((p0 :: P1) ++ bool_suffix) 0) rfl (by simp [init_vars, bool_suffix])
    (by
      intro b hb
      simp only [List.mem_append, List.mem_singleton] at hb
      rcases hb with hb | rfl
      · exact ⟨(hPb b hb).1, (hPb b hb).2.1⟩
      · decide)
    (by simp [hbuf, init_vars])
    (by
      congr 1
      rw [List.filter_append]
      have : List.filter (fun b => b != 63) (p0 :: P1) = p0 :: P1 := by
        rw [List.filter_eq_self]
        intro b hb
        simpa using (hPb b hb).2.2
      rw [this]; simp)]
  simp only [init_vars, List.length_cons]
  rw [try_from_eq]
  simp [loop_cond, loop_body, peek, hsp, isspace, tag_bool]
  rw [try_from_eq]
  simp [loop_cond, loop_body, peek, ht, ht0.1, ht0.2.1, ht0.2.2.1, ht0.2.2.2]
  rw [try_from_eq]
  simp [loop_cond, loop_body, peek, ht, ht0.1, ht0.2.1, ht0.2.2.1, ht0.2.2.2, bool_suffix, tag_bool]
  rw [try_from_eq]
  simp [loop_cond, loop_body, rchar_case, peek, ht, ht0.1, ht0.2.1, ht0.2.2.1, ht0.2.2.2,
    prefix_match_cons, tag_alpha, tag_alnum, tag_digits, tag_xdigits, tag_nospace, tag_any,
    tag_bool, tolower, isupper]

theorem prefix_match_lower {s l : CStr} (hm : s.map tolower = l) (p : CStr) :
    prefix_match s p = decide (p.map tolower <+: l) := by
  rw [Bool.eq_iff_iff]
  simp [prefix_match_iff, hm]

theorem boolean_case_true (buf : CStr) (line : Nat) (v : Vars)
    (h : (buf.drop v.line_pnt).map tolower ∈ true_literals) :
    boolean_case buf line v =
      .cont { v with line_pnt := v.line_pnt + (buf.drop v.line_pnt).length, is_enabled := true,
                     state := .RCHAR } := by
  have hlen : (buf.drop v.line_pnt).length = ((buf.drop v.line_pnt).map tolower).length := by
    simp
  rw [hlen]
  generalize hm : (buf.drop v.line_pnt).map tolower = l at h
  have key := prefix_match_lower hm
  simp only [true_literals, List.mem_cons, List.mem_singleton, List.not_mem_nil, or_false] at h
  unfold boolean_case
  simp only [key]
  rcases h with rfl | rfl | rfl | rfl <;> rfl

theorem boolean_case_false (buf : CStr) (line : Nat) (v : Vars)
    (h : (buf.drop v.line_pnt).map tolower ∈ false_literals) :
    boolean_case buf line v =
      .cont { v with line_pnt := v.line_pnt + (buf.drop v.line_pnt).length, is_enabled := false,
                     state := .RCHAR } := by
  have hlen : (buf.drop v.line_pnt).length = ((buf.drop v.line_pnt).map tolower).length := by
    simp
  rw [hlen]
  generalize hm : (buf.drop v.line_pnt).map tolower = l at h
  have key := prefix_match_lower hm
  simp only [false_literals, List.mem_cons, List.mem_singleton, List.not_mem_nil, or_false] at h
  unfold boolean_case
  simp only [key]
  rcases h with rfl | rfl | rfl | rfl <;> rfl


theorem literal_head_facts {tok : CStr}
    (h : tok.map tolower ∈ true_literals ∨ tok.map tolower ∈ false_literals) :
    ∃ t0 tok1, tok = t0 :: tok1 ∧ isspace t0 = false ∧ t0 ≠ 61 ∧ t0 ≠ 58 ∧ t0 ≠ 0 := by
  cases tok with
  | nil =>
    simp [true_literals, false_literals, lit_yes, lit_on, lit_true, lit_1, lit_no, lit_off,
      lit_false, lit_0] at h
  | cons t0 tok1 =>
    refine ⟨t0, tok1, rfl, ?_⟩
    simp only [true_literals, false_literals, lit_yes, lit_on, lit_true, lit_1, lit_no, lit_off,
      lit_false, lit_0, List.map_cons, List.mem_cons, List.cons.injEq, List.mem_singleton,
      List.not_mem_nil, or_false] at h
    rcases h with (h | h | h | h) | (h | h | h | h) <;>
      exact tolower_alnum_facts h.1 (by omega)

/-- What `try_entry` does on a boolean rule once the `<bool>` tag has matched
a literal that ends the line. -/
theorem bool_rule_finish (P T tok : CStr) (en : Bool)
    (hT : ∀ b ∈ T, b ≠ 0 ∧ b ≠ 36) (hTl : T.length < MAX_ARG_LENGTH) :
    try_from ⟨P ++ bool_suffix, T⟩ (P ++ 32 :: tok) 0
        { in_pnt := [], line_pnt := P.length + 1 + tok.length, match_start := none,
          wildcard_start := some (P.length + 1), matches_ := [], state := .RCHAR,
          expect_char := false, is_boolean := true, is_enabled := en, d := 0 } =
      some (if en then { result := .OK, arg := some T, err := none } else ret_plain .IGNORE) := by
  have hend : byteAt (P ++ 32 :: tok) (P.length + 1 + tok.length) = 0 :=
    byteAt_of_drop_nil (List.drop_eq_nil_of_le (by simp; omega))
  rw [try_from_done (by simp [loop_cond, peek, hend])]
  cases en with
  | false => simp [after_loop, after_loop_checks, final_state_ok]
  | true =>
    simp only [after_loop, after_loop_checks, final_state_ok]
    simp only [Bool.not_true, Bool.false_eq_true, if_false, Nat.reduceBEq, Bool.and_false]
    have := expand_literal (P ++ 32 :: tok) [] (P.length + 1)
      (P.length + 1 + tok.length - (P.length + 1)) [] T [] hT (by simp; omega)
    simp only [List.append_nil, List.nil_append] at this
    simp only [Option.getD_some, this, expand, expand_finish]
    simp [Nat.not_le.mpr hTl]

/-- Invariant rule for the matching loop: a property of the locals that
every iteration keeps, and that makes every return satisfy `Q`, makes the
result of `try_entry` satisfy `Q`. -/
theorem try_from_invariant (entry : SimpleConfEntry) (buf : CStr) (line : Nat)
    (I : Vars → Prop) (Q : Ret → Prop)
    (hcont : ∀ v v1, I v → loop_cond buf v = true →
      loop_body entry.in_ buf line v = .cont v1 → I v1)
    (hret : ∀ v r, I v → loop_cond buf v = true →
      loop_body entry.in_ buf line v = .ret r → Q r)
    (hdone : ∀ v, I v → loop_cond buf v = false → Q (after_loop entry.out buf line v)) :
    ∀ v, I v → ∀ r, try_from entry buf line v = some r → Q r := by
  have key : ∀ n v, loop_measure buf v < n → I v →
      ∀ r, try_from entry buf line v = some r → Q r := by
    intro n
    induction n with
    | zero => intro v h; omega
    | succ n ih =>
      intro v hn hI r hr
      rw [try_from_eq] at hr
      by_cases hc : loop_cond buf v = true
      · simp only [hc, if_true] at hr
        cases hb : loop_body entry.in_ buf line v with
        | cont v1 =>
          rw [hb] at hr
          have := loop_body_measure entry.in_ buf line v v1 hb
          exact ih v1 (by omega) (hcont v v1 hI hc hb) r hr
        | ret r1 =>
          rw [hb] at hr
          simp only [Option.some.injEq] at hr
          subst hr
          exact hret v r1 hI hc hb
      · simp only [hc, Bool.false_eq_true, if_false, Option.some.injEq] at hr
        subst hr
        exact hdone v hI (by simpa using hc)
  intro v hI r hr
  exact key _ v (Nat.lt_succ_self _) hI r hr

theorem expand_result (buf : CStr) (ms : List Match) (ws wl : Nat) :
    ∀ (out : CStr) (st : State) (arg : CStr),
      (expand buf ms ws wl st out arg).result = .OK ∨
      (expand buf ms ws wl st out arg).result = .E2BIG ∨
      (expand buf ms ws wl st out arg).result = .INVALID_ENTRY ∨
      (expand buf ms ws wl st out arg).result = .UNDEFINED := by
  intro out
  induction out with
  | nil => intro st arg; simp only [expand, expand_finish]; split <;> simp [ret_plain]
  | cons d out ih =>
    intro st arg
    simp only [expand]
    split
    · split
      · split
        · exact ih _ _
        · exact ih _ _
      · split
        · exact ih _ _
        · split
          · split
            · simp [ret_plain]
            · exact ih _ _
          · simp [ret_plain]
      · simp [ret_plain]
    · simp only [expand_finish]; split <;> simp [ret_plain]

theorem expand_ne_propnotfound (buf : CStr) (ms : List Match) (ws wl : Nat) (out : CStr)
    (st : State) (arg : CStr) : (expand buf ms ws wl st out arg).result ≠ .PROPNOTFOUND := by
  rcases expand_result buf ms ws wl out st arg with h | h | h | h <;> rw [h] <;> simp

theorem after_loop_result (e_out buf : CStr) (line : Nat) (v : Vars) :
    (after_loop e_out buf line v).result ≠ .PROPNOTFOUND := by
  unfold after_loop
  cases hchk : after_loop_checks buf line v with
  | inl r =>
    dsimp only
    unfold after_loop_checks at hchk
    split at hchk
    · cases hchk; simp [err_mismatch]
    · split at hchk
      · cases hchk; simp [err_mismatch]
      · dsimp only at hchk
        split at hchk
        · cases hchk; simp [ret_plain]
        · split at hchk
          · cases hchk; simp [ret_plain]
          · cases hchk
  | inr m =>
    dsimp only
    exact expand_ne_propnotfound _ _ _ _ _ _ _

/-- Case analysis of `STATE_RCHAR`: a property `M` that holds of each way
the case can end holds of what it does. -/
theorem rchar_case_elim (buf : CStr) (line : Nat) (v : Vars) (c d : Nat) (M : Step → Prop)
    (h_mis : M (.ret (err_mismatch buf v.line_pnt line)))
    (h_mis0 : M (.ret (err_mismatch buf line line)))
    (h_inv : M (.ret (ret_plain .INVALID_ENTRY)))
    (h_open : d = 40 →
      M (.cont { v with match_start := some v.line_pnt, in_pnt := v.in_pnt.tail }))
    (h_close : d = 41 → ∀ ms m, v.match_start = some ms → v.matches_.length < MATCHES_CAP →
      add_to_matches buf v.matches_ ms v.line_pnt = some m →
      M (.cont { v with matches_ := m, in_pnt := v.in_pnt.tail }))
    (h_tag : ∀ tag st, (tag, st) ∈ class_tags → prefix_match v.in_pnt tag = true →
      M (.cont { v with in_pnt := v.in_pnt.drop tag.length, expect_char := true, state := st }))
    (h_bool : prefix_match v.in_pnt tag_bool = true → v.is_enabled = false →
      M (.cont { v with in_pnt := v.in_pnt.drop tag_bool.length, state := .MATCH_BOOLEAN }))
    (h_space : isspace d = true →
      M (.cont { v with in_pnt := v.in_pnt.tail, expect_char := true, state := .MATCH_SPACES }))
    (h_lit : isgraph d = true → c = d →
      M (.cont { v with in_pnt := v.in_pnt.tail, line_pnt := v.line_pnt + 1 })) :
    M (rchar_case buf line v c d) := by
  unfold rchar_case
  by_cases h0 : (d == 0) = true
  · rw [if_pos h0]; exact h_mis
  rw [if_neg h0]
  by_cases h1 : (d == 40) = true
  · rw [if_pos h1]; exact h_open (by simpa using h1)
  rw [if_neg h1]
  by_cases h2 : (d == 41) = true
  · rw [if_pos h2]
    cases hm : v.match_start with
    | none => exact h_mis0
    | some ms =>
      dsimp only
      by_cases hc : v.matches_.length ≥ MATCHES_CAP
      · rw [if_pos hc]; exact h_mis0
      · rw [if_neg hc]
        cases ha : add_to_matches buf v.matches_ ms v.line_pnt with
        | none => exact h_mis0
        | some m =>
          have key := h_close (by simpa using h2) ms m hm (by omega) ha
          rw [hm] at key
          exact key
  rw [if_neg h2]
  by_cases g0 : prefix_match v.in_pnt tag_alpha = true
  · rw [if_pos g0]; exact h_tag _ _ (by simp [class_tags]) g0
  rw [if_neg g0]
  by_cases g1 : prefix_match v.in_pnt tag_alnum = true
  · rw [if_pos g1]; exact h_tag _ _ (by simp [class_tags]) g1
  rw [if_neg g1]
  by_cases g2 : prefix_match v.in_pnt tag_digits = true
  · rw [if_pos g2]; exact h_tag _ _ (by simp [class_tags]) g2
  rw [if_neg g2]
  by_cases g3 : prefix_match v.in_pnt tag_xdigits = true
  · rw [if_pos g3]; exact h_tag _ _ (by simp [class_tags]) g3
  rw [if_neg g3]
  by_cases g4 : prefix_match v.in_pnt tag_nospace = true
  · rw [if_pos g4]; exact h_tag _ _ (by simp [class_tags]) g4
  rw [if_neg g4]
  by_cases g5 : prefix_match v.in_pnt tag_any = true
  · rw [if_pos g5]; exact h_tag _ _ (by simp [class_tags]) g5
  rw [if_neg g5]
  by_cases g6 : prefix_match v.in_pnt tag_bool = true
  · rw [if_pos g6]
    by_cases ge : v.is_enabled = true
    · rw [if_pos ge]; exact h_inv
    · rw [if_neg ge]; exact h_bool g6 (by simpa using ge)
  rw [if_neg g6]
  by_cases g7 : (d == 60) = true
  · rw [if_pos g7]; exact h_inv
  rw [if_neg g7]
  by_cases g8 : isspace d = true
  · rw [if_pos g8]; exact h_space g8
  rw [if_neg g8]
  by_cases g9 : isgraph d = true
  · rw [if_pos g9]
    by_cases g10 : (c == d) = true
    · rw [if_pos g10]; exact h_lit g9 (by simpa using g10)
    · rw [if_neg g10]; exact h_mis
  · rw [if_neg g9]; exact h_mis

/-- Case analysis of `STATE_MATCH_BOOLEAN`. -/
theorem boolean_case_elim (buf : CStr) (line : Nat) (v : Vars) (M : Step → Prop)
    (h_syn : M (.ret ( err_syntax buf v.line_pnt line)))
    (h_lit : ∀ l en, (l, en) ∈ bool_literals → prefix_match (buf.drop v.line_pnt) l = true →
      M (.cont { v with line_pnt := v.line_pnt + l.length, is_enabled := en, state := .RCHAR })) :
    M (boolean_case buf line v) := by
  unfold boolean_case
  dsimp only
  repeat' split
  all_goals first
    | exact h_syn
    | (rename_i hm; exact h_lit _ _ (by simp [bool_literals]) hm)

theorem class_tags_state {tag : CStr} {st : State} (h : (tag, st) ∈ class_tags) :
    class_of st ≠ none ∧ st ≠ .PROPNAME ∧ 5 ≤ tag.length := by
  simp only [class_tags, List.mem_cons, Prod.mk.injEq, List.mem_singleton, List.not_mem_nil,
    or_false] at h
  rcases h with ⟨rfl, rfl⟩ | ⟨rfl, rfl⟩ | ⟨rfl, rfl⟩ | ⟨rfl, rfl⟩ | ⟨rfl, rfl⟩ | ⟨rfl, rfl⟩ <;>
    simp [class_of, tag_alpha, tag_alnum, tag_digits, tag_xdigits, tag_nospace, tag_any]

/-- Once the property name has been matched, an iteration neither goes back
to it nor returns `PROPNOTFOUND`. -/
theorem loop_body_off_propname (e_in buf : CStr) (line : Nat) (v : Vars)
    (hs : v.state ≠ .PROPNAME) :
    (∀ v1, loop_body e_in buf line v = .cont v1 → v1.state ≠ .PROPNAME) ∧
    (∀ r, loop_body e_in buf line v = .ret r → r.result ≠ .PROPNOTFOUND) := by
  generalize hM : (fun s : Step => (∀ v1, s = .cont v1 → v1.state ≠ .PROPNAME) ∧
    (∀ r, s = .ret r → r.result ≠ .PROPNOTFOUND)) = M
  have hgoal : M (loop_body e_in buf line v) := by
    unfold loop_body
    dsimp only
    split
    · exact absurd (by assumption) hs
    case h_5 hst =>
      apply rchar_case_elim buf line _ _ _ M <;> subst hM
      · simp [err_mismatch]
      · simp [err_mismatch]
      · simp [ret_plain]
      · intro _; simpa using hs
      · intro _ _ _ _ _ _; simpa using hs
      · intro tag st h _
        have := (class_tags_state h).2.1
        simpa using this
      · intro _ _; simp
      · intro _; simp
      · intro _ _; simpa using hs
    case h_13 hst =>
      apply boolean_case_elim buf line _ M <;> subst hM
      · simp [ err_syntax]
      · intro _ _ _ _; simp
    all_goals
      repeat' split
      all_goals
        subst hM
        first
        | (simp [ err_syntax, ret_plain]; done)
        | (simp; done)
        | (simp; intro h; exact hs h)
  subst hM
  exact hgoal

theorem try_from_off_propname (entry : SimpleConfEntry) (buf : CStr) (line : Nat) (v : Vars)
    (hs : v.state ≠ .PROPNAME) (r : Ret) (hr : try_from entry buf line v = some r) :
    r.result ≠ .PROPNOTFOUND := by
  refine try_from_invariant entry buf line (fun v => v.state ≠ .PROPNAME)
    (fun r => r.result ≠ .PROPNOTFOUND) ?_ ?_ ?_ v hs r hr
  · intro v v1 hI _ hb
    exact (loop_body_off_propname entry.in_ buf line v hI).1 v1 hb
  · intro v r hI _ hb
    exact (loop_body_off_propname entry.in_ buf line v hI).2 r hb
  · intro v _ _
    exact after_loop_result _ _ _ _

/-- The matching of a property name that is not a prefix of the line, up to
letter case, ends with `PROPNOTFOUND`. -/
theorem propname_fail (entry : SimpleConfEntry) (buf : CStr) (line : Nat) (w : Nat) (V : CStr) :
    ∀ (N : CStr) (v : Vars), v.state = .PROPNAME → v.in_pnt = N ++ w :: V →
      (∀ b ∈ N, isspace b = false ∧ b ≠ 0) →
      ¬ ((N.filter (fun b => b != 63)).map tolower <+: (buf.drop v.line_pnt).map tolower) →
      try_from entry buf line v = some (ret_plain .PROPNOTFOUND) := by
  intro N
  induction N with
  | nil => intro v _ _ _ h; exact absurd (by simp) h
  | cons b N ih =>
    intro v hs hin hN hnp
    have hb := hN b (by simp)
    have hN1 : ∀ b ∈ N, isspace b = false ∧ b ≠ 0 := fun x hx => hN x (by simp [hx])
    have hcond : loop_cond buf v = true := by simp [loop_cond, hin, peek, hb.2]
    by_cases hq : b = 63
    · subst hq
      have hstep : try_from entry buf line v = try_from entry buf line
          { v with in_pnt := N ++ w :: V, is_boolean := true, d := 63 } :=
        try_from_cont _ hcond (by simp [loop_body, hs, hin, peek, isspace])
      rw [hstep]
      exact ih { v with in_pnt := N ++ w :: V, is_boolean := true, d := 63 } hs rfl hN1
        (by simpa using hnp)
    · have hf : (List.filter (fun b => b != 63) (b :: N)) =
          b :: List.filter (fun b => b != 63) N := by
        simp [List.filter_cons, hq]
      rw [hf] at hnp
      cases hd : buf.drop v.line_pnt with
      | nil =>
        have hc := byteAt_of_drop_nil hd
        exact try_from_ret hcond (by simp [loop_body, hs, hin, peek, hb.1, hq, hc])
      | cons c t =>
        obtain ⟨hc, hdrop⟩ := byteAt_of_drop hd
        rw [hd] at hnp
        simp only [List.map_cons, List.cons_prefix_cons, not_and] at hnp
        by_cases hcb : tolower c = tolower b
        · have hc0 : c ≠ 0 := by
            intro h0
            have : tolower b = 0 := by rw [← hcb, h0]; rfl
            exact hb.2 (tolower_eq_zero.mp this)
          have hstep : try_from entry buf line v = try_from entry buf line
              { v with in_pnt := N ++ w :: V, line_pnt := v.line_pnt + 1, d := b } :=
            try_from_cont _ hcond
              (by simp [loop_body, hs, hin, peek, hb.1, hq, hc, hc0, hb.2, hcb])
          rw [hstep]
          exact ih { v with in_pnt := N ++ w :: V, line_pnt := v.line_pnt + 1, d := b } hs rfl
            hN1 (by
              show ¬ _ <+: List.map tolower (List.drop (v.line_pnt + 1) buf)
              rw [hdrop]
              exact hnp hcb.symm)
        · exact try_from_ret hcond (by simp [loop_body, hs, hin, peek, hb.1, hq, hc, hcb])

theorem loop_body_d (e_in buf : CStr) (line : Nat) (v : Vars) (x : Nat) :
    loop_body e_in buf line { v with d := x } = loop_body e_in buf line v := rfl

/-- The value of `d` left by the previous iteration plays no part when a
further iteration takes place. -/
theorem try_from_d (entry : SimpleConfEntry) (buf : CStr) (line : Nat) (v : Vars) (x : Nat)
    (hc : loop_cond buf v = true) :
    try_from entry buf line { v with d := x } = try_from entry buf line v := by
  rw [try_from_eq, try_from_eq entry buf line v, loop_body_d]
  have : loop_cond buf { v with d := x } = loop_cond buf v := rfl
  rw [this, hc]
  rfl

/-- In the two separator states that skip blanks, a run of blanks before a
byte of the line is stepped over. -/
theorem sep_skip_blanks (entry : SimpleConfEntry) (buf : CStr) (line : Nat) (x : Nat)
    (rest : CStr) (hx : x ≠ 0) :
    ∀ (S : CStr) (v : Vars), (v.state = .AFTERPROPNAME2 ∨ v.state = .AFTERPROPNAMESEP) →
      buf.drop v.line_pnt = S ++ x :: rest → (∀ b ∈ S, isspace b = true) →
      try_from entry buf line v =
        try_from entry buf line { v with line_pnt := v.line_pnt + S.length } := by
  intro S
  induction S with
  | nil => intro v _ _ _; simp
  | cons s S ih =>
    intro v hs hbuf hS
    obtain ⟨hc, hdrop⟩ := byteAt_of_drop (t := S ++ x :: rest) (by simpa using hbuf)
    have hs1 := hS s (by simp)
    have hs0 := isspace_ne_zero hs1
    have hsep : s ≠ 61 ∧ s ≠ 58 := by
      constructor <;> rintro rfl <;> simp [isspace] at hs1
    have hstep : try_from entry buf line v = try_from entry buf line
        { v with d := peek v.in_pnt, line_pnt := v.line_pnt + 1 } :=
      try_from_cont _ (by simp [loop_cond, hc, hs0])
        (by rcases hs with hs | hs <;> simp [loop_body, hs, hc, hs1, hsep.1, hsep.2])
    rw [hstep]
    have hnext : byteAt buf (v.line_pnt + 1 + S.length) = x := by
      have h2 : buf.drop (v.line_pnt + 1 + S.length) = x :: rest := by
        rw [← List.drop_drop, hdrop]
        exact List.drop_left' rfl
      exact (byteAt_of_drop h2).1
    rw [ih { v with d := peek v.in_pnt, line_pnt := v.line_pnt + 1 } hs hdrop
      (fun b hb => hS b (by simp [hb]))]
    have := try_from_d entry buf line { v with line_pnt := v.line_pnt + 1 + S.length }
      (peek v.in_pnt) (by simp [loop_cond, hnext, hx])
    simp only [List.length_cons] at this ⊢
    rw [show v.line_pnt + (S.length + 1) = v.line_pnt + 1 + S.length by omega]
    exact this

theorem drop_add_of_append {buf A B : CStr} {k : Nat} (h : buf.drop k = A ++ B) :
    buf.drop (k + A.length) = B := by
  rw [← List.drop_drop, h]
  exact List.drop_left' rfl

theorem sep_byte {s : Nat} (h : s = 61 ∨ s = 58) : isspace s = false ∧ s ≠ 0 := by
  rcases h with rfl | rfl <;> decide

/-- A second separator after the property name is a syntax error, reported
at the second separator. -/
theorem sep_fault_double (N V T buf : CStr) (w k : Nat) (S1 S2 tail : CStr) (s1 s2 : Nat)
    (hNb : ∀ b ∈ N, isspace b = false ∧ b ≠ 0) (hw : isspace w = true)
    (hS1 : ∀ b ∈ S1, isspace b = true) (hS2 : ∀ b ∈ S2, isspace b = true)
    (hs1 : s1 = 61 ∨ s1 = 58) (hs2 : s2 = 61 ∨ s2 = 58)
    (hbuf : buf.drop k = N.filter (fun b => b != 63) ++ (S1 ++ s1 :: (S2 ++ s2 :: tail))) :
    try_from ⟨N ++ w :: V, T⟩ buf k (init_vars (N ++ w :: V) k) =
      some { result := .SYNTAX, arg := none,
             err := some (k + (N.filter (fun b => b != 63)).length + S1.length + 1 + S2.length) } := by
  rw [propname_phase ⟨N ++ w :: V, T⟩ buf k w V _ hw N (N.filter (fun b => b != 63))
    (init_vars (N ++ w :: V) k) rfl rfl hNb hbuf rfl]
  have hd1 := drop_add_of_append hbuf
  have hd2 : buf.drop (k + (N.filter (fun b => b != 63)).length + S1.length) =
      s1 :: (S2 ++ s2 :: tail) := drop_add_of_append hd1
  have hd3 : buf.drop (k + (N.filter (fun b => b != 63)).length + S1.length + 1) =
      S2 ++ s2 :: tail := (byteAt_of_drop hd2).2
  have hd4 := drop_add_of_append hd3
  have hb1 := (byteAt_of_drop hd2).1
  have hb2 := (byteAt_of_drop hd4).1
  have h10 := (sep_byte hs1).2
  have h20 := (sep_byte hs2).2
  have hc1 : (s1 == 61 || s1 == 58) = true := by rcases hs1 with rfl | rfl <;> rfl
  have hc2 : (s2 == 61 || s2 == 58) = true := by rcases hs2 with rfl | rfl <;> rfl
  simp only [init_vars]
  -- up to the state after the first separator
  have hsep : ∀ v : Vars, v.state = .AFTERPROPNAME →
      v.line_pnt = k + (N.filter (fun b => b != 63)).length →
      ∃ d1, try_from ⟨N ++ w :: V, T⟩ buf k v = try_from ⟨N ++ w :: V, T⟩ buf k
        { v with state := .AFTERPROPNAMESEP,
                 line_pnt := k + (N.filter (fun b => b != 63)).length + S1.length + 1,
                 d := d1 } := by
    intro v hst hlp
    cases S1 with
    | nil =>
      refine ⟨peek v.in_pnt, ?_⟩
      simp only [List.length_nil, Nat.add_zero] at hb1 ⊢
      exact try_from_cont _ (by simp [loop_cond, hlp, hb1, h10])
        (by simp [loop_body, hst, hlp, hb1, hc1])
    | cons s S1 =>
      refine ⟨peek v.in_pnt, ?_⟩
      have hs := hS1 s (by simp)
      have hs0 := isspace_ne_zero hs
      have hsn : (s == 61 || s == 58) = false := by
        simp only [Bool.or_eq_false_iff, beq_eq_false_iff_ne]
        constructor <;> rintro rfl <;> simp [isspace] at hs
      have hbs := (byteAt_of_drop (t := S1 ++ s1 :: (S2 ++ s2 :: tail)) (by simpa using hd1))
      have hstep : try_from ⟨N ++ w :: V, T⟩ buf k v = try_from ⟨N ++ w :: V, T⟩ buf k
          { v with d := peek v.in_pnt, state := .AFTERPROPNAME2,
                   line_pnt := k + (N.filter (fun b => b != 63)).length + 1 } :=
        try_from_cont _ (by simp [loop_cond, hlp, hbs.1, hs0])
          (by simp [loop_body, hst, hlp, hbs.1, hsn, hs])
      rw [hstep]
      rw [sep_skip_blanks _ buf k s1 (S2 ++ s2 :: tail) h10 S1 _ (Or.inl rfl) hbs.2
        (fun b hb => hS1 b (by simp [hb]))]
      simp only [List.length_cons] at hb1 ⊢
      have e1 : k + (N.filter (fun b => b != 63)).length + 1 + S1.length =
          k + (N.filter (fun b => b != 63)).length + (S1.length + 1) := by omega
      exact try_from_cont _ (by simp [loop_cond, e1, hb1, h10])
        (by simp [loop_body, e1, hb1, hc1])
  obtain ⟨d1, hgo⟩ := hsep
    { in_pnt := V, line_pnt := k + (N.filter (fun b => b != 63)).length, match_start := none,
      wildcard_start := none, matches_ := [], state := .AFTERPROPNAME, expect_char := false,
      is_boolean := false || N.contains 63, is_enabled := false, d := w } rfl rfl
  rw [hgo]
  rw [sep_skip_blanks _ buf k s2 tail h20 S2 _ (Or.inr rfl) hd3 hS2]
  rw [try_from_ret (by simp [loop_cond, hb2, h20]) (by simp [loop_body, hb2, hc2]; rfl)]
  simp [ err_syntax, hb2, h20]

/-- A byte right after the property name that is neither a blank nor a
separator is a syntax error, reported at that byte. -/
theorem sep_fault_missing (N V T buf : CStr) (w k : Nat) (tail : CStr) (x : Nat)
    (hNb : ∀ b ∈ N, isspace b = false ∧ b ≠ 0) (hw : isspace w = true)
    (hx : isspace x = false ∧ x ≠ 61 ∧ x ≠ 58 ∧ x ≠ 0)
    (hbuf : buf.drop k = N.filter (fun b => b != 63) ++ x :: tail) :
    try_from ⟨N ++ w :: V, T⟩ buf k (init_vars (N ++ w :: V) k) =
      some { result := .SYNTAX, arg := none,
             err := some (k + (N.filter (fun b => b != 63)).length) } := by
  rw [propname_phase ⟨N ++ w :: V, T⟩ buf k w V _ hw N (N.filter (fun b => b != 63))
    (init_vars (N ++ w :: V) k) rfl rfl hNb hbuf rfl]
  have hb := (byteAt_of_drop (drop_add_of_append hbuf)).1
  simp only [init_vars]
  rw [try_from_ret (by simp [loop_cond, hb, hx.2.2.2])
    (by simp [loop_body, hb, hx.1, hx.2.1, hx.2.2.1]; rfl)]
  simp [ err_syntax, hb, hx.2.2.2]

theorem skip_spaces_count_run (S : CStr) (x : Nat) (t : CStr) (hS : ∀ b ∈ S, isspace b = true)
    (hx : isspace x = false) : skip_spaces_count (S ++ x :: t) = S.length := by
  induction S with
  | nil => simp [skip_spaces_count, hx]
  | cons s S ih =>
    have hs := hS s (by simp)
    have hs0 := isspace_ne_zero hs
    simp [skip_spaces_count, hs, hs0, ih (fun b hb => hS b (by simp [hb]))]

theorem byteAt_zero (l : CStr) : byteAt l 0 = l.headD 0 := by
  cases l <;> rfl

theorem try_entry_of_reaches {entry : SimpleConfEntry} {buf : CStr} {v : Vars}
    (h : Reaches entry buf v) :
    try_entry entry buf = try_from entry buf (skip_spaces buf 0) v := by
  obtain ⟨h0, k, hk⟩ := h
  unfold try_entry
  simp only [h0, Bool.false_eq_true, if_false]
  exact try_from_iter k _ _ hk

/-- A class tag that ends the pattern and meets a byte outside its class
gives `MISMATCH`. -/
theorem last_class_tag_mismatch (entry : SimpleConfEntry) (buf : CStr) (line : Nat) (v : Vars)
    (tag : CStr) (st : State) (p : Nat → Bool) (clr : Bool)
    (hs : v.state = .RCHAR) (hin : v.in_pnt = tag) (htag : (tag, st) ∈ class_tags)
    (hcl : class_of st = some (p, clr)) (hp : p (byteAt buf v.line_pnt) = false) :
    ∃ e, try_from entry buf line v = some { result := .MISMATCH, arg := none, err := some e } := by
  have hstep : try_from entry buf line v = try_from entry buf line
      { v with d := 60, in_pnt := [], expect_char := true, state := st } := by
    apply try_from_cont
    · simp only [class_tags, List.mem_cons, Prod.mk.injEq, List.mem_singleton, List.not_mem_nil,
        or_false] at htag
      rcases htag with ⟨rfl, rfl⟩ | ⟨rfl, rfl⟩ | ⟨rfl, rfl⟩ | ⟨rfl, rfl⟩ | ⟨rfl, rfl⟩ | ⟨rfl, rfl⟩ <;>
        simp [loop_cond, hin, peek, tag_alpha, tag_alnum, tag_digits, tag_xdigits, tag_nospace,
          tag_any]
    · simp only [class_tags, List.mem_cons, Prod.mk.injEq, List.mem_singleton, List.not_mem_nil,
        or_false] at htag
      rcases htag with ⟨rfl, rfl⟩ | ⟨rfl, rfl⟩ | ⟨rfl, rfl⟩ | ⟨rfl, rfl⟩ | ⟨rfl, rfl⟩ | ⟨rfl, rfl⟩ <;>
        simp [loop_body, hs, rchar_case, hin, peek, prefix_match_cons, tag_alpha, tag_alnum,
          tag_digits, tag_xdigits, tag_nospace, tag_any, tag_bool, tolower, isupper]
  rw [hstep]
  by_cases hc : byteAt buf v.line_pnt = 0
  · rw [try_from_done (by simp [loop_cond, peek, hc])]
    have hf : final_state_ok st = true := by
      cases st <;> simp [class_of] at hcl <;> rfl
    exact ⟨line, by simp [after_loop, after_loop_checks, hf, err_mismatch, hc]⟩
  · have hexit := class_exit entry buf line p clr
      { v with d := 60, in_pnt := [], expect_char := true, state := st } hcl
      (by simp [loop_cond, hc]) hp
    rw [hexit]
    rw [try_from_ret (by simp [loop_cond, hc]) (by simp [loop_body, rchar_case, peek]; rfl)]
    exact ⟨v.line_pnt, by simp [err_mismatch, hc]⟩

/-! ### The sequencing layer -/

theorem cstr_append_zero (s rest : CStr) (hs : ∀ b ∈ s, b ≠ 0) : cstr (s ++ 0 :: rest) = s := by
  unfold cstr
  induction s with
  | nil => simp
  | cons a s ih =>
    have ha := hs a (by simp)
    simp only [List.cons_append]
    rw [List.takeWhile_cons_of_pos (by simpa using ha)]
    rw [ih (fun b hb => hs b (by simp [hb]))]

theorem strlen_append_zero (s rest : CStr) (hs : ∀ b ∈ s, b ≠ 0) :
    strlen (s ++ 0 :: rest) = s.length := by
  have := cstr_append_zero s rest hs
  unfold cstr at this
  unfold strlen
  rw [this]

theorem chomp_loop_spec (s : CStr) (hs : ∀ b ∈ s, b ≠ 0) :
    ∀ rest : CStr, cstr (chomp_loop (s ++ 0 :: rest) s.length) = rstrip s := by
  induction s using List.reverseRecOn with
  | nil => intro rest; simp [chomp_loop, cstr, rstrip]
  | append_singleton p x ih =>
    intro rest
    have hp : ∀ b ∈ p, b ≠ 0 := fun b hb => hs b (by simp [hb])
    have hx : x ≠ 0 := hs x (by simp)
    have hbyte : byteAt (p ++ [x] ++ 0 :: rest) p.length = x := by
      have := byteAt_append_right p ([x] ++ 0 :: rest) 0
      simpa [byteAt] using this
    simp only [List.length_append, List.length_singleton, chomp_loop, hbyte]
    by_cases hsp : isspace x = true
    · simp only [hsp, if_true]
      have hset : (p ++ [x] ++ 0 :: rest).set p.length 0 = p ++ 0 :: (0 :: rest) := by
        simp [List.set_append]
      rw [hset, ih hp (0 :: rest)]
      unfold rstrip
      rw [List.rdropWhile_concat_pos _ _ _ hsp]
    · simp only [hsp, Bool.false_eq_true, if_false]
      rw [cstr_append_zero _ _ hs]
      unfold rstrip
      rw [List.rdropWhile_concat_neg _ _ _ hsp]

/-- The line that `try_entry` is given: what `fgets` stored, without its
trailing whitespace, whatever the buffer held before. -/
theorem cstr_chomp_fgets (buf chunk : CStr) (hc : ∀ b ∈ chunk, b ≠ 0) :
    cstr (chomp (fgets_store buf chunk)) = rstrip chunk := by
  unfold chomp fgets_store
  rw [strlen_append_zero _ _ hc]
  exact chomp_loop_spec chunk hc _

/-- The `for` loop passes over a rule whose outcome is `PROPNOTFOUND` or
`MISMATCH`, keeping the error position of a `MISMATCH`. -/
theorem try_entries_pass (buf : CStr) (lc : Nat) (e : SimpleConfEntry) (es : List SimpleConfEntry)
    (argv : List CStr) (err : Option Nat) (r : Ret) (he : try_entry e (cstr buf) = some r)
    (hr : passes_over r.result = true) :
    try_entries buf lc (e :: es) argv err =
      try_entries buf lc es argv (if r.result = .MISMATCH then r.err else err) := by
  simp only [try_entries, he]
  cases hres : r.result <;> simp [passes_over, hres] at hr ⊢

/-- The `for` loop stops at a rule with any other outcome. -/
theorem try_entries_stop (buf : CStr) (lc : Nat) (e : SimpleConfEntry) (es : List SimpleConfEntry)
    (argv : List CStr) (err : Option Nat) (r : Ret) (he : try_entry e (cstr buf) = some r)
    (hr : passes_over r.result = false) :
    try_entries buf lc (e :: es) argv err = some (decided buf lc r argv err) := by
  simp only [try_entries, he, decided]
  cases hres : r.result <;> simp [passes_over, hres] at hr ⊢
  cases r.arg with
  | none => rfl
  | some a =>
    dsimp only
    split
    · rfl
    · split <;> rfl

theorem try_entries_first_decisive (buf : CStr) (lc : Nat) (e : SimpleConfEntry)
    (post : List SimpleConfEntry) (argv : List CStr) (r : Ret)
    (he : try_entry e (cstr buf) = some r) (hr : passes_over r.result = false) :
    ∀ (pre : List SimpleConfEntry) (err : Option Nat),
      (∀ p ∈ pre, ∃ rp, try_entry p (cstr buf) = some rp ∧ passes_over rp.result = true) →
      try_entries buf lc (pre ++ e :: post) argv err =
        some (decided buf lc r argv (pending_err (cstr buf) pre err)) := by
  intro pre
  induction pre with
  | nil => intro err _; exact try_entries_stop buf lc e post argv err r he hr
  | cons p pre ih =>
    intro err hpre
    obtain ⟨rp, hp, hrp⟩ := hpre p (by simp)
    simp only [List.cons_append]
    rw [try_entries_pass buf lc p _ argv err rp hp hrp]
    rw [ih _ (fun q hq => hpre q (by simp [hq]))]
    simp [pending_err, hp]

theorem try_entries_exhausted (buf : CStr) (lc : Nat) (argv : List CStr) :
    ∀ (entries : List SimpleConfEntry) (err : Option Nat),
      (∀ p ∈ entries, ∃ rp, try_entry p (cstr buf) = some rp ∧ passes_over rp.result = true) →
      try_entries buf lc entries argv err =
        some (.stop (.failure (some (exhausted_diag buf lc (pending_err (cstr buf) entries err))))) := by
  intro entries
  induction entries with
  | nil => intro err _; rfl
  | cons p pre ih =>
    intro err hpre
    obtain ⟨rp, hp, hrp⟩ := hpre p (by simp)
    rw [try_entries_pass buf lc p _ argv err rp hp hrp]
    rw [ih _ (fun q hq => hpre q (by simp [hq]))]
    simp [pending_err, hp]

/-- A line that lets the run go on adds to the arguments what it produces. -/
theorem try_entries_next (buf : CStr) (lc : Nat) (argv : List CStr) :
    ∀ (entries : List SimpleConfEntry) (err : Option Nat) (argv1 : List CStr) (err1 : Option Nat),
      try_entries buf lc entries argv err = some (.next argv1 err1) →
      argv1 = argv ++ (produced (cstr buf) entries).toList := by
  intro entries
  induction entries with
  | nil => intro err argv1 err1 h; simp [try_entries] at h
  | cons e es ih =>
    intro err argv1 err1 h
    cases he : try_entry e (cstr buf) with
    | none => simp [try_entries, he] at h
    | some r =>
      by_cases hr : passes_over r.result = true
      · rw [try_entries_pass buf lc e es argv err r he hr] at h
        rw [ih _ argv1 err1 h]
        simp [produced, he, hr]
      · have hr' : passes_over r.result = false := by simpa using hr
        rw [try_entries_stop buf lc e es argv err r he hr'] at h
        simp only [Option.some.injEq] at h
        simp only [produced, he, hr', Bool.false_eq_true, if_false]
        unfold decided at h
        cases hres : r.result <;> rw [hres] at h <;> simp at h ⊢
        · -- OK
          cases ha : r.arg with
          | none => rw [ha] at h; simp at h; simp [h.1]
          | some a =>
            rw [ha] at h
            dsimp only at h ⊢
            by_cases hz : peek a = 0
            · simp only [hz, if_true] at h ⊢
              simp only [LineOutcome.next.injEq] at h
              simp [h.1]
            · simp only [hz, if_false] at h ⊢
              split at h
              · cases h
              · simp only [LineOutcome.next.injEq] at h
                simp [h.1]
        · -- IGNORE
          simp [h.1]

theorem read_lines_success (entries : List SimpleConfEntry) :
    ∀ (chunks : List CStr) (buf : CStr) (lc : Nat) (argv : List CStr) (err : Option Nat)
      (out : List CStr), (∀ c ∈ chunks, ∀ b ∈ c, b ≠ 0) →
      read_lines entries chunks buf lc argv err = some (.success out) →
      out = argv ++ chunks.filterMap (fun c => produced (rstrip c) entries) := by
  intro chunks
  induction chunks with
  | nil => intro buf lc argv err out _ h; simp [read_lines] at h; simp [h]
  | cons c cs ih =>
    intro buf lc argv err out hn h
    simp only [read_lines] at h
    cases ht : try_entries (chomp (fgets_store buf c)) (lc + 1) entries argv err with
    | none => rw [ht] at h; simp at h
    | some o =>
      rw [ht] at h
      cases o with
      | stop r =>
        dsimp only at h
        have hfail : ∀ (es : List SimpleConfEntry) (a : List CStr) (e : Option Nat)
            (x : List CStr), try_entries (chomp (fgets_store buf c)) (lc + 1) es a e ≠
              some (.stop (.success x)) := by
          intro es
          induction es with
          | nil => intro a e x; simp [try_entries]
          | cons e1 es ihs =>
            intro a e x
            cases he : try_entry e1 (cstr (chomp (fgets_store buf c))) with
            | none => simp [try_entries, he]
            | some r1 =>
              by_cases hr : passes_over r1.result = true
              · rw [try_entries_pass _ _ e1 es a e r1 he hr]; exact ihs _ _ _
              · have hr' : passes_over r1.result = false := by simpa using hr
                rw [try_entries_stop _ _ e1 es a e r1 he hr']
                unfold decided
                cases hres : r1.result <;> simp
                cases r1.arg with
                | none => simp
                | some a1 =>
                  dsimp only
                  split
                  · simp
                  · split <;> simp
        simp only [Option.some.injEq] at h
        subst h
        exact absurd ht (hfail _ _ _ _)
      | next argv1 err1 =>
        dsimp only at h
        have h1 := try_entries_next _ _ _ _ _ _ _ ht
        rw [cstr_chomp_fgets buf c (hn c (by simp))] at h1
        rw [ih _ _ _ _ out (fun x hx => hn x (by simp [hx])) h, h1]
        simp only [List.filterMap_cons, List.append_assoc]
        cases produced (rstrip c) entries <;> simp

theorem produced_nonempty (line : CStr) :
    ∀ (entries : List SimpleConfEntry) (a : CStr), produced line entries = some a → a ≠ [] := by
  intro entries
  induction entries with
  | nil => intro a h; simp [produced] at h
  | cons e es ih =>
    intro a h
    simp only [produced] at h
    split at h
    · cases h
    · split at h
      · exact ih a h
      · split at h
        · split at h
          · split at h
            · cases h
            · rename_i hz
              simp only [Option.some.injEq] at h
              subst h
              rintro rfl
              exact hz rfl
          · cases h
        · cases h

theorem produced_blank (line : CStr) (entries : List SimpleConfEntry)
    (h : byteAt line (skip_spaces line 0) = 0 ∨ byteAt line (skip_spaces line 0) = 35) :
    produced line entries = none := by
  cases entries with
  | nil => rfl
  | cons e es =>
    have he : try_entry e line = some (ret_plain .IGNORE) := by
      unfold try_entry
      rcases h with h | h <;> simp [h]
    simp [produced, he, ret_plain, passes_over]

theorem isalnum_facts {x : Nat} (h : isalnum x = true) :
    isspace x = false ∧ x ≠ 61 ∧ x ≠ 58 ∧ x ≠ 0 := by
  have : (65 ≤ x ∧ x ≤ 90) ∨ (97 ≤ x ∧ x ≤ 122) ∨ (48 ≤ x ∧ x ≤ 57) := by
    simp only [isalnum, isalpha, isupper, islower, isdigit, Bool.or_eq_true, Bool.and_eq_true,
      decide_eq_true_eq] at h
    omega
  refine ⟨?_, by omega, by omega, by omega⟩
  simp [isspace]; omega

/-- The classes that reset `expect_char` accept a run of their bytes: for a
tag of letters, of letters and digits, or of digits, the rule `name ` + tag
with template `$*` on the line `name ` + `V`, where `V` is a non-empty run of
bytes of the class shorter than `MAX_ARG_LENGTH`, returns `OK` with `V`. -/
theorem class_value_accepted (tag : CStr) (st : State) (p : Nat → Bool) (V : CStr)
    (htag : (tag, st) ∈ class_tags) (hcl : class_of st = some (p, true))
    (hsub : ∀ b, p b = true → isalnum b = true)
    (hV : V ≠ []) (hVp : ∀ b ∈ V, p b = true) (hlen : V.length < MAX_ARG_LENGTH) :
    try_entry ⟨ofString "name " ++ tag, ofString "$*"⟩ (ofString "name " ++ V) =
      some { result := .OK, arg := some V, err := none } := by
  rw [show ofString "name " = [110, 97, 109, 101, 32] by decide,
    show ofString "$*" = [36, 42] by decide]
  obtain ⟨x, V', rfl⟩ : ∃ x V', V = x :: V' := by
    cases V with
    | nil => exact absurd rfl hV
    | cons x V' => exact ⟨x, V', rfl⟩
  obtain ⟨hx1, hx2, hx3, hx4⟩ := isalnum_facts (hsub x (hVp x (by simp)))
  simp only [List.length_cons, MAX_ARG_LENGTH] at hlen
  set buf : CStr := [110, 97, 109, 101, 32] ++ x :: V' with hbuf
  have hline : skip_spaces buf 0 = 0 := skip_spaces_stay (by simp [hbuf, byteAt, isspace])
  have h0 : byteAt buf 0 = 110 := by simp [hbuf, byteAt]
  have h4 : byteAt buf 4 = 32 := by simp [hbuf, byteAt]
  have h5 : byteAt buf 5 = x := by simp [hbuf, byteAt]
  have hend : byteAt buf (5 + (V'.length + 1)) = 0 :=
    byteAt_of_drop_nil (List.drop_eq_nil_of_le (by simp [hbuf]; omega))
  unfold try_entry
  simp only [hline, h0]
  simp only [Nat.reduceBEq, Bool.or_self, Bool.false_eq_true, if_false]
  have hpat : ([110, 97, 109, 101, 32] ++ tag : CStr) = [110, 97, 109, 101] ++ 32 :: tag := rfl
  rw [hpat]
  rw [propname_phase _ buf 0 32 tag (32 :: x :: V')
    (by decide) [110, 97, 109, 101] [110, 97, 109, 101] _ rfl rfl (by decide)
    (by simp [hbuf, init_vars]) rfl]
  simp only [init_vars]
  have htl : 5 ≤ tag.length := (class_tags_state htag).2.2
  have hpk : peek tag = 60 := by
    simp only [class_tags, List.mem_cons, Prod.mk.injEq, List.mem_singleton, List.not_mem_nil,
      or_false] at htag
    rcases htag with ⟨rfl, _⟩ | ⟨rfl, _⟩ | ⟨rfl, _⟩ | ⟨rfl, _⟩ | ⟨rfl, _⟩ | ⟨rfl, _⟩ <;> rfl
  -- the separator
  rw [try_from_eq]
  simp [loop_cond, loop_body, h4, isspace, hpk]
  rw [try_from_eq]
  simp [loop_cond, loop_body, h5, hx1, hx2, hx3, hx4, hpk]
  rw [try_from_eq]
  have hne : ¬ (tag.length = tag.length + 1 + 1 + 1 + 1 + 1) := by omega
  simp [loop_cond, loop_body, h5, hx1, hx2, hx3, hx4, hpk, hne]
  -- the tag
  have hstep : try_from ⟨[110, 97, 109, 101] ++ 32 :: tag, [36, 42]⟩ buf 0
      { in_pnt := tag, line_pnt := 5, match_start := none, wildcard_start := some 5,
        matches_ := [], state := .RCHAR, expect_char := false, is_boolean := false,
        is_enabled := false, d := 60 } =
      try_from ⟨[110, 97, 109, 101] ++ 32 :: tag, [36, 42]⟩ buf 0
      { in_pnt := [], line_pnt := 5, match_start := none, wildcard_start := some 5,
        matches_ := [], state := st, expect_char := true, is_boolean := false,
        is_enabled := false, d := 60 } := by
    apply try_from_cont
    · simp [loop_cond, hpk]
    · simp only [class_tags, List.mem_cons, Prod.mk.injEq, List.mem_singleton, List.not_mem_nil,
        or_false] at htag
      rcases htag with ⟨rfl, rfl⟩ | ⟨rfl, rfl⟩ | ⟨rfl, rfl⟩ | ⟨rfl, rfl⟩ | ⟨rfl, rfl⟩ | ⟨rfl, rfl⟩ <;>
        simp [loop_body, rchar_case, peek, prefix_match_cons, tag_alpha, tag_alnum,
          tag_digits, tag_xdigits, tag_nospace, tag_any, tag_bool, tolower, isupper]
  simp only [List.cons_append, List.nil_append] at hstep ⊢
  rw [hstep]
  -- the run of bytes of the class
  rw [class_run _ buf 0 p true [] (x :: V')]
  rotate_left
  · simp
  · exact hcl
  · simp [hbuf]
  · exact hVp
  dsimp only
  rw [try_from_done (by simp [loop_cond, peek, hend])]
  have hf : final_state_ok st = true := by
    cases st <;> simp [class_of] at hcl <;> rfl
  have hcopy : copy_bounded buf [] 5 (V'.length + 1) = x :: V' := by
    rw [copy_bounded_plain (by simp [hbuf]; omega) (by simp [MAX_ARG_LENGTH]; omega)]
    simp [hbuf]
  simp [after_loop, after_loop_checks, hf, peek, expand, MAX_ARG_LENGTH, hcopy, expand_finish]
  omega

theorem copy_bounded_eq (buf arg : CStr) (str len : Nat) :
    copy_bounded buf arg str len =
      arg ++ span_text buf str (min len (MAX_ARG_LENGTH - arg.length)) := rfl

theorem span_text_length (buf : CStr) (str len : Nat) : (span_text buf str len).length = len := by
  simp [span_text]

/-- Once the output buffer is full the expansion ends with `E2BIG`. -/
theorem expand_full (buf : CStr) (ms : List Match) (ws wl : Nat) (st : State) (out arg : CStr)
    (h : MAX_ARG_LENGTH ≤ arg.length) :
    expand buf ms ws wl st out arg = ret_plain .E2BIG := by
  have hn : ¬ arg.length < MAX_ARG_LENGTH := by omega
  cases out with
  | nil => simp [expand, expand_finish, h]
  | cons d out => simp [expand, expand_finish, h, hn]

theorem expand_finish_eq (arg : CStr) :
    expand_finish arg =
      if arg.length < MAX_ARG_LENGTH then { result := .OK, arg := some arg, err := none }
      else ret_plain .E2BIG := by
  unfold expand_finish
  by_cases h : arg.length < MAX_ARG_LENGTH
  · rw [if_neg (by omega), if_pos h]
  · rw [if_pos (by omega), if_neg h]

theorem expand_nil (buf : CStr) (ms : List Match) (ws wl : Nat) (st : State) (arg : CStr) :
    expand buf ms ws wl st [] arg = expand_finish arg := by
  simp [expand]

/-- An ordinary template byte is copied. -/
theorem expand_rchar_plain (buf : CStr) (ms : List Match) (ws wl : Nat) (d : Nat) (out arg : CStr)
    (ha : arg.length < MAX_ARG_LENGTH) (hd0 : d ≠ 0) (hd : d ≠ 36) :
    expand buf ms ws wl .TEMPLATE_RCHAR (d :: out) arg =
      expand buf ms ws wl .TEMPLATE_RCHAR out (arg ++ [d]) := by
  rw [expand]
  simp [ha, hd0, hd]

/-- A `$` in the template starts an escape. -/
theorem expand_rchar_dollar (buf : CStr) (ms : List Match) (ws wl : Nat) (out arg : CStr)
    (ha : arg.length < MAX_ARG_LENGTH) :
    expand buf ms ws wl .TEMPLATE_RCHAR (36 :: out) arg =
      expand buf ms ws wl .TEMPLATE_SUBST_ESC out arg := by
  rw [expand]
  simp [ha]

/-- The escape `$*` copies the wildcard span. -/
theorem expand_esc_star (buf : CStr) (ms : List Match) (ws wl : Nat) (out arg : CStr)
    (ha : arg.length < MAX_ARG_LENGTH) :
    expand buf ms ws wl .TEMPLATE_SUBST_ESC (42 :: out) arg =
      expand buf ms ws wl .TEMPLATE_RCHAR out (copy_bounded buf arg ws wl) := by
  rw [expand]
  simp [ha]

/-- The escape `$N` on a digit: the capture when it exists, the invalid-rule
result when it does not. -/
theorem expand_esc_digit (buf : CStr) (ms : List Match) (ws wl : Nat) (d : Nat) (out arg : CStr)
    (ha : arg.length < MAX_ARG_LENGTH) (h1 : 48 ≤ d) (h2 : d ≤ 57) :
    expand buf ms ws wl .TEMPLATE_SUBST_ESC (d :: out) arg =
      if ms.length ≤ d - 48 then ret_plain .INVALID_ENTRY
      else expand buf ms ws wl .TEMPLATE_RCHAR out
        (copy_bounded buf arg (ms.getD (d - 48) ⟨0, 0⟩).str (ms.getD (d - 48) ⟨0, 0⟩).str_len) := by
  rw [expand]
  have hd0 : d ≠ 0 := by omega
  have hd : d ≠ 42 := by omega
  simp [ha, hd0, hd, h1, h2]

/-- The escape on any other byte is the invalid-rule result. -/
theorem expand_esc_other (buf : CStr) (ms : List Match) (ws wl : Nat) (d : Nat) (out arg : CStr)
    (ha : arg.length < MAX_ARG_LENGTH) (hd0 : d ≠ 0) (hd : d ≠ 42) (h : ¬ (48 ≤ d ∧ d ≤ 57)) :
    expand buf ms ws wl .TEMPLATE_SUBST_ESC (d :: out) arg = ret_plain .INVALID_ENTRY := by
  rw [expand]
  simp only [ha, hd0, decide_True, bne_iff_ne, ne_eq, not_false_eq_true, Bool.and_self, if_true,
    beq_iff_eq, hd, if_false, Bool.and_eq_true, decide_eq_true_eq, h, and_self]

/-- A copy loop either copies the whole span or fills the buffer. -/
theorem copy_bounded_cases (buf arg : CStr) (str len : Nat) (ha : arg.length < MAX_ARG_LENGTH) :
    (arg.length + len < MAX_ARG_LENGTH ∧ copy_bounded buf arg str len = arg ++ span_text buf str len) ∨
    (MAX_ARG_LENGTH ≤ arg.length + len ∧
      MAX_ARG_LENGTH ≤ (copy_bounded buf arg str len).length) := by
  by_cases h : arg.length + len < MAX_ARG_LENGTH
  · left
    refine ⟨h, ?_⟩
    rw [copy_bounded_eq, Nat.min_eq_left (by omega)]
  · right
    refine ⟨by omega, ?_⟩
    rw [copy_bounded_eq, List.length_append, span_text_length, Nat.min_eq_right (by omega)]
    omega

/-- The expansion loop on a well-formed template: the template with its
substitutions made, when that fits the buffer, and `E2BIG` otherwise. -/
theorem expand_spec (buf : CStr) (ms : List Match) (ws wl : Nat) :
    ∀ (n : Nat) (T arg : CStr), T.length ≤ n → (∀ b ∈ T, b ≠ 0) →
      well_formed ms.length T = true →
      expand buf ms ws wl .TEMPLATE_RCHAR T arg =
        if (arg ++ expansion buf ms ws wl T).length < MAX_ARG_LENGTH then
          { result := .OK, arg := some (arg ++ expansion buf ms ws wl T), err := none }
        else ret_plain .E2BIG := by
  intro n
  induction n with
  | zero =>
    intro T arg hl _ _
    have : T = [] := List.length_eq_zero.mp (by omega)
    subst this
    rw [expand_nil, expand_finish_eq]
    simp only [expansion, List.append_nil]
  | succ n ih =>
    intro T arg hl hnul hwf
    by_cases ha : arg.length < MAX_ARG_LENGTH
    swap
    · rw [expand_full _ _ _ _ _ _ _ (by omega)]
      have : ¬ (arg ++ expansion buf ms ws wl T).length < MAX_ARG_LENGTH := by
        rw [List.length_append]; omega
      rw [if_neg this]
    cases T with
    | nil =>
      rw [expand_nil, expand_finish_eq]
      simp only [expansion, List.append_nil]
    | cons c T1 =>
      have hc0 : c ≠ 0 := hnul c (by simp)
      cases T1 with
      | nil =>
        have hc : c ≠ 36 := by simpa [well_formed] using hwf
        rw [expand_rchar_plain _ _ _ _ _ _ _ ha hc0 hc, expand_nil, expand_finish_eq]
        simp only [expansion, beq_iff_eq, hc, if_false]
      | cons d T2 =>
        have hd0 : d ≠ 0 := hnul d (by simp)
        by_cases hc : c = 36
        · subst hc
          simp only [well_formed, beq_self_eq_true, if_true, Bool.and_eq_true, Bool.or_eq_true,
            beq_iff_eq, decide_eq_true_eq] at hwf
          obtain ⟨hd, hwf2⟩ := hwf
          have hT2 : T2.length ≤ n := by simp at hl; omega
          have hnul2 : ∀ b ∈ T2, b ≠ 0 := fun b hb => hnul b (by simp [hb])
          rw [expand_rchar_dollar _ _ _ _ _ _ ha]
          simp only [expansion, beq_self_eq_true, if_true]
          by_cases hs : d = 42
          · subst hs
            rw [expand_esc_star _ _ _ _ _ _ ha]
            simp only [beq_self_eq_true, if_true]
            rcases copy_bounded_cases buf arg ws wl ha with ⟨_, h2⟩ | ⟨h1, h2⟩
            · rw [h2, ih T2 _ hT2 hnul2 hwf2]
              simp only [List.append_assoc]
            · rw [expand_full _ _ _ _ _ _ _ h2]
              have : ¬ (arg ++ (span_text buf ws wl ++ expansion buf ms ws wl T2)).length <
                  MAX_ARG_LENGTH := by
                simp only [List.length_append, span_text_length]; omega
              rw [if_neg this]
          · have hdig : 48 ≤ d ∧ d ≤ 57 ∧ d - 48 < ms.length := by
              rcases hd with hd | hd
              · exact absurd hd hs
              · exact ⟨hd.1.1, hd.1.2, hd.2⟩
            have hs' : (d == 42) = false := by simpa using hs
            rw [expand_esc_digit _ _ _ _ _ _ _ ha hdig.1 hdig.2.1, if_neg (by omega)]
            simp only [hs', Bool.false_eq_true, if_false]
            rcases copy_bounded_cases buf arg (ms.getD (d - 48) ⟨0, 0⟩).str
              (ms.getD (d - 48) ⟨0, 0⟩).str_len ha with ⟨_, h2⟩ | ⟨h1, h2⟩
            · rw [h2, ih T2 _ hT2 hnul2 hwf2]
              simp only [List.append_assoc]
            · rw [expand_full _ _ _ _ _ _ _ h2]
              have : ¬ (arg ++ (span_text buf (ms.getD (d - 48) ⟨0, 0⟩).str
                  (ms.getD (d - 48) ⟨0, 0⟩).str_len ++ expansion buf ms ws wl T2)).length <
                  MAX_ARG_LENGTH := by
                simp only [List.length_append, span_text_length]; omega
              rw [if_neg this]
        · have hwf2 : well_formed ms.length (d :: T2) = true := by
            simpa [well_formed, hc] using hwf
          have hc' : (c == 36) = false := by simpa using hc
          rw [expand_rchar_plain _ _ _ _ _ _ _ ha hc0 hc,
            ih (d :: T2) _ (by simp at hl ⊢; omega) (fun b hb => hnul b (by simp [hb])) hwf2]
          simp only [expansion, hc', Bool.false_eq_true, if_false, List.append_assoc,
            List.singleton_append]

/-! ## Reachable locals of the matching loop -/

theorem loop_iter_snoc {e_in buf : CStr} {line : Nat} :
    ∀ (k : Nat) (v v1 v2 : Vars), loop_iter e_in buf line k v = some v1 →
      loop_cond buf v1 = true → loop_body e_in buf line v1 = .cont v2 →
      loop_iter e_in buf line (k + 1) v = some v2 := by
  intro k
  induction k with
  | zero =>
    intro v v1 v2 h hc hb
    simp only [loop_iter, Option.some.injEq] at h
    subst h
    simp [loop_iter, hc, hb]
  | succ k ih =>
    intro v v1 v2 h hc hb
    rw [loop_iter] at h
    rw [loop_iter]
    by_cases hcv : loop_cond buf v = true
    · rw [if_pos hcv] at h ⊢
      cases hbv : loop_body e_in buf line v with
      | cont v3 =>
        rw [hbv] at h
        exact ih v3 v1 v2 h hc hb
      | ret r => rw [hbv] at h; cases h
    · rw [if_neg hcv] at h; cases h

theorem loop_iter_last {e_in buf : CStr} {line : Nat} :
    ∀ (k : Nat) (v v2 : Vars), loop_iter e_in buf line (k + 1) v = some v2 →
      ∃ v1, loop_iter e_in buf line k v = some v1 ∧ loop_cond buf v1 = true ∧
        loop_body e_in buf line v1 = .cont v2 := by
  intro k
  induction k with
  | zero =>
    intro v v2 h
    rw [loop_iter] at h
    by_cases hcv : loop_cond buf v = true
    · rw [if_pos hcv] at h
      cases hbv : loop_body e_in buf line v with
      | cont v3 =>
        rw [hbv] at h
        simp only [loop_iter, Option.some.injEq] at h
        subst h
        exact ⟨v, rfl, hcv, hbv⟩
      | ret r => rw [hbv] at h; cases h
    · rw [if_neg hcv] at h; cases h
  | succ k ih =>
    intro v v2 h
    rw [loop_iter] at h
    by_cases hcv : loop_cond buf v = true
    · rw [if_pos hcv] at h
      cases hbv : loop_body e_in buf line v with
      | cont v3 =>
        rw [hbv] at h
        obtain ⟨v1, h1, h2, h3⟩ := ih v3 v2 h
        refine ⟨v1, ?_, h2, h3⟩
        rw [loop_iter, if_pos hcv, hbv]
        exact h1
      | ret r => rw [hbv] at h; cases h
    · rw [if_neg hcv] at h; cases h

/-- One more iteration from reachable locals gives reachable locals. -/
theorem reaches_step {entry : SimpleConfEntry} {buf : CStr} {v v1 : Vars}
    (h : Reaches entry buf v) (hc : loop_cond buf v = true)
    (hb : loop_body entry.in_ buf (skip_spaces buf 0) v = .cont v1) : Reaches entry buf v1 := by
  obtain ⟨h0, k, hk⟩ := h
  exact ⟨h0, k + 1, loop_iter_snoc k _ _ _ hk hc hb⟩

/-- Induction over the reachable locals of the matching loop. -/
theorem reaches_induct (entry : SimpleConfEntry) (buf : CStr) (P : Vars → Prop)
    (hinit : (byteAt buf (skip_spaces buf 0) == 0 || byteAt buf (skip_spaces buf 0) == 35) = false →
      P (init_vars entry.in_ (skip_spaces buf 0)))
    (hstep : ∀ v v1, Reaches entry buf v → P v → loop_cond buf v = true →
      loop_body entry.in_ buf (skip_spaces buf 0) v = .cont v1 → P v1) :
    ∀ v, Reaches entry buf v → P v := by
  have key : ∀ k v, (byteAt buf (skip_spaces buf 0) == 0 ||
      byteAt buf (skip_spaces buf 0) == 35) = false →
      loop_iter entry.in_ buf (skip_spaces buf 0) k (init_vars entry.in_ (skip_spaces buf 0)) =
        some v → P v := by
    intro k
    induction k with
    | zero =>
      intro v h0 h
      simp only [loop_iter, Option.some.injEq] at h
      subst h
      exact hinit h0
    | succ k ih =>
      intro v h0 h
      obtain ⟨v1, h1, h2, h3⟩ := loop_iter_last k _ _ h
      exact hstep v1 v ⟨h0, k, h1⟩ (ih v1 h0 h1) h2 h3
  rintro v ⟨h0, k, hk⟩
  exact key k v h0 hk

/-- How `try_entry` ends: at a blank or comment line, at a return of the
matching loop, or after the loop. -/
theorem try_entry_cases (entry : SimpleConfEntry) (buf : CStr) (r : Ret)
    (h : try_entry entry buf = some r) :
    ((byteAt buf (skip_spaces buf 0) == 0 || byteAt buf (skip_spaces buf 0) == 35) = true ∧
      r = ret_plain .IGNORE) ∨
    (∃ v, Reaches entry buf v ∧ loop_cond buf v = true ∧
      loop_body entry.in_ buf (skip_spaces buf 0) v = .ret r) ∨
    (∃ v, Reaches entry buf v ∧ loop_cond buf v = false ∧
      r = after_loop entry.out buf (skip_spaces buf 0) v) := by
  unfold try_entry at h
  dsimp only at h
  by_cases h0 : (byteAt buf (skip_spaces buf 0) == 0 || byteAt buf (skip_spaces buf 0) == 35) = true
  · rw [if_pos h0] at h
    left
    exact ⟨h0, by simpa using h.symm⟩
  · rw [if_neg h0] at h
    have h0f : (byteAt buf (skip_spaces buf 0) == 0 ||
        byteAt buf (skip_spaces buf 0) == 35) = false := by simpa using h0
    right
    refine try_from_invariant entry buf (skip_spaces buf 0) (fun v => Reaches entry buf v)
      (fun r => (∃ v, Reaches entry buf v ∧ loop_cond buf v = true ∧
          loop_body entry.in_ buf (skip_spaces buf 0) v = .ret r) ∨
        (∃ v, Reaches entry buf v ∧ loop_cond buf v = false ∧
          r = after_loop entry.out buf (skip_spaces buf 0) v))
      ?_ ?_ ?_ _ ⟨h0f, 0, rfl⟩ r h
    · intro v v1 hI hc hb
      exact reaches_step hI hc hb
    · intro v r1 hI hc hb
      exact Or.inl ⟨v, hI, hc, hb⟩
    · intro v hI hc
      exact Or.inr ⟨v, hI, hc, rfl⟩

/-- When the pattern matches the line, `try_entry` is the expansion of the
template with the captures and the wildcard span of the match. -/
theorem try_entry_of_matches {entry : SimpleConfEntry} {buf : CStr} {v : Vars} {ms : List Match}
    (h : Matches entry buf v ms) :
    try_entry entry buf =
      some (expand buf ms (v.wildcard_start.getD 0) (wildcard_len v) .TEMPLATE_RCHAR
        entry.out []) := by
  obtain ⟨hr, hc, hchk⟩ := h
  rw [try_entry_of_reaches hr, try_from_done hc]
  simp only [after_loop, hchk, wildcard_len]

theorem expand_guard (buf : CStr) (ms : List Match) (ws wl : Nat) (st : State) (out arg : CStr) :
    expand buf ms ws wl st out arg =
      if arg.length < MAX_ARG_LENGTH then expand buf ms ws wl st out arg
      else ret_plain .E2BIG := by
  by_cases h : arg.length < MAX_ARG_LENGTH
  · rw [if_pos h]
  · rw [if_neg h, expand_full _ _ _ _ _ _ _ (by omega)]

/-- The expansion loop over a well-formed first part of the template: its
substitutions are made and the loop goes on with the rest, unless the buffer
is full by then. -/
theorem expand_prefix (buf : CStr) (ms : List Match) (ws wl : Nat) (rest : CStr) :
    ∀ (n : Nat) (T arg : CStr), T.length ≤ n → (∀ b ∈ T, b ≠ 0) →
      well_formed ms.length T = true →
      expand buf ms ws wl .TEMPLATE_RCHAR (T ++ rest) arg =
        if (arg ++ expansion buf ms ws wl T).length < MAX_ARG_LENGTH then
          expand buf ms ws wl .TEMPLATE_RCHAR rest (arg ++ expansion buf ms ws wl T)
        else ret_plain .E2BIG := by
  intro n
  induction n with
  | zero =>
    intro T arg hl _ _
    have : T = [] := List.length_eq_zero.mp (by omega)
    subst this
    simp only [expansion, List.append_nil, List.nil_append]
    exact expand_guard _ _ _ _ _ _ _
  | succ n ih =>
    intro T arg hl hnul hwf
    by_cases ha : arg.length < MAX_ARG_LENGTH
    swap
    · rw [expand_full _ _ _ _ _ _ _ (by omega)]
      have : ¬ (arg ++ expansion buf ms ws wl T).length < MAX_ARG_LENGTH := by
        rw [List.length_append]; omega
      rw [if_neg this]
    cases T with
    | nil =>
      simp only [expansion, List.append_nil, List.nil_append]
      exact expand_guard _ _ _ _ _ _ _
    | cons c T1 =>
      have hc0 : c ≠ 0 := hnul c (by simp)
      cases T1 with
      | nil =>
        have hc : c ≠ 36 := by simpa [well_formed] using hwf
        rw [List.singleton_append, expand_rchar_plain _ _ _ _ _ _ _ ha hc0 hc]
        simp only [expansion, beq_iff_eq, hc, if_false]
        exact expand_guard _ _ _ _ _ _ _
      | cons d T2 =>
        have hd0 : d ≠ 0 := hnul d (by simp)
        by_cases hc : c = 36
        · subst hc
          simp only [well_formed, beq_self_eq_true, if_true, Bool.and_eq_true, Bool.or_eq_true,
            beq_iff_eq, decide_eq_true_eq] at hwf
          obtain ⟨hd, hwf2⟩ := hwf
          have hT2 : T2.length ≤ n := by simp at hl; omega
          have hnul2 : ∀ b ∈ T2, b ≠ 0 := fun b hb => hnul b (by simp [hb])
          rw [List.cons_append, List.cons_append, expand_rchar_dollar _ _ _ _ _ _ ha]
          simp only [expansion, beq_self_eq_true, if_true]
          by_cases hs : d = 42
          · subst hs
            rw [expand_esc_star _ _ _ _ _ _ ha]
            simp only [beq_self_eq_true, if_true]
            rcases copy_bounded_cases buf arg ws wl ha with ⟨_, h2⟩ | ⟨h1, h2⟩
            · rw [h2, ih T2 _ hT2 hnul2 hwf2]
              simp only [List.append_assoc]
            · rw [expand_full _ _ _ _ _ _ _ h2]
              have : ¬ (arg ++ (span_text buf ws wl ++ expansion buf ms ws wl T2)).length <
                  MAX_ARG_LENGTH := by
                simp only [List.length_append, span_text_length]; omega
              rw [if_neg this]
          · have hdig : 48 ≤ d ∧ d ≤ 57 ∧ d - 48 < ms.length := by
              rcases hd with hd | hd
              · exact absurd hd hs
              · exact ⟨hd.1.1, hd.1.2, hd.2⟩
            have hs' : (d == 42) = false := by simpa using hs
            rw [expand_esc_digit _ _ _ _ _ _ _ ha hdig.1 hdig.2.1, if_neg (by omega)]
            simp only [hs', Bool.false_eq_true, if_false]
            rcases copy_bounded_cases buf arg (ms.getD (d - 48) ⟨0, 0⟩).str
              (ms.getD (d - 48) ⟨0, 0⟩).str_len ha with ⟨_, h2⟩ | ⟨h1, h2⟩
            · rw [h2, ih T2 _ hT2 hnul2 hwf2]
              simp only [List.append_assoc]
            · rw [expand_full _ _ _ _ _ _ _ h2]
              have : ¬ (arg ++ (span_text buf (ms.getD (d - 48) ⟨0, 0⟩).str
                  (ms.getD (d - 48) ⟨0, 0⟩).str_len ++ expansion buf ms ws wl T2)).length <
                  MAX_ARG_LENGTH := by
                simp only [List.length_append, span_text_length]; omega
              rw [if_neg this]
        · have hwf2 : well_formed ms.length (d :: T2) = true := by
            simpa [well_formed, hc] using hwf
          have hc' : (c == 36) = false := by simpa using hc
          rw [List.cons_append, expand_rchar_plain _ _ _ _ _ _ _ ha hc0 hc]
          have := ih (d :: T2) (arg ++ [c]) (by simp at hl ⊢; omega)
            (fun b hb => hnul b (by simp [hb])) hwf2
          rw [this]
          simp only [expansion, hc', Bool.false_eq_true, if_false, List.append_assoc,
            List.singleton_append]

theorem peek_cons {p : CStr} (h : peek p ≠ 0) : p = peek p :: p.tail := by
  cases p with
  | nil => simp [peek] at h
  | cons a t => rfl

/-- The bytes that `prefix_match` steps over: none is a byte that is its own
lower case and is not in the prefix. -/
theorem prefix_match_take {p tag : CStr} (h : prefix_match p tag = true) (x : Nat)
    (hx : tolower x = x) (hn : x ∉ tag.map tolower) : x ∉ p.take tag.length := by
  rw [prefix_match_iff] at h
  obtain ⟨t, ht⟩ := h
  have hk : (p.take tag.length).map tolower = tag.map tolower := by
    rw [List.map_take, ← ht, List.take_left' (by simp)]
  intro hmem
  apply hn
  rw [← hk, ← hx]
  exact List.mem_map_of_mem _ hmem

theorem tags_no_terminator :
    ∀ tag ∈ [tag_alpha, tag_alnum, tag_digits, tag_xdigits, tag_nospace, tag_any, tag_bool],
      0 ∉ tag.map tolower ∧ 41 ∉ tag.map tolower ∧ 0 < tag.length := by
  decide

/-- The word of the pattern that a matched tag steps over. -/
theorem tag_word {p tag : CStr} (h : prefix_match p tag = true)
    (ht : tag ∈ [tag_alpha, tag_alnum, tag_digits, tag_xdigits, tag_nospace, tag_any, tag_bool]) :
    p = p.take tag.length ++ p.drop tag.length ∧ (∀ b ∈ p.take tag.length, b ≠ 0) ∧
      (∀ b ∈ p.take tag.length, b ≠ 41) ∧ p.take tag.length ≠ [] := by
  obtain ⟨h0, h41, hl⟩ := tags_no_terminator tag ht
  refine ⟨(List.take_append_drop _ _).symm, ?_, ?_, ?_⟩
  · intro b hb hb0
    subst hb0
    exact prefix_match_take h 0 (by decide) h0 hb
  · intro b hb hb0
    subst hb0
    exact prefix_match_take h 41 (by decide) h41 hb
  · have := prefix_match_length h
    intro hnil
    have hlen := congrArg List.length hnil
    rw [List.length_take, List.length_nil] at hlen
    omega

/-- The bytes of the line that a matched boolean literal steps over. -/
theorem literal_bytes {buf : CStr} {lp : Nat} {l : CStr} {en : Bool}
    (hl : (l, en) ∈ bool_literals) (h : prefix_match (buf.drop lp) l = true) :
    0 < l.length ∧ ∀ i, i < l.length → byteAt buf (lp + i) ≠ 0 := by
  have hfacts : ∀ q ∈ bool_literals, 0 ∉ q.1.map tolower ∧ 0 < q.1.length := by decide
  obtain ⟨h0, hlen⟩ := hfacts _ hl
  refine ⟨hlen, ?_⟩
  intro i hi hz
  have hlen2 := prefix_match_length h
  have hmem : byteAt buf (lp + i) ∈ (buf.drop lp).take l.length := by
    unfold byteAt
    rw [List.mem_iff_getElem]
    refine ⟨i, by simp; exact ⟨hi, by simp at hlen2; omega⟩, ?_⟩
    simp at hlen2
    rw [List.getElem_take, List.getElem_drop, List.getD_eq_getElem _ _ (by omega)]
  rw [hz] at hmem
  exact prefix_match_take h 0 (by decide) h0 hmem

theorem step_shape_line {buf : CStr} {v v1 : Vars} (n : Nat) (h1 : v1.in_pnt = v.in_pnt)
    (h2 : v1.line_pnt = v.line_pnt + n) (hn : 0 < n)
    (hb : ∀ i, i < n → byteAt buf (v.line_pnt + i) ≠ 0) (hd : v1.d = peek v.in_pnt)
    (hm : v1.matches_ = v.matches_) : step_shape buf v v1 :=
  ⟨[], n, by simp [h1], by simp, Or.inl rfl, h2, hb, hd, Or.inl hm, Or.inr (Or.inl hn)⟩

theorem step_shape_rank {buf : CStr} {v v1 : Vars} (h1 : v1.in_pnt = v.in_pnt)
    (h2 : v1.line_pnt = v.line_pnt) (hd : v1.d = peek v.in_pnt)
    (hm : v1.matches_ = v.matches_) (hr : state_rank v1.state < state_rank v.state) :
    step_shape buf v v1 :=
  ⟨[], 0, by simp [h1], by simp, Or.inl rfl, h2, by intro i hi; omega, hd, Or.inl hm,
    Or.inr (Or.inr hr)⟩

theorem step_shape_byte {buf : CStr} {v v1 : Vars} (n : Nat) (h0 : peek v.in_pnt ≠ 0)
    (h1 : v1.in_pnt = v.in_pnt.tail) (h2 : v1.line_pnt = v.line_pnt + n)
    (hb : ∀ i, i < n → byteAt buf (v.line_pnt + i) ≠ 0) (hd : v1.d = peek v.in_pnt)
    (hm : v1.matches_ = v.matches_ ∨
      (∃ m, v1.matches_ = v.matches_ ++ [m]) ∧ peek v.in_pnt = 41 ∧
        v.matches_.length < MATCHES_CAP) : step_shape buf v v1 := by
  refine ⟨[peek v.in_pnt], n, ?_, ?_, Or.inr (Or.inl rfl), h2, hb, hd, ?_, Or.inl (by simp)⟩
  · rw [h1]; exact peek_cons h0
  · intro b hb; simp at hb; rw [hb]; exact h0
  · rcases hm with hm | ⟨hm, hp, hl⟩
    · exact Or.inl hm
    · exact Or.inr ⟨hm, by rw [hp], hl⟩

theorem step_shape_tag {buf : CStr} {v v1 : Vars} (tag : CStr)
    (ht : tag ∈ [tag_alpha, tag_alnum, tag_digits, tag_xdigits, tag_nospace, tag_any, tag_bool])
    (hp : prefix_match v.in_pnt tag = true) (h1 : v1.in_pnt = v.in_pnt.drop tag.length)
    (h2 : v1.line_pnt = v.line_pnt) (hd : v1.d = peek v.in_pnt)
    (hm : v1.matches_ = v.matches_) : step_shape buf v v1 := by
  obtain ⟨ha, hb, hc, hne⟩ := tag_word hp ht
  refine ⟨v.in_pnt.take tag.length, 0, ?_, hb, Or.inr (Or.inr hc), h2, by intro i hi; omega, hd,
    Or.inl hm, Or.inl hne⟩
  rw [h1]; exact ha

theorem add_to_matches_some {buf : CStr} {ms m : List Match} {s e : Nat}
    (h : add_to_matches buf ms s e = some m) : ∃ x, m = ms ++ [x] := by
  unfold add_to_matches at h
  dsimp only at h
  split at h
  · cases h
  · simp only [Option.some.injEq] at h
    exact ⟨_, h.symm⟩

theorem one_byte {buf : CStr} {lp : Nat} (h : byteAt buf lp ≠ 0) :
    ∀ i, i < 1 → byteAt buf (lp + i) ≠ 0 := by
  intro i hi
  have : i = 0 := by omega
  subst this
  exact h

theorem no_byte {buf : CStr} {lp : Nat} : ∀ i, i < 0 → byteAt buf (lp + i) ≠ 0 := by
  intro i hi; omega

theorem sep_or_space_ne_zero {c : Nat} (h : (c == 61 || c == 58) = true ∨ isspace c = true) :
    c ≠ 0 := by
  rintro rfl
  rcases h with h | h <;> simp [isspace] at h

/-- Every iteration of the matching loop that does not return has the shape
`step_shape`. -/
theorem loop_body_step (e_in buf : CStr) (line : Nat) (v v1 : Vars)
    (h : loop_body e_in buf line v = .cont v1) : step_shape buf v v1 := by
  generalize hM : (fun s : Step => ∀ v1, s = .cont v1 → step_shape buf v v1) = M
  have hgoal : M (loop_body e_in buf line v) := by
    unfold loop_body
    dsimp only
    split
    case h_1 hst =>
      subst hM
      intro v1 h
      by_cases g1 : isspace (peek v.in_pnt) = true
      · rw [if_pos g1] at h
        cases h
        exact step_shape_byte 0 (isspace_ne_zero g1) rfl rfl no_byte rfl (Or.inl rfl)
      rw [if_neg g1] at h
      by_cases g2 : (peek v.in_pnt == 63) = true
      · rw [if_pos g2] at h
        cases h
        exact step_shape_byte 0 (by simp at g2; omega) rfl rfl no_byte rfl (Or.inl rfl)
      rw [if_neg g2] at h
      by_cases g3 : (byteAt buf v.line_pnt != 0 && peek v.in_pnt != 0 &&
          tolower (byteAt buf v.line_pnt) == tolower (peek v.in_pnt)) = true
      · rw [if_pos g3] at h
        cases h
        simp only [Bool.and_eq_true, bne_iff_ne, ne_eq, beq_iff_eq] at g3
        exact step_shape_byte 1 g3.1.2 rfl rfl (one_byte g3.1.1) rfl (Or.inl rfl)
      · rw [if_neg g3] at h
        cases h
    case h_2 hst =>
      subst hM
      intro v1 h
      by_cases g1 : (byteAt buf v.line_pnt == 61 || byteAt buf v.line_pnt == 58) = true
      · rw [if_pos g1] at h
        cases h
        exact step_shape_line 1 rfl rfl (by decide)
          (one_byte (sep_or_space_ne_zero (Or.inl g1))) rfl rfl
      rw [if_neg g1] at h
      by_cases g2 : isspace (byteAt buf v.line_pnt) = true
      · rw [if_pos g2] at h
        cases h
        exact step_shape_line 1 rfl rfl (by decide) (one_byte (isspace_ne_zero g2)) rfl rfl
      · rw [if_neg g2] at h
        cases h
    case h_3 hst =>
      subst hM
      intro v1 h
      by_cases g1 : (byteAt buf v.line_pnt == 61 || byteAt buf v.line_pnt == 58) = true
      · rw [if_pos g1] at h
        cases h
        exact step_shape_line 1 rfl rfl (by decide)
          (one_byte (sep_or_space_ne_zero (Or.inl g1))) rfl rfl
      rw [if_neg g1] at h
      by_cases g2 : isspace (byteAt buf v.line_pnt) = true
      · rw [if_pos g2] at h
        cases h
        exact step_shape_line 1 rfl rfl (by decide) (one_byte (isspace_ne_zero g2)) rfl rfl
      · rw [if_neg g2] at h
        cases h
        exact step_shape_rank rfl rfl rfl rfl (by rw [hst]; simp [state_rank])
    case h_4 hst =>
      subst hM
      intro v1 h
      by_cases g1 : (byteAt buf v.line_pnt == 61 || byteAt buf v.line_pnt == 58) = true
      · rw [if_pos g1] at h
        cases h
      rw [if_neg g1] at h
      by_cases g2 : isspace (byteAt buf v.line_pnt) = true
      · rw [if_pos g2] at h
        cases h
        exact step_shape_line 1 rfl rfl (by decide) (one_byte (isspace_ne_zero g2)) rfl rfl
      rw [if_neg g2] at h
      split at h
      · cases h
      · cases h
        exact step_shape_rank rfl rfl rfl rfl (by rw [hst]; simp [state_rank])
    case h_5 hst =>
      apply rchar_case_elim buf line _ _ _ M <;> subst hM
      · intro v1 h; cases h
      · intro v1 h; cases h
      · intro v1 h; cases h
      · intro hd v1 h
        cases h
        exact step_shape_byte 0 (by rw [hd]; decide) rfl rfl no_byte rfl (Or.inl rfl)
      · intro hd ms m hms hcap hadd v1 h
        cases h
        obtain ⟨x, hx⟩ := add_to_matches_some hadd
        exact step_shape_byte 0 (by rw [hd]; decide) rfl rfl no_byte rfl
          (Or.inr ⟨⟨x, hx⟩, hd, hcap⟩)
      · intro tag st htag hp v1 h
        cases h
        refine step_shape_tag tag ?_ hp rfl rfl rfl rfl
        simp only [class_tags, List.mem_cons, Prod.mk.injEq, List.mem_singleton,
          List.not_mem_nil, or_false] at htag ⊢
        rcases htag with h | h | h | h | h | h <;> simp [h.1]
      · intro hp _ v1 h
        cases h
        exact step_shape_tag tag_bool (by simp) hp rfl rfl rfl rfl
      · intro hd v1 h
        cases h
        exact step_shape_byte 0 (isspace_ne_zero hd) rfl rfl no_byte rfl (Or.inl rfl)
      · intro hd hc v1 h
        cases h
        have hd0 : peek v.in_pnt ≠ 0 := class_ne_zero.2.2.2.2.1 hd
        exact step_shape_byte 1 hd0 rfl rfl (one_byte (by rw [hc]; exact hd0)) rfl (Or.inl rfl)
    case h_13 hst =>
      apply boolean_case_elim buf line _ M <;> subst hM
      · intro v1 h; cases h
      · intro l en hl hp v1 h
        cases h
        obtain ⟨hlen, hb⟩ := literal_bytes hl hp
        exact step_shape_line l.length rfl rfl hlen hb rfl rfl
    all_goals
      subst hM
      intro v1 h
      first
      | cases h
      | split at h
        · cases h
          rename_i g
          first
            | exact step_shape_line 1 rfl rfl (by decide) (one_byte (class_ne_zero.1 g)) rfl rfl
            | exact step_shape_line 1 rfl rfl (by decide) (one_byte (class_ne_zero.2.1 g)) rfl rfl
            | exact step_shape_line 1 rfl rfl (by decide) (one_byte (class_ne_zero.2.2.1 g)) rfl rfl
            | exact step_shape_line 1 rfl rfl (by decide) (one_byte (class_ne_zero.2.2.2.1 g)) rfl
                rfl
            | exact step_shape_line 1 rfl rfl (by decide) (one_byte (class_ne_zero.2.2.2.2.1 g))
                rfl rfl
            | exact step_shape_line 1 rfl rfl (by decide) (one_byte (class_ne_zero.2.2.2.2.2 g))
                rfl rfl
            | exact step_shape_line 1 rfl rfl (by decide) (one_byte (isspace_ne_zero g)) rfl rfl
        · cases h
          rename_i hst _
          exact step_shape_rank rfl rfl rfl rfl (by rw [hst]; simp [state_rank])
  subst hM
  exact hgoal v1 h

theorem skip_spaces_count_bytes :
    ∀ (l : CStr) (i : Nat), i < skip_spaces_count l → isspace (l.getD i 0) = true := by
  intro l
  induction l with
  | nil => intro i hi; simp [skip_spaces_count] at hi
  | cons c cs ih =>
    intro i hi
    rw [skip_spaces_count] at hi
    by_cases hc : (c != 0 && isspace c) = true
    · rw [if_pos hc] at hi
      cases i with
      | zero => simp only [Bool.and_eq_true] at hc; simpa using hc.2
      | succ i => simpa using ih i (by omega)
    · rw [if_neg hc] at hi; omega

/-- The bytes before the first non-blank byte of the line are blanks. -/
theorem skip_spaces_bytes (buf : CStr) (i : Nat) (hi : i < skip_spaces buf 0) :
    isspace (byteAt buf i) = true := by
  unfold skip_spaces at hi
  simp only [List.drop_zero, Nat.zero_add] at hi
  exact skip_spaces_count_bytes buf i hi

/-- A position with no terminator before it is within the string. -/
theorem le_strlen_of_bytes : ∀ (buf : CStr) (n : Nat), (∀ i, i < n → byteAt buf i ≠ 0) →
    n ≤ strlen buf := by
  intro buf
  induction buf with
  | nil =>
    intro n h
    cases n with
    | zero => simp
    | succ n => exact absurd rfl (h 0 (by omega))
  | cons a t ih =>
    intro n h
    cases n with
    | zero => simp
    | succ n =>
      have ha : a ≠ 0 := h 0 (by omega)
      have ht : n ≤ strlen t := ih n (fun i hi => h (i + 1) (by omega))
      unfold strlen at ht ⊢
      rw [List.takeWhile_cons_of_pos (by simpa using ha)]
      simp only [List.length_cons]
      omega

theorem prefix_le_strlen (pre rest : CStr) (h : ∀ b ∈ pre, b ≠ 0) :
    pre.length ≤ strlen (pre ++ rest) := by
  apply le_strlen_of_bytes
  intro i hi
  unfold byteAt
  rw [List.getD_eq_getElem _ _ (by simp; omega), List.getElem_append_left hi]
  exact h _ (List.getElem_mem _)

theorem strlen_le_length (buf : CStr) : strlen buf ≤ buf.length := by
  unfold strlen
  exact (List.takeWhile_sublist _).length_le

/-- Invariant of the matching loop. The pattern position is a suffix of the
pattern; `d` is `)` only when the pattern position is at a `)` or just past
one; no more captures are recorded than `)` were stepped over; and no byte of
the line before the line position is the terminator. -/
theorem reaches_inv (entry : SimpleConfEntry) (buf : CStr) (v : Vars)
    (h : Reaches entry buf v) :
    (∃ pre, entry.in_ = pre ++ v.in_pnt ∧ (∀ b ∈ pre, b ≠ 0) ∧
      (v.d = 41 → peek v.in_pnt = 41 ∨ ∃ p, pre = p ++ [41]) ∧
      v.matches_.length ≤ pre.count 41) ∧
    (∀ i, i < v.line_pnt → byteAt buf i ≠ 0) := by
  refine reaches_induct entry buf
    (fun v => (∃ pre, entry.in_ = pre ++ v.in_pnt ∧ (∀ b ∈ pre, b ≠ 0) ∧
      (v.d = 41 → peek v.in_pnt = 41 ∨ ∃ p, pre = p ++ [41]) ∧
      v.matches_.length ≤ pre.count 41) ∧
    (∀ i, i < v.line_pnt → byteAt buf i ≠ 0)) ?_ ?_ v h
  · intro _
    refine ⟨⟨[], rfl, by simp, ?_, by simp [init_vars]⟩, ?_⟩
    · intro hd; simp [init_vars] at hd
    · intro i hi
      exact isspace_ne_zero (skip_spaces_bytes buf i hi)
  · rintro v v1 _ ⟨⟨pre, hpre, hpre0, hd, hcnt⟩, hline⟩ _ hb
    obtain ⟨w, n, hw, hw0, hwk, hlp, hbytes, hd1, hm, _⟩ := loop_body_step _ _ _ _ _ hb
    refine ⟨⟨pre ++ w, ?_, ?_, ?_, ?_⟩, ?_⟩
    · rw [hpre, hw, List.append_assoc]
    · intro b hb
      rcases List.mem_append.mp hb with hb | hb
      · exact hpre0 b hb
      · exact hw0 b hb
    · intro h41
      rw [hd1] at h41
      rcases hwk with rfl | hwk | hwk
      · left
        rw [List.nil_append] at hw
        rw [← hw]; exact h41
      · right
        exact ⟨pre, by rw [hwk, h41]⟩
      · cases w with
        | nil =>
          left
          rw [List.nil_append] at hw
          rw [← hw]; exact h41
        | cons a w =>
          exfalso
          rw [hw] at h41
          exact hwk a (by simp) (by simpa [peek] using h41)
    · rcases hm with hm | ⟨⟨m, hm⟩, hw41, _⟩
      · rw [hm, List.count_append]; omega
      · rw [hm, hw41, List.count_append]
        simp only [List.length_append, List.length_singleton, List.count_singleton_self]
        omega
    · intro i hi
      rw [hlp] at hi
      by_cases hlt : i < v.line_pnt
      · exact hline i hlt
      · have := hbytes (i - v.line_pnt) (by omega)
        rwa [show v.line_pnt + (i - v.line_pnt) = i by omega] at this

theorem loop_iter_measure {e_in buf : CStr} {line : Nat} :
    ∀ (k : Nat) (v v1 : Vars), loop_iter e_in buf line k v = some v1 →
      k + loop_measure buf v1 ≤ loop_measure buf v := by
  intro k
  induction k with
  | zero =>
    intro v v1 h
    simp only [loop_iter, Option.some.injEq] at h
    subst h
    omega
  | succ k ih =>
    intro v v1 h
    obtain ⟨v2, h1, _, h3⟩ := loop_iter_last k _ _ h
    have := ih v v2 h1
    have := loop_body_measure _ _ _ _ _ h3
    omega

/-- An iteration returns, advances a position, or switches to a state of
lower rank without moving a position. -/
theorem loop_body_progress (e_in buf : CStr) (line : Nat) (v : Vars) :
    settles e_in buf line v ∨
    ∃ v1, switches e_in buf line v v1 ∧ state_rank v1.state < state_rank v.state := by
  cases hb : loop_body e_in buf line v with
  | ret r => exact Or.inl (Or.inl ⟨r, hb⟩)
  | cont v1 =>
    obtain ⟨w, n, hw, hw0, _, hlp, hbytes, _, _, hprog⟩ := loop_body_step _ _ _ _ _ hb
    by_cases hwn : w = []
    · by_cases hn : n = 0
      · right
        refine ⟨v1, ⟨hb, ?_, ?_⟩, ?_⟩
        · rw [hw, hwn, List.nil_append]
        · rw [hlp, hn, Nat.add_zero]
        · rcases hprog with h | h | h
          · exact absurd hwn h
          · omega
          · exact h
      · exact Or.inl (Or.inr ⟨v1, hb, Or.inr ⟨n, by omega, hlp, hbytes⟩⟩)
    · exact Or.inl (Or.inr ⟨v1, hb, Or.inl ⟨w, hwn, hw0, hw⟩⟩)

theorem state_rank_le (s : State) : state_rank s ≤ 2 := by
  cases s <;> simp [state_rank]

/-- Within three iterations the matching loop returns or advances a position. -/
theorem loop_body_settles (e_in buf : CStr) (line : Nat) (v : Vars) :
    settles e_in buf line v ∨
    ∃ v1, switches e_in buf line v v1 ∧
      (settles e_in buf line v1 ∨
        ∃ v2, switches e_in buf line v1 v2 ∧ settles e_in buf line v2) := by
  rcases loop_body_progress e_in buf line v with h | ⟨v1, hs1, hr1⟩
  · exact Or.inl h
  right
  refine ⟨v1, hs1, ?_⟩
  rcases loop_body_progress e_in buf line v1 with h | ⟨v2, hs2, hr2⟩
  · exact Or.inl h
  right
  refine ⟨v2, hs2, ?_⟩
  rcases loop_body_progress e_in buf line v2 with h | ⟨v3, _, hr3⟩
  · exact h
  · have := state_rank_le v.state
    omega

/-- The expansion loop takes at most as many steps as the template has bytes
left plus the room left in the output buffer. -/
theorem expand_steps_le (ms : List Match) (wl : Nat) :
    ∀ (out : CStr) (st : State) (arg_len : Nat), arg_len ≤ MAX_ARG_LENGTH →
      expand_steps ms wl st out arg_len ≤ out.length + (MAX_ARG_LENGTH - arg_len) := by
  intro out
  induction out with
  | nil => intro st arg_len _; simp [expand_steps]
  | cons d out ih =>
    intro st arg_len ha
    by_cases hg : (decide (arg_len < MAX_ARG_LENGTH) && d != 0) = true
    swap
    · cases st <;> simp only [expand_steps, hg, Bool.false_eq_true, if_false] <;> omega
    have hlt : arg_len < MAX_ARG_LENGTH := by
      simp only [Bool.and_eq_true, decide_eq_true_eq] at hg
      exact hg.1
    cases st with
    | TEMPLATE_RCHAR =>
      simp only [expand_steps, hg, if_true, List.length_cons]
      split
      · have := ih .TEMPLATE_SUBST_ESC arg_len ha
        omega
      · have := ih .TEMPLATE_RCHAR (arg_len + 1) (by omega)
        omega
    | TEMPLATE_SUBST_ESC =>
      simp only [expand_steps, hg, if_true, List.length_cons]
      split
      · have := ih .TEMPLATE_RCHAR (arg_len + min wl (MAX_ARG_LENGTH - arg_len)) (by omega)
        omega
      · split
        · split
          · omega
          · have := ih .TEMPLATE_RCHAR
              (arg_len + min (ms.getD (d - 48) ⟨0, 0⟩).str_len (MAX_ARG_LENGTH - arg_len))
              (by omega)
            omega
        · omega
    | _ =>
      simp only [expand_steps, hg, if_true, List.length_cons]
      omega

/-- An iteration that moves neither position neither returns nor advances. -/
theorem switches_not_settles {e_in buf : CStr} {line : Nat} {v v1 : Vars}
    (h : switches e_in buf line v v1) : ¬ settles e_in buf line v := by
  obtain ⟨hb, hin, hlp⟩ := h
  rintro (⟨r, hr⟩ | ⟨v2, hv2, hadv⟩)
  · rw [hb] at hr; cases hr
  · rw [hb] at hv2
    cases hv2
    rcases hadv with ⟨w, hw, _, hw2⟩ | ⟨n, hn, hn2, _⟩
    · rw [hin] at hw2
      have := congrArg List.length hw2
      rw [List.length_append] at this
      cases w with
      | nil => exact hw rfl
      | cons a w => simp at this
    · omega

/-- The returns of `STATE_RCHAR`. The mismatch at the start of the line comes
only from a `)` that cannot record its capture. -/
theorem rchar_case_ret (buf : CStr) (line : Nat) (v : Vars) (c d : Nat) (r : Ret)
    (h : rchar_case buf line v c d = .ret r) :
    r = err_mismatch buf v.line_pnt line ∨ r = ret_plain .INVALID_ENTRY ∨
    (r = err_mismatch buf line line ∧ d = 41) := by
  unfold rchar_case at h
  by_cases h0 : (d == 0) = true
  · rw [if_pos h0] at h; cases h; exact Or.inl rfl
  rw [if_neg h0] at h
  by_cases h1 : (d == 40) = true
  · rw [if_pos h1] at h; cases h
  rw [if_neg h1] at h
  by_cases h2 : (d == 41) = true
  · rw [if_pos h2] at h
    have hd : d = 41 := by simpa using h2
    cases hm : v.match_start with
    | none => rw [hm] at h; cases h; exact Or.inr (Or.inr ⟨rfl, hd⟩)
    | some ms =>
      rw [hm] at h
      dsimp only at h
      by_cases hc : v.matches_.length ≥ MATCHES_CAP
      · rw [if_pos hc] at h; cases h; exact Or.inr (Or.inr ⟨rfl, hd⟩)
      · rw [if_neg hc] at h
        cases ha : add_to_matches buf v.matches_ ms v.line_pnt with
        | none => rw [ha] at h; cases h; exact Or.inr (Or.inr ⟨rfl, hd⟩)
        | some m => rw [ha] at h; cases h
  rw [if_neg h2] at h
  by_cases g0 : prefix_match v.in_pnt tag_alpha = true
  · rw [if_pos g0] at h; cases h
  rw [if_neg g0] at h
  by_cases g1 : prefix_match v.in_pnt tag_alnum = true
  · rw [if_pos g1] at h; cases h
  rw [if_neg g1] at h
  by_cases g2 : prefix_match v.in_pnt tag_digits = true
  · rw [if_pos g2] at h; cases h
  rw [if_neg g2] at h
  by_cases g3 : prefix_match v.in_pnt tag_xdigits = true
  · rw [if_pos g3] at h; cases h
  rw [if_neg g3] at h
  by_cases g4 : prefix_match v.in_pnt tag_nospace = true
  · rw [if_pos g4] at h; cases h
  rw [if_neg g4] at h
  by_cases g5 : prefix_match v.in_pnt tag_any = true
  · rw [if_pos g5] at h; cases h
  rw [if_neg g5] at h
  by_cases g6 : prefix_match v.in_pnt tag_bool = true
  · rw [if_pos g6] at h
    by_cases ge : v.is_enabled = true
    · rw [if_pos ge] at h; cases h; exact Or.inr (Or.inl rfl)
    · rw [if_neg ge] at h; cases h
  rw [if_neg g6] at h
  by_cases g7 : (d == 60) = true
  · rw [if_pos g7] at h; cases h; exact Or.inr (Or.inl rfl)
  rw [if_neg g7] at h
  by_cases g8 : isspace d = true
  · rw [if_pos g8] at h; cases h
  rw [if_neg g8] at h
  by_cases g9 : isgraph d = true
  · rw [if_pos g9] at h
    by_cases g10 : (c == d) = true
    · rw [if_pos g10] at h; cases h
    · rw [if_neg g10] at h; cases h; exact Or.inl rfl
  · rw [if_neg g9] at h; cases h; exact Or.inl rfl

/-- The returns of the matching loop. -/
theorem loop_body_ret (e_in buf : CStr) (line : Nat) (v : Vars) (r : Ret)
    (h : loop_body e_in buf line v = .ret r) :
    r = ret_plain .PROPNOTFOUND ∨ r = ret_plain .INVALID_ENTRY ∨
    r = err_syntax buf v.line_pnt line ∨ r = err_mismatch buf v.line_pnt line ∨
    (r = err_mismatch buf line line ∧ v.state = .RCHAR ∧ peek v.in_pnt = 41) := by
  unfold loop_body at h
  dsimp only at h
  split at h
  case h_5 hst =>
    rcases rchar_case_ret _ _ _ _ _ _ h with h | h | ⟨h, hd⟩
    · exact Or.inr (Or.inr (Or.inr (Or.inl h)))
    · exact Or.inr (Or.inl h)
    · exact Or.inr (Or.inr (Or.inr (Or.inr ⟨h, hst, hd⟩)))
  case h_13 hst =>
    revert h
    apply boolean_case_elim buf line _
      (fun s => s = .ret r → r = ret_plain .PROPNOTFOUND ∨ r = ret_plain .INVALID_ENTRY ∨
        r = err_syntax buf v.line_pnt line ∨ r = err_mismatch buf v.line_pnt line ∨
        (r = err_mismatch buf line line ∧ v.state = .RCHAR ∧ peek v.in_pnt = 41))
    · intro h; cases h; exact Or.inr (Or.inr (Or.inl rfl))
    · intro _ _ _ _ h; cases h
  all_goals
    first
    | (cases h; exact Or.inr (Or.inl rfl))
    | (repeat' split at h
       all_goals first
         | (cases h; done)
         | (cases h; exact Or.inl rfl)
         | (cases h; exact Or.inr (Or.inr (Or.inl rfl))))

/-- The error returns after the matching loop: the mismatch of the state and
`expect_char` checks, and the syntax error of the closing step when `d` is
`)`. -/
theorem after_loop_error (e_out buf : CStr) (line : Nat) (v : Vars)
    (h : (after_loop e_out buf line v).result = .MISMATCH ∨
      (after_loop e_out buf line v).result = .SYNTAX) :
    after_loop e_out buf line v = err_mismatch buf v.line_pnt line ∨
    (after_loop e_out buf line v = ret_plain .SYNTAX ∧ v.d = 41) := by
  unfold after_loop at h ⊢
  cases hchk : after_loop_checks buf line v with
  | inl r =>
    rw [hchk] at h
    dsimp only at h ⊢
    unfold after_loop_checks at hchk
    split at hchk
    · cases hchk; exact Or.inl rfl
    · split at hchk
      · cases hchk; exact Or.inl rfl
      · dsimp only at hchk
        by_cases hd : (v.d == 41) = true
        · split at hchk
          · cases hchk; exact Or.inr ⟨rfl, by simpa using hd⟩
          · split at hchk
            · cases hchk; simp [ret_plain] at h
            · cases hchk
        · rw [if_neg hd] at hchk
          dsimp only at hchk
          split at hchk
          · cases hchk; simp [ret_plain] at h
          · cases hchk
  | inr m =>
    rw [hchk] at h
    dsimp only at h
    have key : ∀ x : Ret, (x.result = .OK ∨ x.result = .E2BIG ∨ x.result = .INVALID_ENTRY ∨
        x.result = .UNDEFINED) → (x.result = .MISMATCH ∨ x.result = .SYNTAX) → False := by
      intro x hx hh
      rcases hx with g | g | g | g <;> rcases hh with k | k <;> rw [g] at k <;> cases k
    exact (key _ (expand_result _ _ _ _ _ _ _) h).elim

/-- When `d` is not `)` after the loop, the captures handed to the expansion
are those recorded in the loop. -/
theorem after_loop_checks_plain {buf : CStr} {line : Nat} {v : Vars} {ms : List Match}
    (h : after_loop_checks buf line v = .inr ms) (hd : v.d ≠ 41) : ms = v.matches_ := by
  unfold after_loop_checks at h
  split at h
  · cases h
  · split at h
    · cases h
    · dsimp only at h
      rw [if_neg (by simpa using hd)] at h
      dsimp only at h
      split at h
      · cases h
      · simp only [Sum.inr.injEq] at h
        exact h.symm

/-- At the end of the loop over a pattern that does not end with `)`, `d` is
not `)`, and no more captures are recorded than the pattern has `)`. -/
theorem loop_end_facts (entry : SimpleConfEntry) (buf : CStr) (v : Vars)
    (h : Reaches entry buf v) (hc : loop_cond buf v = false)
    (hin : ∀ b ∈ entry.in_, b ≠ 0) :
    v.in_pnt = [] ∧ v.matches_.length ≤ entry.in_.count 41 ∧
      (entry.in_.getLast? ≠ some 41 → v.d ≠ 41) := by
  obtain ⟨⟨pre, hpre, _, hd, hcnt⟩, _⟩ := reaches_inv entry buf v h
  have hpk : peek v.in_pnt = 0 := by
    simp only [loop_cond, Bool.or_eq_false_iff, bne_eq_false_iff_eq] at hc
    exact hc.1
  have hnil : v.in_pnt = [] := by
    cases hv : v.in_pnt with
    | nil => rfl
    | cons a t =>
      rw [hv] at hpk hpre
      simp only [peek, List.headD_cons] at hpk
      exact absurd hpk (hin a (by rw [hpre]; simp))
  rw [hnil, List.append_nil] at hpre
  refine ⟨hnil, by rw [hpre]; exact hcnt, ?_⟩
  intro hlast h41
  rcases hd h41 with h1 | ⟨p, hp⟩
  · rw [hpk] at h1; cases h1
  · apply hlast
    rw [hpre, hp]
    simp

theorem tolower_fixed {x y k : Nat} (h : tolower x = tolower y) (hy : y = k)
    (hk : k < 65 ∨ 122 < k) : x = k := by
  subst hy
  unfold tolower at h
  by_cases hx : isupper x = true <;> by_cases hy : isupper y = true <;>
    simp only [hx, hy, if_true, Bool.false_eq_true, if_false] at h <;>
    simp only [isupper, Bool.and_eq_true, decide_eq_true_eq] at hx hy <;> omega

theorem isspace_of_tolower {x y : Nat} (h : tolower x = tolower y) : isspace x = isspace y := by
  unfold tolower at h
  by_cases hx : isupper x = true <;> by_cases hy : isupper y = true <;>
    simp only [hx, hy, if_true, Bool.false_eq_true, if_false] at h <;>
    simp only [isupper, Bool.and_eq_true, decide_eq_true_eq] at hx hy
  · have : x = y := by omega
    rw [this]
  · have h1 : isspace x = false := by simp [isspace]; omega
    have h2 : isspace y = false := by simp [isspace]; omega
    rw [h1, h2]
  · have h1 : isspace x = false := by simp [isspace]; omega
    have h2 : isspace y = false := by simp [isspace]; omega
    rw [h1, h2]
  · rw [h]

/-- No tag matches at a pattern position whose byte is not `<`. -/
theorem prefix_match_tag_false {p : CStr} (h : peek p ≠ 60) :
    ∀ tag ∈ [tag_alpha, tag_alnum, tag_digits, tag_xdigits, tag_nospace, tag_any, tag_bool],
      prefix_match p tag = false := by
  have hall : ∀ tag ∈ [tag_alpha, tag_alnum, tag_digits, tag_xdigits, tag_nospace, tag_any,
      tag_bool], tag = 60 :: tag.tail := by decide
  intro tag htag
  rw [hall tag htag]
  cases p with
  | nil => exact prefix_match_nil_cons _ _
  | cons a s =>
    rw [prefix_match_cons]
    have : tolower a ≠ tolower 60 := by
      intro he
      exact h (tolower_fixed he rfl (by omega))
    simp [this]

/-- The case `STATE_RCHAR` at a literal byte of the pattern: a printable,
non-blank byte other than `(`, `)` and `<`. -/
theorem rchar_literal (buf : CStr) (line : Nat) (v : Vars) (c d : Nat)
    (hpk : peek v.in_pnt = d) (hg : isgraph d = true) (h40 : d ≠ 40) (h41 : d ≠ 41)
    (h60 : d ≠ 60) :
    rchar_case buf line v c d =
      if c = d then .cont { v with in_pnt := v.in_pnt.tail, line_pnt := v.line_pnt + 1 }
      else .ret (err_mismatch buf v.line_pnt line) := by
  have hd0 : d ≠ 0 := class_ne_zero.2.2.2.2.1 hg
  have hsp : isspace d = false := by
    simp only [isgraph, Bool.and_eq_true, decide_eq_true_eq] at hg
    simp [isspace]; omega
  have ht := prefix_match_tag_false (p := v.in_pnt) (by rw [hpk]; exact h60)
  unfold rchar_case
  rw [if_neg (by simpa using hd0), if_neg (by simpa using h40), if_neg (by simpa using h41),
    ht tag_alpha (by simp), ht tag_alnum (by simp), ht tag_digits (by simp),
    ht tag_xdigits (by simp), ht tag_nospace (by simp), ht tag_any (by simp),
    ht tag_bool (by simp)]
  simp only [Bool.false_eq_true, if_false]
  rw [if_neg (by simpa using h60), hsp, hg]
  simp only [Bool.false_eq_true, if_false, if_true, beq_iff_eq]

/-- A template without `$`, shorter than the output buffer, expands to itself. -/
theorem expand_plain_template (buf : CStr) (ms : List Match) (ws wl : Nat) (T : CStr)
    (hT : ∀ b ∈ T, b ≠ 0 ∧ b ≠ 36) (hTl : T.length < MAX_ARG_LENGTH) :
    expand buf ms ws wl .TEMPLATE_RCHAR T [] = { result := .OK, arg := some T, err := none } := by
  have := expand_literal buf ms ws wl [] T [] hT (by simp; omega)
  rw [List.append_nil] at this
  rw [this, expand_nil, expand_finish_eq, List.nil_append, if_pos hTl]

/-- A literal value region of the pattern that meets the same bytes in the
rest of the line: the match succeeds and the template, free of `$`, is the
result. -/
theorem literal_region_ok (entry : SimpleConfEntry) (buf : CStr) (line : Nat)
    (hT : ∀ b ∈ entry.out, b ≠ 0 ∧ b ≠ 36) (hTl : entry.out.length < MAX_ARG_LENGTH) :
    ∀ (V : CStr) (v : Vars), v.state = .RCHAR → v.in_pnt = V →
      (∀ b ∈ V, isgraph b = true ∧ b ≠ 40 ∧ b ≠ 41 ∧ b ≠ 60) →
      buf.drop v.line_pnt = V → v.expect_char = false → v.is_boolean = false → v.d ≠ 41 →
      try_from entry buf line v = some { result := .OK, arg := some entry.out, err := none } := by
  intro V
  induction V with
  | nil =>
    intro v hs hin _ hbuf hex hbo hd
    have hb := byteAt_of_drop_nil hbuf
    rw [try_from_done (by simp [loop_cond, hin, peek, hb])]
    have hchk : after_loop_checks buf line v = .inr v.matches_ := by
      simp [after_loop_checks, hs, final_state_ok, hex, hbo, hd]
    simp only [after_loop, hchk]
    exact congrArg some (expand_plain_template _ _ _ _ _ hT hTl)
  | cons b V ih =>
    intro v hs hin hV hbuf hex hbo _
    obtain ⟨hg, h40, h41, h60⟩ := hV b (by simp)
    have hb0 : b ≠ 0 := class_ne_zero.2.2.2.2.1 hg
    obtain ⟨hc, hdrop⟩ := byteAt_of_drop hbuf
    have hpk : peek v.in_pnt = b := by rw [hin]; rfl
    have hstep : try_from entry buf line v = try_from entry buf line
        { v with d := b, in_pnt := V, line_pnt := v.line_pnt + 1 } := by
      apply try_from_cont
      · simp [loop_cond, hpk, hb0]
      · simp only [loop_body, hs, hpk, hc]
        rw [rchar_literal buf line _ b b (by exact hpk) hg h40 h41 h60, if_pos rfl]
        simp only [hin, List.tail_cons]
    rw [hstep]
    exact ih _ hs rfl (fun x hx => hV x (by simp [hx])) hdrop hex hbo h41

/-- A literal value region of the pattern that meets other bytes in the rest
of the line: the result is `MISMATCH`. -/
theorem literal_region_mismatch (entry : SimpleConfEntry) (buf : CStr) (line : Nat) :
    ∀ (V : CStr) (v : Vars) (L : CStr), v.state = .RCHAR → v.in_pnt = V →
      (∀ b ∈ V, isgraph b = true ∧ b ≠ 40 ∧ b ≠ 41 ∧ b ≠ 60) →
      buf.drop v.line_pnt = L → (∀ b ∈ L, b ≠ 0) → L ≠ V →
      ∃ e, try_from entry buf line v =
        some { result := .MISMATCH, arg := none, err := some e } := by
  intro V
  induction V with
  | nil =>
    intro v L hs hin _ hbuf hL hne
    cases L with
    | nil => exact absurd rfl hne
    | cons c L =>
      have hc0 : c ≠ 0 := hL c (by simp)
      obtain ⟨hc, _⟩ := byteAt_of_drop hbuf
      refine ⟨if byteAt buf v.line_pnt != 0 then v.line_pnt else line,
        try_from_ret (by simp [loop_cond, hc, hc0]) ?_⟩
      simp only [loop_body, hs, hin, peek, List.headD_nil]
      simp [rchar_case, err_mismatch]
  | cons b V ih =>
    intro v L hs hin hV hbuf hL hne
    obtain ⟨hg, h40, h41, h60⟩ := hV b (by simp)
    have hb0 : b ≠ 0 := class_ne_zero.2.2.2.2.1 hg
    have hpk : peek v.in_pnt = b := by rw [hin]; rfl
    have hcond : loop_cond buf v = true := by simp [loop_cond, hpk, hb0]
    by_cases hcb : byteAt buf v.line_pnt = b
    · cases L with
      | nil =>
        have := byteAt_of_drop_nil hbuf
        rw [this] at hcb
        exact absurd hcb.symm hb0
      | cons c L =>
        obtain ⟨hc, hdrop⟩ := byteAt_of_drop hbuf
        have hcb2 : c = b := by rw [← hc, hcb]
        subst hcb2
        have hstep : try_from entry buf line v = try_from entry buf line
            { v with d := c, in_pnt := V, line_pnt := v.line_pnt + 1 } := by
          apply try_from_cont _ hcond
          simp only [loop_body, hs, hpk, hc]
          rw [rchar_literal buf line _ c c (by exact hpk) hg h40 h41 h60, if_pos rfl]
          simp only [hin, List.tail_cons]
        rw [hstep]
        exact ih _ L hs rfl (fun x hx => hV x (by simp [hx])) hdrop
          (fun x hx => hL x (by simp [hx])) (fun h => hne (by rw [h]))
    · refine ⟨if byteAt buf v.line_pnt != 0 then v.line_pnt else line, try_from_ret hcond ?_⟩
      simp only [loop_body, hs, hpk]
      rw [rchar_literal buf line _ _ b (by exact hpk) hg h40 h41 h60, if_neg hcb]
      rfl

theorem space_not_sep {s : Nat} (h : isspace s = true) : s ≠ 61 ∧ s ≠ 58 ∧ s ≠ 0 := by
  refine ⟨?_, ?_, ?_⟩ <;> rintro rfl <;> simp [isspace] at h

/-- After the separator, at the first byte of the value: the value region of
the pattern is entered and the wildcard span starts. -/
theorem sep_to_rchar (entry : SimpleConfEntry) (buf : CStr) (line : Nat) (x : Nat) (v : Vars)
    (hx : isspace x = false ∧ x ≠ 61 ∧ x ≠ 58 ∧ x ≠ 0)
    (hs : v.state = .AFTERPROPNAME2 ∨ v.state = .AFTERPROPNAMESEP)
    (hc : byteAt buf v.line_pnt = x) (hpk : peek v.in_pnt ≠ 0)
    (hlen : v.in_pnt.length ≠ entry.in_.length) :
    try_from entry buf line v = try_from entry buf line
      { v with state := .RCHAR, wildcard_start := some v.line_pnt, d := peek v.in_pnt } := by
  have hlast : ∀ v : Vars, v.state = .AFTERPROPNAMESEP → byteAt buf v.line_pnt = x →
      peek v.in_pnt ≠ 0 → v.in_pnt.length ≠ entry.in_.length →
      try_from entry buf line v = try_from entry buf line
        { v with state := .RCHAR, wildcard_start := some v.line_pnt, d := peek v.in_pnt } := by
    intro v hs hc hpk hlen
    apply try_from_cont _ (by simp [loop_cond, hc, hx.2.2.2])
    simp [loop_body, hs, hc, hx.1, hx.2.1, hx.2.2.1, hpk, hlen]
  rcases hs with hs | hs
  · rw [try_from_cont ({ v with state := .AFTERPROPNAMESEP, d := peek v.in_pnt })
      (by simp [loop_cond, hc, hx.2.2.2])
      (by simp [loop_body, hs, hc, hx.1, hx.2.1, hx.2.2.1])]
    exact hlast _ rfl hc hpk hlen
  · exact hlast v hs hc hpk hlen

/-- A run of blanks and then the first byte of the value, in the two separator
states that skip blanks. -/
theorem sep_blanks_to_rchar (entry : SimpleConfEntry) (buf : CStr) (line : Nat) (x : Nat)
    (rest S : CStr) (v : Vars) (hx : isspace x = false ∧ x ≠ 61 ∧ x ≠ 58 ∧ x ≠ 0)
    (hs : v.state = .AFTERPROPNAME2 ∨ v.state = .AFTERPROPNAMESEP)
    (hbuf : buf.drop v.line_pnt = S ++ x :: rest) (hS : ∀ b ∈ S, isspace b = true)
    (hpk : peek v.in_pnt ≠ 0) (hlen : v.in_pnt.length ≠ entry.in_.length) :
    try_from entry buf line v = try_from entry buf line
      { v with state := .RCHAR, line_pnt := v.line_pnt + S.length,
               wildcard_start := some (v.line_pnt + S.length), d := peek v.in_pnt } := by
  rw [sep_skip_blanks entry buf line x rest hx.2.2.2 S v hs hbuf hS]
  have hc := (byteAt_of_drop (drop_add_of_append hbuf)).1
  exact sep_to_rchar entry buf line x _ hx hs hc hpk hlen

/-- A valid separator followed by the first byte of the value leads from the
end of the property name into the value region of the pattern. -/
theorem sep_accept (entry : SimpleConfEntry) (buf : CStr) (line : Nat) (x : Nat) (rest : CStr)
    (hx : isspace x = false ∧ x ≠ 61 ∧ x ≠ 58 ∧ x ≠ 0) (sep : CStr)
    (hsep : valid_separator sep) (v : Vars) (hs : v.state = .AFTERPROPNAME)
    (hbuf : buf.drop v.line_pnt = sep ++ x :: rest) (hpk : peek v.in_pnt ≠ 0)
    (hlen : v.in_pnt.length ≠ entry.in_.length) :
    try_from entry buf line v = try_from entry buf line
      { v with state := .RCHAR, line_pnt := v.line_pnt + sep.length,
               wildcard_start := some (v.line_pnt + sep.length), d := peek v.in_pnt } := by
  -- the first byte of the separator, a blank
  have hfirst : ∀ (s : Nat) (t : CStr), isspace s = true → buf.drop v.line_pnt = s :: t →
      try_from entry buf line v = try_from entry buf line
        { v with state := .AFTERPROPNAME2, line_pnt := v.line_pnt + 1, d := peek v.in_pnt } := by
    intro s t hsp hb
    obtain ⟨hc, _⟩ := byteAt_of_drop hb
    obtain ⟨h1, h2, h3⟩ := space_not_sep hsp
    apply try_from_cont _ (by simp [loop_cond, hc, h3])
    simp [loop_body, hs, hc, hsp, h1, h2]
  rcases hsep with ⟨hne, hS⟩ | ⟨S1, s, S2, rfl, hsv, hS1, hS2⟩
  · cases sep with
    | nil => exact absurd rfl hne
    | cons s S =>
      rw [hfirst s (S ++ x :: rest) (hS s (by simp)) (by simpa using hbuf)]
      obtain ⟨_, hdrop⟩ := byteAt_of_drop (t := S ++ x :: rest) (by simpa using hbuf)
      have h2 := sep_blanks_to_rchar entry buf line x rest S
        { v with state := .AFTERPROPNAME2, line_pnt := v.line_pnt + 1, d := peek v.in_pnt }
        hx (Or.inl rfl) hdrop (fun b hb => hS b (by simp [hb])) hpk hlen
      rw [h2]
      simp only [List.length_cons, Nat.add_assoc, Nat.add_comm 1]
  · have hsb := sep_byte hsv
    cases S1 with
    | nil =>
      simp only [List.nil_append, List.cons_append] at hbuf ⊢
      obtain ⟨hc, hdrop⟩ := byteAt_of_drop hbuf
      have h1 : try_from entry buf line v = try_from entry buf line
          { v with state := .AFTERPROPNAMESEP, line_pnt := v.line_pnt + 1,
                   d := peek v.in_pnt } :=
        try_from_cont _ (by simp [loop_cond, hc, hsb.2])
          (by rcases hsv with rfl | rfl <;> simp [loop_body, hs, hc])
      have h2 := sep_blanks_to_rchar entry buf line x rest S2
        { v with state := .AFTERPROPNAMESEP, line_pnt := v.line_pnt + 1, d := peek v.in_pnt }
        hx (Or.inr rfl) hdrop hS2 hpk hlen
      rw [h1, h2]
      simp only [List.length_cons, Nat.add_assoc, Nat.add_comm 1]
    | cons s1 S1 =>
      have hb1 : buf.drop v.line_pnt = s1 :: (S1 ++ s :: (S2 ++ x :: rest)) := by
        simpa using hbuf
      rw [hfirst s1 _ (hS1 s1 (by simp)) hb1]
      obtain ⟨_, hdrop⟩ := byteAt_of_drop hb1
      have h2 := sep_skip_blanks entry buf line s (S2 ++ x :: rest) hsb.2 S1
        { v with state := .AFTERPROPNAME2, line_pnt := v.line_pnt + 1, d := peek v.in_pnt }
        (Or.inl rfl) hdrop (fun b hb => hS1 b (by simp [hb]))
      rw [h2]
      have hdrop2 := drop_add_of_append hdrop
      obtain ⟨hc2, hdrop3⟩ := byteAt_of_drop hdrop2
      have h3 : try_from entry buf line
          { v with state := .AFTERPROPNAME2, line_pnt := v.line_pnt + 1 + S1.length,
                   d := peek v.in_pnt } =
          try_from entry buf line
          { v with state := .AFTERPROPNAMESEP, line_pnt := v.line_pnt + 1 + S1.length + 1,
                   d := peek v.in_pnt } :=
        try_from_cont _ (by simp [loop_cond, hc2, hsb.2])
          (by rcases hsv with rfl | rfl <;> simp [loop_body, hc2])
      have h4 := sep_blanks_to_rchar entry buf line x rest S2
        { v with state := .AFTERPROPNAMESEP, line_pnt := v.line_pnt + 1 + S1.length + 1,
                 d := peek v.in_pnt }
        hx (Or.inr rfl) hdrop3 hS2 hpk hlen
      rw [h3, h4]
      simp only [List.length_cons, List.length_append]
      have e1 : v.line_pnt + 1 + S1.length + 1 + S2.length =
          v.line_pnt + (S1.length + 1 + (S2.length + 1)) := by omega
      rw [e1]

theorem nospace_pattern_drops :
    nospace_pattern.drop 0 = 110 :: nospace_pattern.drop 1 ∧
    nospace_pattern.drop 1 = 97 :: nospace_pattern.drop 2 ∧
    nospace_pattern.drop 2 = 109 :: nospace_pattern.drop 3 ∧
    nospace_pattern.drop 3 = 101 :: nospace_pattern.drop 4 ∧
    nospace_pattern.drop 4 = 32 :: nospace_pattern.drop 5 ∧
    nospace_pattern.drop 5 = 40 :: nospace_pattern.drop 6 ∧
    nospace_pattern.drop 6 = tag_nospace ++ nospace_pattern.drop 15 ∧
    nospace_pattern.drop 15 = [41] := by
  decide

theorem add_to_matches_empty {buf : CStr} {ms : List Match} {s : Nat}
    (h : isspace (byteAt buf s) = false) : add_to_matches buf ms s s = none := by
  unfold add_to_matches
  rw [skip_spaces_stay h]
  have : (s + SIZE_T_MOD - s) % SIZE_T_MOD = 0 := by
    rw [Nat.add_sub_cancel_left, Nat.mod_self]
  simp [this, trim_len]

theorem name_matched_succ {buf : CStr} {k : Nat} (h : name_matched buf k)
    (hk : tolower (byteAt buf (skip_spaces buf 0 + k)) = tolower (nospace_pattern.getD k 0)) :
    name_matched buf (k + 1) := by
  intro i hi
  by_cases hlt : i < k
  · exact h i hlt
  · have : i = k := by omega
    rw [this]; exact hk

/-- The invariant of the pattern `name (<nospace>)` in the property name. -/
theorem nospace_step_name (buf : CStr) (v v1 : Vars) (k : Nat)
    (hs : v.state = .PROPNAME) (hk : k ≤ 4) (hin : v.in_pnt = nospace_pattern.drop k)
    (hlp : v.line_pnt = skip_spaces buf 0 + k) (hnm : name_matched buf k)
    (hm : v.matches_ = [])
    (hb : loop_body nospace_pattern buf (skip_spaces buf 0) v = .cont v1) :
    nospace_inv buf v1 := by
  obtain ⟨d0, d1, d2, d3, d4, _⟩ := nospace_pattern_drops
  have hlt : ∀ (d : Nat) (k : Nat), k < 4 → v.in_pnt = d :: nospace_pattern.drop (k + 1) →
      v.line_pnt = skip_spaces buf 0 + k → name_matched buf k →
      nospace_pattern.getD k 0 = d → isspace d = false → d ≠ 63 → nospace_inv buf v1 := by
    intro d k hk hin hlp hnm hd hsp h63
    simp only [loop_body, hs, hin, peek, List.headD_cons, hsp, Bool.false_eq_true, if_false,
      beq_iff_eq, h63, List.tail_cons] at hb
    split at hb
    · rename_i hc
      cases hb
      simp only [Bool.and_eq_true, bne_iff_ne, ne_eq, beq_iff_eq] at hc
      refine nospace_inv.in_name _ (k + 1) rfl (by omega) rfl (by simp only [hlp]; omega)
        (name_matched_succ hnm ?_) hm
      rw [← hlp, hd]; exact hc.2
    · cases hb
  have h4 : k = 0 ∨ k = 1 ∨ k = 2 ∨ k = 3 ∨ k = 4 := by omega
  rcases h4 with rfl | rfl | rfl | rfl | rfl
  · exact hlt 110 0 (by omega) (hin.trans d0) hlp hnm (by decide) (by decide) (by decide)
  · exact hlt 97 1 (by omega) (hin.trans d1) hlp hnm (by decide) (by decide) (by decide)
  · exact hlt 109 2 (by omega) (hin.trans d2) hlp hnm (by decide) (by decide) (by decide)
  · exact hlt 101 3 (by omega) (hin.trans d3) hlp hnm (by decide) (by decide) (by decide)
  · rw [d4] at hin
    simp only [loop_body, hs, hin, peek, List.headD_cons, List.tail_cons] at hb
    rw [if_pos (by decide)] at hb
    cases hb
    exact nospace_inv.after_name _ rfl rfl hlp hnm hm

theorem sep_cases (c : Nat) :
    ((c == 61 || c == 58) = true ∧ isspace c = false ∧ (c = 61 ∨ c = 58)) ∨
    ((c == 61 || c == 58) = false ∧ isspace c = true ∧ c ≠ 61 ∧ c ≠ 58) ∨
    ((c == 61 || c == 58) = false ∧ isspace c = false ∧ c ≠ 61 ∧ c ≠ 58) := by
  by_cases h1 : c = 61
  · subst h1; left; decide
  by_cases h2 : c = 58
  · subst h2; left; decide
  have : (c == 61 || c == 58) = false := by simp [h1, h2]
  cases hsp : isspace c
  · right; right; exact ⟨this, rfl, h1, h2⟩
  · right; left; exact ⟨this, rfl, h1, h2⟩

/-- The invariant of the pattern `name (<nospace>)` in the separator. -/
theorem nospace_step_sep (buf : CStr) (v v1 : Vars)
    (hin : v.in_pnt = nospace_pattern.drop 5) (hnm : name_matched buf 4) (hm : v.matches_ = [])
    (hb : loop_body nospace_pattern buf (skip_spaces buf 0) v = .cont v1) :
    (v.state = .AFTERPROPNAME → v.line_pnt = skip_spaces buf 0 + 4 → nospace_inv buf v1) ∧
    (v.state = .AFTERPROPNAME2 → skip_spaces buf 0 + 4 < v.line_pnt →
      (∀ i, skip_spaces buf 0 + 4 ≤ i → i < v.line_pnt → isspace (byteAt buf i) = true) →
      nospace_inv buf v1) ∧
    (v.state = .AFTERPROPNAMESEP → separator_zone buf (skip_spaces buf 0 + 4) v.line_pnt →
      ((∃ j, skip_spaces buf 0 + 4 ≤ j ∧ j < v.line_pnt ∧
          (byteAt buf j = 61 ∨ byteAt buf j = 58)) ∨
        (isspace (byteAt buf v.line_pnt) = false ∧ byteAt buf v.line_pnt ≠ 61 ∧
          byteAt buf v.line_pnt ≠ 58)) →
      nospace_inv buf v1) := by
  refine ⟨?_, ?_, ?_⟩
  · intro hs hlp
    rcases sep_cases (byteAt buf v.line_pnt) with ⟨h1, h2, h3⟩ | ⟨h1, h2, h3, h4⟩ | ⟨h1, h2, h3, h4⟩
    · simp only [loop_body, hs, h1, if_true] at hb
      cases hb
      refine nospace_inv.after_sep _ rfl hin ⟨by simp only [hlp]; omega, Or.inr ?_⟩
        (Or.inl ?_) hnm hm
      · exact ⟨v.line_pnt, by omega, by simp, h3, fun i hi1 hi2 hi3 => by
          simp only at hi2; omega⟩
      · exact ⟨v.line_pnt, by omega, by simp, h3⟩
    · simp only [loop_body, hs, h1, h2, Bool.false_eq_true, if_false, if_true] at hb
      cases hb
      refine nospace_inv.blanks _ rfl hin (by simp only [hlp]; omega) ?_ hnm hm
      intro i hi1 hi2
      simp only at hi2
      have : i = v.line_pnt := by omega
      rw [this]; exact h2
    · simp only [loop_body, hs, h1, h2, Bool.false_eq_true, if_false] at hb
      cases hb
  · intro hs hlp hbl
    rcases sep_cases (byteAt buf v.line_pnt) with ⟨h1, h2, h3⟩ | ⟨h1, h2, h3, h4⟩ | ⟨h1, h2, h3, h4⟩
    · simp only [loop_body, hs, h1, if_true] at hb
      cases hb
      refine nospace_inv.after_sep _ rfl hin ⟨by simp only; omega, Or.inr ?_⟩
        (Or.inl ?_) hnm hm
      · refine ⟨v.line_pnt, by omega, by simp, h3, fun i hi1 hi2 hi3 => ?_⟩
        simp only at hi2
        exact hbl i hi1 (by omega)
      · exact ⟨v.line_pnt, by omega, by simp, h3⟩
    · simp only [loop_body, hs, h1, h2, Bool.false_eq_true, if_false, if_true] at hb
      cases hb
      refine nospace_inv.blanks _ rfl hin (by simp only; omega) ?_ hnm hm
      intro i hi1 hi2
      simp only at hi2
      by_cases hlt : i < v.line_pnt
      · exact hbl i hi1 hlt
      · have : i = v.line_pnt := by omega
        rw [this]; exact h2
    · simp only [loop_body, hs, h1, h2, Bool.false_eq_true, if_false] at hb
      cases hb
      exact nospace_inv.after_sep _ rfl hin ⟨hlp, Or.inl hbl⟩ (Or.inr ⟨h2, h3, h4⟩) hnm hm
  · intro hs hz hx
    obtain ⟨_, _, _, _, _, d5, _⟩ := nospace_pattern_drops
    rcases sep_cases (byteAt buf v.line_pnt) with ⟨h1, h2, h3⟩ | ⟨h1, h2, h3, h4⟩ | ⟨h1, h2, h3, h4⟩
    · simp only [loop_body, hs, h1, if_true] at hb
      cases hb
    · simp only [loop_body, hs, h1, h2, Bool.false_eq_true, if_false, if_true] at hb
      cases hb
      rcases hx with ⟨j, hj1, hj2, hj3⟩ | ⟨hx, _⟩
      swap
      · rw [hx] at h2; cases h2
      refine nospace_inv.after_sep _ rfl hin ⟨by simp only; omega, ?_⟩
        (Or.inl ⟨j, hj1, by simp only; omega, hj3⟩) hnm hm
      rcases hz.2 with hz | ⟨j2, hj21, hj22, hj23, hj24⟩
      · have := hz j hj1 hj2
        rcases hj3 with hj3 | hj3 <;> rw [hj3] at this <;> simp [isspace] at this
      · refine Or.inr ⟨j2, hj21, by simp only; omega, hj23, fun i hi1 hi2 hi3 => ?_⟩
        simp only at hi2
        by_cases hlt : i < v.line_pnt
        · exact hj24 i hi1 hlt hi3
        · have : i = v.line_pnt := by omega
          rw [this]; exact h2
    · simp only [loop_body, hs, h1, h2, Bool.false_eq_true, if_false] at hb
      split at hb
      · cases hb
      · cases hb
        exact nospace_inv.at_open _ rfl hin rfl ⟨hnm, hz, h2, h3, h4⟩ hm

theorem nospace_tag_facts :
    peek (nospace_pattern.drop 5) = 40 ∧ (nospace_pattern.drop 5).tail = nospace_pattern.drop 6 ∧
    peek (nospace_pattern.drop 6) = 60 ∧
    prefix_match (nospace_pattern.drop 6) tag_alpha = false ∧
    prefix_match (nospace_pattern.drop 6) tag_alnum = false ∧
    prefix_match (nospace_pattern.drop 6) tag_digits = false ∧
    prefix_match (nospace_pattern.drop 6) tag_xdigits = false ∧
    prefix_match (nospace_pattern.drop 6) tag_nospace = true ∧
    (nospace_pattern.drop 6).drop tag_nospace.length = nospace_pattern.drop 15 ∧
    peek (nospace_pattern.drop 15) = 41 ∧ (nospace_pattern.drop 15).tail = [] := by
  decide

/-- The invariant of the pattern `name (<nospace>)` in the value. -/
theorem nospace_step_value (buf : CStr) (v v1 : Vars) (hlen : v.line_pnt < SIZE_T_MOD)
    (hb : loop_body nospace_pattern buf (skip_spaces buf 0) v = .cont v1) :
    (v.state = .RCHAR → v.in_pnt = nospace_pattern.drop 5 →
      v.wildcard_start = some v.line_pnt → value_start buf v.line_pnt → v.matches_ = [] →
      nospace_inv buf v1) ∧
    (v.state = .RCHAR → v.in_pnt = nospace_pattern.drop 6 →
      v.wildcard_start = some v.line_pnt → v.match_start = some v.line_pnt →
      value_start buf v.line_pnt → v.matches_ = [] → nospace_inv buf v1) ∧
    (∀ w, (v.state = .MATCH_NOSPACE ∨ v.state = .RCHAR) → v.in_pnt = nospace_pattern.drop 15 →
      v.wildcard_start = some w → v.match_start = some w → value_start buf w →
      w ≤ v.line_pnt → (∀ i, w ≤ i → i < v.line_pnt → isgraph (byteAt buf i) = true) →
      v.matches_ = [] → nospace_inv buf v1) ∧
    (v.state = .RCHAR → v.in_pnt = [] → False) := by
  obtain ⟨t1, t2, t3, t4, t5, t6, t7, t8, t9, t10, t11⟩ := nospace_tag_facts
  refine ⟨?_, ?_, ?_, ?_⟩
  · intro hs hin hws hvs hm
    simp only [loop_body, hs, rchar_case, hin, t1, t2] at hb
    rw [if_neg (by decide), if_pos (by decide)] at hb
    cases hb
    exact nospace_inv.at_tag _ rfl rfl hws rfl hvs hm
  · intro hs hin hws hms hvs hm
    simp only [loop_body, hs, rchar_case, hin, t3, t4, t5, t6, t7, t8, t9] at hb
    rw [if_neg (by decide), if_neg (by decide), if_neg (by decide)] at hb
    simp only [Bool.false_eq_true, if_false, if_true] at hb
    cases hb
    exact nospace_inv.in_value _ v.line_pnt (Or.inl rfl) rfl hws hms hvs (Nat.le_refl _)
      (fun i h1 h2 => by simp only at h2; omega) hm
  · intro w hs hin hws hms hvs hle hgr hm
    rcases hs with hs | hs
    · simp only [loop_body, hs] at hb
      split at hb
      · rename_i hg
        cases hb
        refine nospace_inv.in_value _ w (Or.inl rfl) hin hws hms hvs (by simp only; omega) ?_ hm
        intro i hi1 hi2
        simp only at hi2
        by_cases hlt : i < v.line_pnt
        · exact hgr i hi1 hlt
        · have : i = v.line_pnt := by omega
          rw [this]; exact hg
      · cases hb
        exact nospace_inv.in_value _ w (Or.inr rfl) hin hws hms hvs hle hgr hm
    · simp only [loop_body, hs, rchar_case, hin, t10, t11, hms, hm] at hb
      rw [if_neg (by decide), if_neg (by decide), if_pos (by decide),
        if_neg (by simp [MATCHES_CAP])] at hb
      by_cases hw : w = v.line_pnt
      · rw [hw, add_to_matches_empty (by rw [← hw]; exact hvs.2.2.1)] at hb
        cases hb
      · have hlast := hgr (v.line_pnt - 1) (by omega) (by omega)
        have hlsp : isspace (byteAt buf (v.line_pnt - 1)) = false := by
          simp only [isgraph, Bool.and_eq_true, decide_eq_true_eq] at hlast
          simp [isspace]; omega
        rw [add_to_matches_plain hvs.2.2.1 (by omega) hlen hlsp] at hb
        cases hb
        exact nospace_inv.closed _ w rfl rfl hws rfl hvs (by simp only; omega) hgr rfl rfl
  · intro hs hin
    simp only [loop_body, hs, rchar_case, hin, peek, List.headD_nil] at hb
    rw [if_pos (by decide)] at hb
    cases hb

theorem byteAt_lt_strlen : ∀ (buf : CStr) (i : Nat), i < strlen buf → byteAt buf i ≠ 0 := by
  intro buf
  induction buf with
  | nil => intro i hi; simp [strlen] at hi
  | cons a t ih =>
    intro i hi
    unfold strlen at hi
    by_cases ha : a = 0
    · subst ha
      simp at hi
    · rw [List.takeWhile_cons_of_pos (by simpa using ha)] at hi
      cases i with
      | zero => exact ha
      | succ i =>
        have := ih i (by unfold strlen; simpa using hi)
        simpa [byteAt] using this

theorem cstr_eq_take (buf : CStr) : cstr buf = buf.take (strlen buf) := by
  unfold cstr strlen
  induction buf with
  | nil => rfl
  | cons a t ih =>
    by_cases ha : a = 0
    · subst ha; simp
    · rw [List.takeWhile_cons_of_pos (by simpa using ha)]
      simp only [List.length_cons, List.take_succ_cons]
      rw [← ih]

/-- The text of a span that ends at offset `n` of the line. -/
theorem span_text_eq (buf : CStr) (w n : Nat) (hn : n ≤ buf.length) :
    span_text buf w (n - w) = (buf.take n).drop w := by
  unfold span_text
  apply List.ext_getElem
  · simp; omega
  · intro i h1 h2
    simp only [List.length_map, List.length_range] at h1
    simp only [List.getElem_map, List.getElem_range, List.getElem_drop, List.getElem_take]
    unfold byteAt
    rw [List.getD_eq_getElem _ _ (by omega)]

/-- The line position at the end of the matching loop is the end of the line. -/
theorem loop_end_line (entry : SimpleConfEntry) (buf : CStr) (v : Vars)
    (h : Reaches entry buf v) (hc : loop_cond buf v = false) : v.line_pnt = strlen buf := by
  have h1 := le_strlen_of_bytes buf _ (reaches_inv entry buf v h).2
  have hb : byteAt buf v.line_pnt = 0 := by
    simp only [loop_cond, Bool.or_eq_false_iff, bne_eq_false_iff_eq] at hc
    exact hc.2
  by_contra hne
  exact byteAt_lt_strlen buf v.line_pnt (by omega) hb

/-- When `d` is `)` after the loop, the captures handed to the expansion are
those recorded in the loop and one more. -/
theorem after_loop_checks_closing {buf : CStr} {line : Nat} {v : Vars} {ms : List Match}
    (h : after_loop_checks buf line v = .inr ms) (hd : v.d = 41) :
    ∃ x, ms = v.matches_ ++ [x] := by
  unfold after_loop_checks at h
  split at h
  · cases h
  · split at h
    · cases h
    · dsimp only at h
      rw [if_pos (by simp [hd])] at h
      cases hms : v.match_start with
      | none => rw [hms] at h; simp at h
      | some s =>
        rw [hms] at h
        dsimp only at h
        split at h
        · simp at h
        · rename_i m heq
          split at heq
          · cases heq
          · split at h
            · cases h
            · simp only [Sum.inr.injEq] at h
              subst h
              exact add_to_matches_some heq

/-- The returns of the checks after the loop are not `OK`. -/
theorem after_loop_checks_inl {buf : CStr} {line : Nat} {v : Vars} {r : Ret}
    (h : after_loop_checks buf line v = .inl r) : r.result ≠ .OK := by
  unfold after_loop_checks at h
  split at h
  · cases h; simp [err_mismatch]
  · split at h
    · cases h; simp [err_mismatch]
    · dsimp only at h
      split at h
      · cases h; simp [ret_plain]
      · split at h
        · cases h; simp [ret_plain]
        · cases h

/-- Every reachable state of the matching loop for the pattern
`name (<nospace>)` is in one of the phases of `nospace_inv`. -/
theorem nospace_reaches (T buf : CStr) (hlen : buf.length < SIZE_T_MOD) (v : Vars)
    (h : Reaches ⟨nospace_pattern, T⟩ buf v) : nospace_inv buf v := by
  refine reaches_induct ⟨nospace_pattern, T⟩ buf (nospace_inv buf) ?_ ?_ v h
  · intro _
    exact nospace_inv.in_name _ 0 rfl (by omega) rfl rfl (fun i hi => by omega) rfl
  · intro v v1 hr hinv _ hb
    have hlp : v.line_pnt < SIZE_T_MOD := by
      have h1 := le_strlen_of_bytes buf _ (reaches_inv _ buf v hr).2
      have h2 := strlen_le_length buf
      omega
    have hb' : loop_body nospace_pattern buf (skip_spaces buf 0) v = .cont v1 := hb
    cases hinv with
    | in_name k hs hk hin hl hnm hm => exact nospace_step_name buf v v1 k hs hk hin hl hnm hm hb'
    | after_name hs hin hl hnm hm => exact (nospace_step_sep buf v v1 hin hnm hm hb').1 hs hl
    | blanks hs hin hl hbl hnm hm =>
      exact (nospace_step_sep buf v v1 hin hnm hm hb').2.1 hs hl hbl
    | after_sep hs hin hz hx hnm hm =>
      exact (nospace_step_sep buf v v1 hin hnm hm hb').2.2 hs hz hx
    | at_open hs hin hws hvs hm =>
      exact (nospace_step_value buf v v1 hlp hb').1 hs hin hws hvs hm
    | at_tag hs hin hws hms hvs hm =>
      exact (nospace_step_value buf v v1 hlp hb').2.1 hs hin hws hms hvs hm
    | in_value w hs hin hws hms hvs hle hgr hm =>
      exact (nospace_step_value buf v v1 hlp hb').2.2.1 w hs hin hws hms hvs hle hgr hm
    | closed w hs hin _ _ _ _ _ _ _ =>
      exact ((nospace_step_value buf v v1 hlp hb').2.2.2 hs hin).elim

/-- At the end of the loop for the pattern `name (<nospace>)` the group is
closed: the one capture is the wildcard span, which starts at the value. -/
theorem nospace_end (T buf : CStr) (hlen : buf.length < SIZE_T_MOD) (v : Vars)
    (h : Reaches ⟨nospace_pattern, T⟩ buf v) (hc : loop_cond buf v = false) :
    ∃ w, v.wildcard_start = some w ∧ value_start buf w ∧ w < v.line_pnt ∧
      v.matches_ = [{ str := w, str_len := v.line_pnt - w }] ∧ v.d = 41 := by
  have hpk : peek v.in_pnt = 0 := by
    simp only [loop_cond, Bool.or_eq_false_iff, bne_eq_false_iff_eq] at hc
    exact hc.1
  have hne : ∀ k, k ≤ 15 → k ≠ 16 → v.in_pnt = nospace_pattern.drop k → False := by
    intro k hk _ hin
    rw [hin] at hpk
    have : ∀ k, k ≤ 15 → peek (nospace_pattern.drop k) ≠ 0 := by decide
    exact this k hk hpk
  cases nospace_reaches T buf hlen v h with
  | in_name k _ hk hin _ _ _ => exact (hne k (by omega) (by omega) hin).elim
  | after_name _ hin _ _ _ => exact (hne 5 (by omega) (by omega) hin).elim
  | blanks _ hin _ _ _ _ => exact (hne 5 (by omega) (by omega) hin).elim
  | after_sep _ hin _ _ _ _ => exact (hne 5 (by omega) (by omega) hin).elim
  | at_open _ hin _ _ _ => exact (hne 5 (by omega) (by omega) hin).elim
  | at_tag _ hin _ _ _ _ => exact (hne 6 (by omega) (by omega) hin).elim
  | in_value w _ hin _ _ _ _ _ _ => exact (hne 15 (by omega) (by omega) hin).elim
  | closed w _ _ hws _ hvs hlt _ hm hd => exact ⟨w, hws, hvs, hlt, hm, hd⟩

/-- After the loop for the pattern `name (<nospace>)`, the templates `$*` and
`$0` both expand to the text of the wildcard span. -/
theorem nospace_after_loop (T buf : CStr) (line : Nat) (v : Vars) (w : Nat)
    (hT : T = [36, 42] ∨ T = [36, 48]) (hws : v.wildcard_start = some w)
    (hm : v.matches_ = [{ str := w, str_len := v.line_pnt - w }]) (hd : v.d = 41) :
    after_loop T buf line v =
      match after_loop_checks buf line v with
      | .inl r => r
      | .inr _ =>
        if (span_text buf w (v.line_pnt - w)).length < MAX_ARG_LENGTH then
          { result := .OK, arg := some (span_text buf w (v.line_pnt - w)), err := none }
        else ret_plain .E2BIG := by
  unfold after_loop
  cases hchk : after_loop_checks buf line v with
  | inl r => rfl
  | inr ms =>
    obtain ⟨x, hx⟩ := after_loop_checks_closing hchk hd
    rw [hm] at hx
    dsimp only
    rw [hws]
    dsimp only [Option.getD_some]
    have hl : ms.length = 2 := by rw [hx]; rfl
    have h0 : ms.getD 0 ⟨0, 0⟩ = { str := w, str_len := v.line_pnt - w } := by rw [hx]; rfl
    rcases hT with rfl | rfl
    · rw [expand_spec buf ms w (v.line_pnt - w) 2 [36, 42] [] (by simp) (by decide)
        (by simp [well_formed])]
      simp [expansion]
    · rw [expand_spec buf ms w (v.line_pnt - w) 2 [36, 48] [] (by simp) (by decide)
        (by simp [well_formed, hl])]
      simp only [expansion, Nat.reduceBEq, Bool.false_eq_true, if_false, beq_self_eq_true,
        if_true, Nat.sub_self, h0, List.append_nil, List.nil_append]

/-! ## Properties of the specification -/

theorem ofString_c1 :
    ofString "name (<digits>)" =
      [110, 97, 109, 101, 32, 40, 60, 100, 105, 103, 105, 116, 115, 62, 41] ∧
    ofString "--opt=$0" = [45, 45, 111, 112, 116, 61, 36, 48] ∧
    ofString "name " = [110, 97, 109, 101, 32] ∧
    ofString "--opt=" = [45, 45, 111, 112, 116, 61] := by
  decide

/-- C1. For the rule with pattern `name (<digits>)` and template `--opt=$0`, and every
line `name ` followed by a non-empty string `D` of decimal digits short enough for the
result to stay under `MAX_ARG_LENGTH` bytes, `try_entry` returns `OK` and the expanded
string is `--opt=` followed by `D`. -/
theorem C1_capture_round_trip (D : CStr) (hD : D ≠ []) (hdig : ∀ b ∈ D, isdigit b = true)
    (hlen : (ofString "--opt=" ++ D).length < MAX_ARG_LENGTH) :
    try_entry ⟨ofString "name (<digits>)", ofString "--opt=$0"⟩ (ofString "name " ++ D)
      = some { result := .OK, arg := some (ofString "--opt=" ++ D), err := none } := by
  obtain ⟨e1, e2, e3, e4⟩ := ofString_c1
  rw [e4] at hlen
  rw [e1, e2, e3, e4]
  obtain ⟨x, D', rfl⟩ : ∃ x D', D = x :: D' := by
    cases D with
    | nil => exact absurd rfl hD
    | cons x D' => exact ⟨x, D', rfl⟩
  obtain ⟨hx1, hx2, hx3, hx4⟩ := isdigit_facts (hdig x (by simp))
  simp only [List.length_append, List.length_cons, List.length_nil, MAX_ARG_LENGTH] at hlen
  set buf : CStr := [110, 97, 109, 101, 32] ++ x :: D' with hbuf
  have hline : skip_spaces buf 0 = 0 := skip_spaces_stay (by simp [hbuf, byteAt, isspace])
  have h0 : byteAt buf 0 = 110 := by simp [hbuf, byteAt]
  have h4 : byteAt buf 4 = 32 := by simp [hbuf, byteAt]
  have h5 : byteAt buf 5 = x := by simp [hbuf, byteAt]
  have hend : byteAt buf (5 + (D'.length + 1)) = 0 :=
    byteAt_of_drop_nil (List.drop_eq_nil_of_le (by simp [hbuf]; omega))
  have hlast : isspace (byteAt buf (5 + (D'.length + 1) - 1)) = false := by
    have := byteAt_last [110, 97, 109, 101, 32] (x :: D') hD (fun b => !isspace b)
      (fun b hb => by simp [(isdigit_facts (hdig b hb)).1])
    simpa using this
  have hcap : add_to_matches buf [] 5 (5 + (D'.length + 1)) =
      some [{ str := 5, str_len := D'.length + 1 }] := by
    rw [add_to_matches_plain (by rw [h5]; exact hx1) (by omega) (by simp [SIZE_T_MOD]; omega) hlast]
    simp
  have hcap2 : add_to_matches buf [{ str := 5, str_len := D'.length + 1 }] 5
      (5 + (D'.length + 1)) =
      some [{ str := 5, str_len := D'.length + 1 }, { str := 5, str_len := D'.length + 1 }] := by
    rw [add_to_matches_plain (by rw [h5]; exact hx1) (by omega) (by simp [SIZE_T_MOD]; omega) hlast]
    simp
  unfold try_entry
  simp only [hline, h0]
  simp only [Nat.reduceBEq, Bool.or_self, Bool.false_eq_true, if_false]
  -- the property name
  rw [propname_phase _ buf 0 32 [40, 60, 100, 105, 103, 105, 116, 115, 62, 41] (32 :: x :: D')
    (by decide) [110, 97, 109, 101] [110, 97, 109, 101] _ rfl rfl (by decide) (by simp [hbuf, init_vars])
    rfl]
  simp only [init_vars]
  -- the separator
  rw [try_from_eq]
  simp [loop_cond, loop_body, peek, h4, isspace]
  rw [try_from_eq]
  simp [loop_cond, loop_body, peek, h5, hx1, hx2, hx3, hx4]
  rw [try_from_eq]
  simp [loop_cond, loop_body, peek, h5, hx1, hx2, hx3, hx4]
  -- the group opens
  rw [try_from_eq]
  simp [loop_cond, loop_body, rchar_case, peek, h5, hx1, hx2, hx3, hx4]
  -- the tag
  rw [try_from_eq]
  simp [loop_cond, loop_body, rchar_case, peek, h5, hx1, hx2, hx3, hx4, prefix_match_cons,
    tag_alpha, tag_alnum, tag_digits, tolower, isupper]
  -- the digits
  rw [class_run _ buf 0 isdigit true [] (x :: D')]
  rotate_left
  · simp
  · rfl
  · simp [hbuf]
  · exact hdig
  dsimp only
  rw [class_exit _ buf 0 isdigit true]
  rotate_left
  · rfl
  · simp [loop_cond, peek]
  · simp only [List.length_cons]; rw [hend]; rfl
  simp only [List.length_cons, peek, List.headD_cons, Bool.not_true, Bool.and_false]
  -- the group closes
  rw [try_from_eq]
  simp [loop_cond, loop_body, rchar_case, peek, hcap, MATCHES_CAP]
  rw [try_from_eq]
  simp [loop_cond, peek, hend]
  -- the checks after the loop
  have hchk : after_loop_checks buf 0
      { in_pnt := [], line_pnt := 5 + (D'.length + 1), match_start := some 5,
        wildcard_start := some 5, matches_ := [{ str := 5, str_len := D'.length + 1 }],
        state := .RCHAR, expect_char := false, is_boolean := false, is_enabled := false,
        d := 41 } =
      .inr [{ str := 5, str_len := D'.length + 1 }, { str := 5, str_len := D'.length + 1 }] := by
    simp [after_loop_checks, final_state_ok, hcap2, MATCHES_CAP]
  simp only [after_loop, hchk]
  -- the expansion
  have hcopy : copy_bounded buf [45, 45, 111, 112, 116, 61] 5 (D'.length + 1) =
      [45, 45, 111, 112, 116, 61] ++ x :: D' := by
    rw [copy_bounded_plain (by simp [hbuf]; omega) (by simp [MAX_ARG_LENGTH]; omega)]
    simp [hbuf]
  rw [show ([45, 45, 111, 112, 116, 61, 36, 48] : CStr) = [45, 45, 111, 112, 116, 61] ++ [36, 48]
    from rfl]
  rw [expand_literal _ _ _ _ _ _ _ (by decide) (by simp [MAX_ARG_LENGTH])]
  simp [expand, MAX_ARG_LENGTH, hcopy, expand_finish]
  omega

/-- C1 at the line `name 42`: the expansion is `--opt=42`. -/
theorem C1_capture_round_trip_witness :
    try_entry ⟨ofString "name (<digits>)", ofString "--opt=$0"⟩ (ofString "name " ++ ofString "42")
      = some { result := .OK, arg := some (ofString "--opt=" ++ ofString "42"), err := none } :=
  C1_capture_round_trip (ofString "42") (by decide) (by decide) (by decide)

theorem bool_suffix_eq : bool_suffix = ofString "? <bool>" := by decide

/-- A boolean rule on a line whose token is a boolean literal, up to letter
case: the literal decides between the template and nothing. -/
theorem bool_rule_literal (P T tok : CStr) (en : Bool)
    (hP : P ≠ []) (hPb : ∀ b ∈ P, isspace b = false ∧ b ≠ 0 ∧ b ≠ 63) (hP0 : P.headD 0 ≠ 35)
    (hT : ∀ b ∈ T, b ≠ 0 ∧ b ≠ 36) (hTl : T.length < MAX_ARG_LENGTH)
    (htok : tok.map tolower ∈ (if en then true_literals else false_literals)) :
    try_entry ⟨P ++ bool_suffix, T⟩ (P ++ 32 :: tok) =
      some (if en then { result := .OK, arg := some T, err := none } else ret_plain .IGNORE) := by
  obtain ⟨t0, tok1, htk, ht0⟩ := @literal_head_facts tok
    (by cases en <;> simp_all)
  rw [bool_rule_reach P T tok t0 tok1 htk hP hPb hP0 ht0]
  have hdrop : (P ++ 32 :: tok).drop (P.length + 1) = tok := by
    rw [show P ++ 32 :: tok = (P ++ [32]) ++ tok by simp]
    exact List.drop_left' (by simp)
  have hnz : byteAt (P ++ 32 :: tok) (P.length + 1) = t0 := by
    rw [(byteAt_of_drop (hdrop.trans htk)).1]
  rw [← bool_rule_finish P T tok en hT hTl]
  apply try_from_cont
  · simp [loop_cond, hnz, ht0.2.2.2]
  · cases en with
    | true =>
      simp only [if_true] at htok
      simp only [loop_body]
      rw [boolean_case_true _ _ _ (by simpa [hdrop] using htok)]
      simp [hdrop, peek]
    | false =>
      simp only [Bool.false_eq_true, if_false] at htok
      simp only [loop_body]
      rw [boolean_case_false _ _ _ (by simpa [hdrop] using htok)]
      simp [hdrop, peek]

/-- C2 (amended). For every boolean rule `P? <bool>` whose property name `P` is
non-empty, free of whitespace and of `?`, and does not begin with `#`, and
whose template `T` has no `$` and fewer than `MAX_ARG_LENGTH` bytes: on the
line `P tok`, a letter-case variant of `yes`, `on`, `true` or `1` gives `OK`
with expansion `T`, and a letter-case variant of `no`, `off`, `false` or `0`
gives `IGNORE` and no string. -/
theorem C2_boolean_literals (P T tok : CStr)
    (hP : P ≠ []) (hPb : ∀ b ∈ P, isspace b = false ∧ b ≠ 0 ∧ b ≠ 63) (hP0 : P.headD 0 ≠ 35)
    (hT : ∀ b ∈ T, b ≠ 0 ∧ b ≠ 36) (hTl : T.length < MAX_ARG_LENGTH) :
    (tok.map tolower ∈ true_literals →
      try_entry ⟨P ++ ofString "? <bool>", T⟩ (P ++ ofString " " ++ tok) =
        some { result := .OK, arg := some T, err := none }) ∧
    (tok.map tolower ∈ false_literals →
      try_entry ⟨P ++ ofString "? <bool>", T⟩ (P ++ ofString " " ++ tok) =
        some { result := .IGNORE, arg := none, err := none }) := by
  rw [← bool_suffix_eq, show ofString " " = [32] by decide]
  simp only [List.append_assoc, List.singleton_append]
  constructor
  · intro h
    exact bool_rule_literal P T tok true hP hPb hP0 hT hTl (by simpa using h)
  · intro h
    exact bool_rule_literal P T tok false hP hPb hP0 hT hTl (by simpa using h)

/-- C2 on the rule `verbose? <bool>` with template `--verbose`, for the tokens
`Yes` and `OFF`. -/
theorem C2_boolean_literals_witness :
    (try_entry ⟨ofString "verbose" ++ ofString "? <bool>", ofString "--verbose"⟩
        (ofString "verbose" ++ ofString " " ++ ofString "Yes") =
      some { result := .OK, arg := some (ofString "--verbose"), err := none }) ∧
    (try_entry ⟨ofString "verbose" ++ ofString "? <bool>", ofString "--verbose"⟩
        (ofString "verbose" ++ ofString " " ++ ofString "OFF") =
      some { result := .IGNORE, arg := none, err := none }) :=
  ⟨(C2_boolean_literals (ofString "verbose") (ofString "--verbose") (ofString "Yes")
      (by decide) (by decide) (by decide) (by decide) (by decide)).1 (by decide),
   (C2_boolean_literals (ofString "verbose") (ofString "--verbose") (ofString "OFF")
      (by decide) (by decide) (by decide) (by decide) (by decide)).2 (by decide)⟩

/-- C2 as stated fails for a property name that begins with `#`: the name
`#x` is non-empty and has neither whitespace nor `?`, the template `--x` has no
`$`, and yet the line `#x yes` is taken for a comment and gives `IGNORE`. -/
theorem C2_counterexample :
    (ofString "#x" ≠ [] ∧ (∀ b ∈ ofString "#x", isspace b = false ∧ b ≠ 63)) ∧
    (∀ b ∈ ofString "--x", b ≠ 36) ∧ (ofString "--x").length < MAX_ARG_LENGTH ∧
    (ofString "yes").map tolower ∈ true_literals ∧
    try_entry ⟨ofString "#x" ++ ofString "? <bool>", ofString "--x"⟩
        (ofString "#x" ++ ofString " " ++ ofString "yes") =
      some { result := .IGNORE, arg := none, err := none } := by
  decide

/-- C3. For every rule whose pattern is a non-empty property name `N`, a
whitespace byte and a value region, and every line that after its leading
whitespace is neither empty nor a comment, `try_entry` returns
`PROPNOTFOUND` exactly when `N` without its `?` marks is not a prefix, up
to letter case, of the line after its leading whitespace; the rest of the
pattern, the rest of the line and the template play no part. -/
theorem C3_property_name_selection (N V T line : CStr) (w : Nat)
    (_hN : N ≠ []) (hNb : ∀ b ∈ N, isspace b = false ∧ b ≠ 0) (hw : isspace w = true)
    (hl0 : byteAt line (skip_spaces line 0) ≠ 0) (hl1 : byteAt line (skip_spaces line 0) ≠ 35) :
    ∃ r, try_entry ⟨N ++ w :: V, T⟩ line = some r ∧
      (r.result = .PROPNOTFOUND ↔
        ¬ ((N.filter (fun b => b != 63)).map tolower <+:
            (line.drop (skip_spaces line 0)).map tolower)) := by
  have hentry : try_entry ⟨N ++ w :: V, T⟩ line =
      try_from ⟨N ++ w :: V, T⟩ line (skip_spaces line 0)
        (init_vars (N ++ w :: V) (skip_spaces line 0)) := by
    unfold try_entry
    simp [hl0, hl1]
  rw [hentry]
  by_cases hp : (N.filter (fun b => b != 63)).map tolower <+:
      (line.drop (skip_spaces line 0)).map tolower
  · obtain ⟨t, ht⟩ := hp
    have hsplit : line.drop (skip_spaces line 0) =
        (line.drop (skip_spaces line 0)).take ((N.filter (fun b => b != 63)).length) ++
        (line.drop (skip_spaces line 0)).drop ((N.filter (fun b => b != 63)).length) :=
      (List.take_append_drop _ _).symm
    have hL : ((line.drop (skip_spaces line 0)).take
        ((N.filter (fun b => b != 63)).length)).map tolower =
        (N.filter (fun b => b != 63)).map tolower := by
      rw [List.map_take, ← ht]
      simp
    have hphase := propname_phase ⟨N ++ w :: V, T⟩ line (skip_spaces line 0) w V _ hw N _
      (init_vars (N ++ w :: V) (skip_spaces line 0)) rfl rfl hNb hsplit hL
    rw [hphase]
    cases hr : try_from ⟨N ++ w :: V, T⟩ line (skip_spaces line 0)
      { init_vars (N ++ w :: V) (skip_spaces line 0) with
        in_pnt := V
        line_pnt := (init_vars (N ++ w :: V) (skip_spaces line 0)).line_pnt +
          ((line.drop (skip_spaces line 0)).take ((N.filter (fun b => b != 63)).length)).length
        state := .AFTERPROPNAME
        is_boolean := (init_vars (N ++ w :: V) (skip_spaces line 0)).is_boolean || N.contains 63
        d := w } with
    | none => exact absurd hr (try_from_ne_none _ _ _ _)
    | some r =>
      refine ⟨r, rfl, ?_⟩
      have := try_from_off_propname _ _ _ _ (by simp) r hr
      constructor
      · intro h; exact absurd h this
      · intro h; exact absurd ⟨t, ht⟩ h
  · refine ⟨ret_plain .PROPNOTFOUND, ?_, ?_⟩
    · exact propname_fail _ line _ w V N _ rfl rfl hNb hp
    · constructor
      · intro _; exact hp
      · intro _; rfl

/-- C3 on the rule `Log_Level? <digits>` and the line `  log_levels 3`: the
name is a prefix of the line after its blanks, so the rule applies. -/
theorem C3_property_name_selection_witness :
    ∃ r, try_entry ⟨ofString "Log_Level?" ++ 32 :: ofString "<digits>", ofString "x"⟩
        (ofString "  log_levels 3") = some r ∧
      (r.result = .PROPNOTFOUND ↔
        ¬ (((ofString "Log_Level?").filter (fun b => b != 63)).map tolower <+:
            ((ofString "  log_levels 3").drop (skip_spaces (ofString "  log_levels 3") 0)).map
              tolower)) :=
  C3_property_name_selection (ofString "Log_Level?") (ofString "<digits>") (ofString "x")
    (ofString "  log_levels 3") 32 (by decide) (by decide) (by decide) (by decide) (by decide)

/-- C4. When `sc_build_command_line_from_file` succeeds, the arguments it
hands back are the program name followed by what the lines produce, in line
order and at most one per line: the non-empty expansion of the rule that
decides the line. No argument is the empty string, and a blank line or a
comment line produces nothing. -/
theorem C4_successful_compile (chunks : List CStr) (entries : List SimpleConfEntry)
    (app_name : CStr) (argv : List CStr) (hnul : ∀ c ∈ chunks, ∀ b ∈ c, b ≠ 0)
    (h : sc_build_command_line_from_file chunks entries app_name = some (.success argv)) :
    argv = app_name :: chunks.filterMap (fun c => produced (rstrip c) entries) ∧
    (∀ a ∈ argv.tail, a ≠ []) ∧
    (∀ c ∈ chunks, (byteAt (rstrip c) (skip_spaces (rstrip c) 0) = 0 ∨
        byteAt (rstrip c) (skip_spaces (rstrip c) 0) = 35) →
      produced (rstrip c) entries = none) := by
  have h1 := read_lines_success entries chunks [] 0 [app_name] none argv hnul h
  refine ⟨by simpa using h1, ?_, fun c _ hc => produced_blank _ _ hc⟩
  intro a ha
  rw [h1] at ha
  simp only [List.singleton_append, List.tail_cons, List.mem_filterMap] at ha
  obtain ⟨c, _, hc⟩ := ha
  exact produced_nonempty _ _ _ hc

/-- C4 on the rule table `log_level (<digits>)` to `--log-level=$0`,
`verbose? <bool>` to `--verbose`, and the lines `log_level = 3`,
`verbose: yes`, `# a comment`: the result is the program name, `--log-level=3`,
`--verbose`. -/
theorem C4_successful_compile_witness :
    sc_build_command_line_from_file
        [ofString "log_level = 3\n", ofString "verbose: yes\n", ofString "# a comment\n"]
        [⟨ofString "log_level (<digits>)", ofString "--log-level=$0"⟩,
         ⟨ofString "verbose? <bool>", ofString "--verbose"⟩] (ofString "prog") =
      some (.success [ofString "prog", ofString "--log-level=3", ofString "--verbose"]) ∧
    [ofString "prog", ofString "--log-level=3", ofString "--verbose"] =
      ofString "prog" ::
        [ofString "log_level = 3\n", ofString "verbose: yes\n", ofString "# a comment\n"].filterMap
          (fun c => produced (rstrip c)
            [⟨ofString "log_level (<digits>)", ofString "--log-level=$0"⟩,
             ⟨ofString "verbose? <bool>", ofString "--verbose"⟩]) :=
  ⟨by decide,
   (C4_successful_compile
      [ofString "log_level = 3\n", ofString "verbose: yes\n", ofString "# a comment\n"]
      [⟨ofString "log_level (<digits>)", ofString "--log-level=$0"⟩,
       ⟨ofString "verbose? <bool>", ofString "--verbose"⟩] (ofString "prog")
      [ofString "prog", ofString "--log-level=3", ofString "--verbose"]
      (by decide) (by decide)).1⟩

/-- C5 (amended). For each line the rules are tried in list order; a rule
whose outcome is `PROPNOTFOUND` or `MISMATCH` is passed over, a `MISMATCH`
leaving only its error position behind; the first rule with any other outcome
decides the line, whatever rules follow it in the table; and when every rule
is passed over the run fails at that line. -/
theorem C5_first_decisive_rule (buf : CStr) (lc : Nat) (pre : List SimpleConfEntry)
    (argv : List CStr) (err : Option Nat)
    (hpre : ∀ p ∈ pre, ∃ rp, try_entry p (cstr buf) = some rp ∧ passes_over rp.result = true) :
    (∀ (e : SimpleConfEntry) (post : List SimpleConfEntry) (r : Ret),
      try_entry e (cstr buf) = some r → passes_over r.result = false →
      try_entries buf lc (pre ++ e :: post) argv err =
        some (decided buf lc r argv (pending_err (cstr buf) pre err))) ∧
    try_entries buf lc pre argv err =
      some (.stop (.failure (some (exhausted_diag buf lc (pending_err (cstr buf) pre err))))) :=
  ⟨fun e post r he hr => try_entries_first_decisive buf lc e post argv r he hr pre err hpre,
   try_entries_exhausted buf lc argv pre err hpre⟩

/-- C5 on the line `a b` and the table `a <digits>`, `a <alpha>`, `a <any>`: the
first rule is passed over with a `MISMATCH`, the second decides the line and
the third is not tried. -/
theorem C5_first_decisive_rule_witness :
    try_entries (ofString "a b") 1
        ([⟨ofString "a <digits>", ofString "x"⟩] ++
          ⟨ofString "a <alpha>", ofString "y"⟩ :: [⟨ofString "a <any>", ofString "z"⟩])
        [ofString "prog"] none =
      some (decided (ofString "a b") 1 { result := .OK, arg := some (ofString "y"), err := none }
        [ofString "prog"]
        (pending_err (cstr (ofString "a b")) [⟨ofString "a <digits>", ofString "x"⟩] none)) :=
  (C5_first_decisive_rule (ofString "a b") 1 [⟨ofString "a <digits>", ofString "x"⟩]
    [ofString "prog"] none (by decide)).1 ⟨ofString "a <alpha>", ofString "y"⟩
    [⟨ofString "a <any>", ofString "z"⟩] _ (by decide) (by decide)

/-- C5 as stated fails: on the line `a b` the first rule `a <digits>` returns
`MISMATCH`, which is not `PROPNOTFOUND`, and yet the run does not abort: the
second rule `a <alpha>` is tried and the run succeeds with its expansion. -/
theorem C5_counterexample :
    try_entry ⟨ofString "a <digits>", ofString "x"⟩ (ofString "a b") =
      some { result := .MISMATCH, arg := none, err := some 2 } ∧
    sc_build_command_line_from_file [ofString "a b\n"]
        [⟨ofString "a <digits>", ofString "x"⟩, ⟨ofString "a <alpha>", ofString "y"⟩]
        (ofString "prog") =
      some (.success [ofString "prog", ofString "y"]) := by
  decide

/-- C6, the failing input: with the rules `a <digits>` and `a <alpha>`, the line
`a b` is accepted by the second rule after a `MISMATCH` of the first, whose
error position stays in `err`; on the next line `unknown_key = 1` every rule
returns `PROPNOTFOUND`, and the run fails there with the kind "syntax error"
at column 3, not "property not found". With the two-rule table of the
end-to-end example no line leaves such a position behind, and the fourth line
fails with "property not found" at line 4. -/
theorem C6_stale_error_position :
    (∀ e ∈ [(⟨ofString "a <digits>", ofString "x"⟩ : SimpleConfEntry),
          ⟨ofString "a <alpha>", ofString "y"⟩],
      try_entry e (ofString "unknown_key = 1") = some (ret_plain .PROPNOTFOUND)) ∧
    sc_build_command_line_from_file [ofString "a b\n", ofString "unknown_key = 1\n"]
        [⟨ofString "a <digits>", ofString "x"⟩, ⟨ofString "a <alpha>", ofString "y"⟩]
        (ofString "prog") =
      some (.failure (some { kind := .syntaxError, line_count := 2, column := 3,
                             text := ofString "known_key = 1" })) ∧
    sc_build_command_line_from_file
        [ofString "log_level = 3\n", ofString "verbose: yes\n", ofString "# a comment\n",
         ofString "unknown_key = 1\n"]
        [⟨ofString "log_level (<digits>)", ofString "--log-level=$0"⟩,
         ⟨ofString "verbose? <bool>", ofString "--verbose"⟩] (ofString "prog") =
      some (.failure (some { kind := .propertyNotFound, line_count := 4, column := 1,
                             text := ofString "unknown_key = 1" })) := by
  decide

/-- C7 (amended). For every rule whose pattern is a property name, a
whitespace byte and a non-empty value region, and every line that starts
with that property name (its `?` marks left out) and does not begin with
`#`, `try_entry` returns `SYNTAX` when (a) the name is followed, after
optional whitespace, by two separators `=` or `:` with only whitespace
between them, the error being reported at the second separator, or (b) the
name is followed directly by a byte that is neither whitespace nor `=` nor
`:`, the error being reported at that byte. -/
theorem C7_separator_faults (N V T : CStr) (w : Nat)
    (hNb : ∀ b ∈ N, isspace b = false ∧ b ≠ 0) (hw : isspace w = true) (_hV : V ≠ []) :
    (∀ (S1 S2 tail : CStr) (s1 s2 : Nat),
      (∀ b ∈ S1, isspace b = true) → (∀ b ∈ S2, isspace b = true) →
      (s1 = 61 ∨ s1 = 58) → (s2 = 61 ∨ s2 = 58) →
      (N.filter (fun b => b != 63) ++ (S1 ++ s1 :: (S2 ++ s2 :: tail))).headD 0 ≠ 35 →
      try_entry ⟨N ++ w :: V, T⟩
          (N.filter (fun b => b != 63) ++ (S1 ++ s1 :: (S2 ++ s2 :: tail))) =
        some { result := .SYNTAX, arg := none,
               err := some ((N.filter (fun b => b != 63)).length + S1.length + 1 + S2.length) }) ∧
    (∀ (x : Nat) (tail : CStr),
      isspace x = false → x ≠ 61 → x ≠ 58 → x ≠ 0 →
      (N.filter (fun b => b != 63) ++ x :: tail).headD 0 ≠ 35 →
      try_entry ⟨N ++ w :: V, T⟩ (N.filter (fun b => b != 63) ++ x :: tail) =
        some { result := .SYNTAX, arg := none,
               err := some ((N.filter (fun b => b != 63)).length) }) := by
  have hN' : ∀ b ∈ N.filter (fun b => b != 63), isspace b = false ∧ b ≠ 0 :=
    fun b hb => hNb b (List.mem_of_mem_filter hb)
  constructor
  · intro S1 S2 tail s1 s2 hS1 hS2 hs1 hs2 hhash
    cases hN1 : N.filter (fun b => b != 63) with
    | nil =>
      rw [hN1] at hhash
      simp only [List.nil_append] at hhash ⊢
      have hk : skip_spaces (S1 ++ s1 :: (S2 ++ s2 :: tail)) 0 = S1.length := by
        simp [skip_spaces, skip_spaces_count_run S1 s1 _ hS1 (sep_byte hs1).1]
      have hdrop : (S1 ++ s1 :: (S2 ++ s2 :: tail)).drop S1.length = s1 :: (S2 ++ s2 :: tail) :=
        List.drop_left' rfl
      have hb := (byteAt_of_drop hdrop).1
      unfold try_entry
      simp only [hk, hb]
      have hc : (s1 == 0 || s1 == 35) = false := by rcases hs1 with rfl | rfl <;> rfl
      simp only [hc, Bool.false_eq_true, if_false]
      have := sep_fault_double N V T (S1 ++ s1 :: (S2 ++ s2 :: tail)) w S1.length [] S2 tail s1 s2
        hNb hw (by simp) hS2 hs1 hs2 (by rw [hN1, hdrop]; rfl)
      rw [this, hN1]
      simp
    | cons n0 N1 =>
      rw [hN1] at hhash
      have hn0 := hN' n0 (by rw [hN1]; simp)
      simp only [List.cons_append, List.headD_cons] at hhash
      have hb : byteAt (n0 :: N1 ++ (S1 ++ s1 :: (S2 ++ s2 :: tail))) 0 = n0 := rfl
      have hk : skip_spaces (n0 :: N1 ++ (S1 ++ s1 :: (S2 ++ s2 :: tail))) 0 = 0 :=
        skip_spaces_stay (by rw [hb]; exact hn0.1)
      unfold try_entry
      simp only [hk, hb]
      have hc : (n0 == 0 || n0 == 35) = false := by simp [hn0.2, hhash]
      simp only [hc, Bool.false_eq_true, if_false]
      have := sep_fault_double N V T (n0 :: N1 ++ (S1 ++ s1 :: (S2 ++ s2 :: tail))) w 0 S1 S2 tail
        s1 s2 hNb hw hS1 hS2 hs1 hs2 (by rw [hN1]; rfl)
      rw [this, hN1]
      simp
  · intro x tail hx1 hx2 hx3 hx4 hhash
    have hb : byteAt (N.filter (fun b => b != 63) ++ x :: tail) 0 ≠ 0 ∧
        byteAt (N.filter (fun b => b != 63) ++ x :: tail) 0 ≠ 35 ∧
        isspace (byteAt (N.filter (fun b => b != 63) ++ x :: tail) 0) = false := by
      rw [byteAt_zero]
      refine ⟨?_, hhash, ?_⟩
      · cases hN1 : N.filter (fun b => b != 63) with
        | nil => simpa using hx4
        | cons n0 N1 => simpa using (hN' n0 (by rw [hN1]; simp)).2
      · cases hN1 : N.filter (fun b => b != 63) with
        | nil => simpa using hx1
        | cons n0 N1 => simpa using (hN' n0 (by rw [hN1]; simp)).1
    have hk := skip_spaces_stay hb.2.2
    unfold try_entry
    simp only [hk]
    have hc : (byteAt (N.filter (fun b => b != 63) ++ x :: tail) 0 == 0 ||
        byteAt (N.filter (fun b => b != 63) ++ x :: tail) 0 == 35) = false := by
      simp [hb.1, hb.2.1]
    simp only [hc, Bool.false_eq_true, if_false]
    have := sep_fault_missing N V T (N.filter (fun b => b != 63) ++ x :: tail) w 0 tail x
      hNb hw ⟨hx1, hx2, hx3, hx4⟩ rfl
    rw [this]
    simp

/-- C7 on the rule `name <digits>`: the line `name = : 1` for (a) and the
line `name/1` for (b). -/
theorem C7_separator_faults_witness :
    try_entry ⟨ofString "name" ++ 32 :: ofString "<digits>", ofString "x"⟩
        ((ofString "name").filter (fun b => b != 63) ++
          (ofString " " ++ 61 :: (ofString " " ++ 58 :: ofString " 1"))) =
      some { result := .SYNTAX, arg := none,
             err := some (((ofString "name").filter (fun b => b != 63)).length +
               (ofString " ").length + 1 + (ofString " ").length) } ∧
    try_entry ⟨ofString "name" ++ 32 :: ofString "<digits>", ofString "x"⟩
        ((ofString "name").filter (fun b => b != 63) ++ 47 :: ofString "1") =
      some { result := .SYNTAX, arg := none,
             err := some (((ofString "name").filter (fun b => b != 63)).length) } :=
  ⟨(C7_separator_faults (ofString "name") (ofString "<digits>") (ofString "x") 32
      (by decide) (by decide) (by decide)).1 (ofString " ") (ofString " ") (ofString " 1") 61 58
      (by decide) (by decide) (by decide) (by decide) (by decide),
   (C7_separator_faults (ofString "name") (ofString "<digits>") (ofString "x") 32
      (by decide) (by decide) (by decide)).2 47 (ofString "1")
      (by decide) (by decide) (by decide) (by decide) (by decide)⟩

/-- C7 as stated fails for a line that begins with `#`: the property name
`#a` is followed by two separators on the line `#a = = 1` and directly by `/`
on the line `#a/1`, and both lines are taken for comments. -/
theorem C7_counterexample :
    try_entry ⟨ofString "#a <digits>", ofString "x"⟩ (ofString "#a = = 1") =
      some { result := .IGNORE, arg := none, err := none } ∧
    try_entry ⟨ofString "#a <digits>", ofString "x"⟩ (ofString "#a/1") =
      some { result := .IGNORE, arg := none, err := none } := by
  decide

/-- C8, the failing input: the rule `name <alpha><digits>` on the line
`name 42`. The matching gets to `<alpha>` at the byte `4`, which is no letter,
so the tag matches no byte, and `try_entry` still returns `OK`: `expect_char`,
set at `<alpha>`, is one flag for all tags, and the digits that `<digits>`
takes clear it before it is tested after the loop. When nothing after the tag
takes a byte the outcome is `MISMATCH`, as on the line `name =` against the
pattern `name <alpha>`. -/
theorem C8_zero_byte_class_accepted :
    Reaches ⟨ofString "name <alpha><digits>", ofString "x"⟩ (ofString "name 42")
      { in_pnt := tag_alpha ++ tag_digits, line_pnt := 5, match_start := none,
        wildcard_start := some 5, matches_ := [], state := .RCHAR, expect_char := false,
        is_boolean := false, is_enabled := false, d := 60 } ∧
    isalpha (byteAt (ofString "name 42") 5) = false ∧
    try_entry ⟨ofString "name <alpha><digits>", ofString "x"⟩ (ofString "name 42") =
      some { result := .OK, arg := some (ofString "x"), err := none } ∧
    try_entry ⟨ofString "name <alpha>", ofString "x"⟩ (ofString "name =") =
      some { result := .MISMATCH, arg := none, err := some 0 } :=
  ⟨⟨by decide, 8, by decide⟩, by decide, by decide, by decide⟩

/-- C9, the failing input: on the rule `name <xdigits>` with template `$*` the
line `name ff` gives `MISMATCH` and no string, because the state
`STATE_MATCH_XDIGITS` never resets `expect_char`; the sibling classes accept
their runs: `name <alpha>` on `name ab`, `name <alnum>` on `name ff` and
`name <digits>` on `name 42` give `OK` with the value. -/
theorem C9_xdigits_never_accepts :
    try_entry ⟨ofString "name <xdigits>", ofString "$*"⟩ (ofString "name ff") =
      some { result := .MISMATCH, arg := none, err := some 0 } ∧
    try_entry ⟨ofString "name <alpha>", ofString "$*"⟩ (ofString "name ab") =
      some { result := .OK, arg := some (ofString "ab"), err := none } ∧
    try_entry ⟨ofString "name <alnum>", ofString "$*"⟩ (ofString "name ff") =
      some { result := .OK, arg := some (ofString "ff"), err := none } ∧
    try_entry ⟨ofString "name <digits>", ofString "$*"⟩ (ofString "name 42") =
      some { result := .OK, arg := some (ofString "42"), err := none } := by
  decide

theorem boolean_case_none (buf : CStr) (line : Nat) (v : Vars)
    (h : ∀ l ∈ true_literals ++ false_literals, ¬ (l <+: (buf.drop v.line_pnt).map tolower)) :
    boolean_case buf line v = .ret ( err_syntax buf v.line_pnt line) := by
  have key : ∀ l ∈ true_literals ++ false_literals,
      prefix_match (buf.drop v.line_pnt) l = false := by
    intro l hl
    rw [Bool.eq_false_iff]
    intro hpm
    have hlow : l.map tolower = l := by
      simp only [true_literals, false_literals, List.cons_append, List.nil_append, List.mem_cons,
        List.mem_singleton, List.not_mem_nil, or_false] at hl
      rcases hl with rfl | rfl | rfl | rfl | rfl | rfl | rfl | rfl <;> rfl
    have := (prefix_match_iff _ _).mp hpm
    rw [hlow] at this
    exact h l hl this
  unfold boolean_case
  simp only [key lit_yes (by decide), key lit_on (by decide), key lit_true (by decide),
    key lit_1 (by decide), key lit_no (by decide), key lit_off (by decide),
    key lit_false (by decide), key lit_0 (by decide), Bool.false_eq_true, if_false]

/-- C10 (amended). For every boolean rule `P? <bool>` whose property name does
not begin with `#`, and every line `P tok` where `tok` is a non-empty token
without whitespace that does not begin with `=` or `:` and of which no boolean
literal is a prefix up to letter case, `try_entry` returns `SYNTAX`, with the
error position on the first byte of `tok`. -/
theorem C10_unrecognised_boolean (P T tok : CStr)
    (hP : P ≠ []) (hPb : ∀ b ∈ P, isspace b = false ∧ b ≠ 0 ∧ b ≠ 63) (hP0 : P.headD 0 ≠ 35)
    (htok : tok ≠ []) (htb : ∀ b ∈ tok, isspace b = false ∧ b ≠ 0)
    (hsep : tok.headD 0 ≠ 61 ∧ tok.headD 0 ≠ 58)
    (hlit : ∀ l ∈ true_literals ++ false_literals, ¬ (l <+: tok.map tolower)) :
    try_entry ⟨P ++ ofString "? <bool>", T⟩ (P ++ ofString " " ++ tok) =
      some { result := .SYNTAX, arg := none, err := some (P.length + 1) } := by
  rw [← bool_suffix_eq, show ofString " " = [32] by decide]
  simp only [List.append_assoc, List.singleton_append]
  obtain ⟨t0, tok1, rfl⟩ : ∃ t0 tok1, tok = t0 :: tok1 := by
    cases tok with
    | nil => exact absurd rfl htok
    | cons t0 tok1 => exact ⟨t0, tok1, rfl⟩
  have ht0 := htb t0 (by simp)
  simp only [List.headD_cons] at hsep
  rw [bool_rule_reach P T (t0 :: tok1) t0 tok1 rfl hP hPb hP0 ⟨ht0.1, hsep.1, hsep.2, ht0.2⟩]
  have hdrop : (P ++ 32 :: t0 :: tok1).drop (P.length + 1) = t0 :: tok1 := by
    rw [show P ++ 32 :: t0 :: tok1 = (P ++ [32]) ++ t0 :: tok1 by simp]
    exact List.drop_left' (by simp)
  have hnz : byteAt (P ++ 32 :: t0 :: tok1) (P.length + 1) = t0 := (byteAt_of_drop hdrop).1
  rw [try_from_ret (by simp [loop_cond, hnz, ht0.2])
    (by
      simp only [loop_body]
      exact boolean_case_none _ _ _ (by simpa [hdrop] using hlit))]
  simp [ err_syntax, hnz, ht0.2]

/-- C10 on the rule `verbose? <bool>` and the line `verbose maybe`. -/
theorem C10_unrecognised_boolean_witness :
    try_entry ⟨ofString "verbose" ++ ofString "? <bool>", ofString "--verbose"⟩
        (ofString "verbose" ++ ofString " " ++ ofString "maybe") =
      some { result := .SYNTAX, arg := none, err := some ((ofString "verbose").length + 1) } :=
  C10_unrecognised_boolean (ofString "verbose") (ofString "--verbose") (ofString "maybe")
    (by decide) (by decide) (by decide) (by decide) (by decide) (by decide) (by decide)

/-- C10 as stated fails for a token that goes on after a boolean literal: the
token `yesx` is none of the eight literals, yet on the line `v yesx` the tag
`<bool>` matches the prefix `yes` and the rest of the token gives `MISMATCH`. -/
theorem C10_counterexample :
    (∀ l ∈ true_literals ++ false_literals, (ofString "yesx").map tolower ≠ l) ∧
    (∀ b ∈ ofString "yesx", isspace b = false) ∧
    try_entry ⟨ofString "v" ++ ofString "? <bool>", ofString "--v"⟩
        (ofString "v" ++ ofString " " ++ ofString "yesx") =
      some { result := .MISMATCH, arg := none, err := some 5 } := by
  decide

/-- The expansion loop stops as soon as the output buffer is full: for the
rule whose pattern `name <digits>` has no capture group and whose template is
65536 letters `a` followed by `$0`, on the line `name 42`, the result is
`E2BIG`, and the `$0` is never looked at. -/
theorem full_buffer_before_escape :
    try_entry ⟨ofString "name <digits>", ofString "x"⟩ (ofString "name 42") =
      some { result := .OK, arg := some (ofString "x"), err := none } ∧
    try_entry ⟨ofString "name <digits>", List.replicate 65536 97 ++ ofString "$0"⟩
        (ofString "name 42") =
      some { result := .E2BIG, arg := none, err := none } := by
  refine ⟨by decide, ?_⟩
  have hm : Matches ⟨ofString "name <digits>", List.replicate 65536 97 ++ ofString "$0"⟩
      (ofString "name 42")
      { in_pnt := [], line_pnt := 7, match_start := none, wildcard_start := some 5,
        matches_ := [], state := .MATCH_DIGITS, expect_char := false, is_boolean := false,
        is_enabled := false, d := 0 } [] :=
    ⟨⟨by decide, 11, by decide⟩, by decide, by decide⟩
  rw [try_entry_of_matches hm]
  dsimp only
  rw [expand_literal _ _ _ _ _ _ _ (by
      intro b hb
      rw [List.eq_of_mem_replicate hb]
      decide) (by rw [List.length_replicate]; decide),
    expand_full _ _ _ _ _ _ _ (by rw [List.nil_append, List.length_replicate]; decide)]
  rfl

/-- A reference to a capture that no group of the pattern produces. For a
rule whose pattern has `k` closing parentheses and does not end with one, and
a line that the pattern matches: when the template is `pre ++ $N ++ post` with
`N >= k`, where `pre` is well formed for the captures produced and expands to
fewer than 65536 bytes, `try_entry` returns `INVALID_ENTRY` with no string. -/
theorem unpopulated_capture_invalid (entry : SimpleConfEntry) (buf : CStr) (v : Vars)
    (ms : List Match) (pre post : CStr) (d : Nat)
    (hm : Matches entry buf v ms)
    (hin : ∀ b ∈ entry.in_, b ≠ 0) (hend : entry.in_.getLast? ≠ some 41)
    (hout : entry.out = pre ++ 36 :: d :: post) (hd1 : 48 ≤ d) (hd2 : d ≤ 57)
    (hN : entry.in_.count 41 ≤ d - 48)
    (hpre : ∀ b ∈ pre, b ≠ 0) (hwf : well_formed ms.length pre = true)
    (hlen : (expansion buf ms (v.wildcard_start.getD 0) (wildcard_len v) pre).length <
      MAX_ARG_LENGTH) :
    try_entry entry buf = some { result := .INVALID_ENTRY, arg := none, err := none } := by
  obtain ⟨_, hcnt, hd⟩ := loop_end_facts entry buf v hm.1 hm.2.1 hin
  have hms : ms = v.matches_ := after_loop_checks_plain hm.2.2 (hd hend)
  rw [try_entry_of_matches hm, hout,
    expand_prefix buf ms _ _ _ pre.length pre [] (Nat.le_refl _) hpre hwf]
  simp only [List.nil_append]
  rw [if_pos hlen, expand_rchar_dollar _ _ _ _ _ _ hlen,
    expand_esc_digit _ _ _ _ _ _ _ hlen hd1 hd2, if_pos (by rw [hms]; omega)]
  rfl

/-- C11, the failing input: the rule with pattern `name (<digits>)` and
template `$1` on the line `name 42`. The one group produces capture 0, and the
reference `$1` is still served: the pattern ends with `)`, `d` is left at that
`)` when the loop ends, and the closing step after the loop records the same
span a second time, so that two captures are handed to the expansion and the
result is `OK` with `42`, not `INVALID_ENTRY`. With ` x` after the group in
pattern and line, only capture 0 exists and `$1` gives `INVALID_ENTRY`. -/
theorem C11_last_capture_recorded_twice :
    Matches ⟨ofString "name (<digits>)", ofString "$1"⟩ (ofString "name 42")
      { in_pnt := [], line_pnt := 7, match_start := some 5, wildcard_start := some 5,
        matches_ := [{ str := 5, str_len := 2 }], state := .RCHAR, expect_char := false,
        is_boolean := false, is_enabled := false, d := 41 }
      [{ str := 5, str_len := 2 }, { str := 5, str_len := 2 }] ∧
    try_entry ⟨ofString "name (<digits>)", ofString "$1"⟩ (ofString "name 42") =
      some { result := .OK, arg := some (ofString "42"), err := none } ∧
    try_entry ⟨ofString "name (<digits>) x", ofString "$1"⟩ (ofString "name 42 x") =
      some { result := .INVALID_ENTRY, arg := none, err := none } :=
  ⟨⟨⟨by decide, 14, by decide⟩, by decide, by decide⟩, by decide, by decide⟩

/-- C12, the failing input: ten groups that end the pattern. The tenth `)` is
recorded in the loop and met again after it, where `matches_len >= 10` gives
`SYNTAX` with no error position, instead of `OK` with `10`. The same ten
groups followed by ` x` are accepted, and `$9` is the tenth span. -/
theorem C12_ten_groups_at_pattern_end :
    try_entry
        ⟨ofString ("n (<digits>) (<digits>) (<digits>) (<digits>) (<digits>) (<digits>) " ++
            "(<digits>) (<digits>) (<digits>) (<digits>)"), ofString "$9"⟩
        (ofString "n 1 2 3 4 5 6 7 8 9 10") =
      some { result := .SYNTAX, arg := none, err := none } ∧
    try_entry
        ⟨ofString ("n (<digits>) (<digits>) (<digits>) (<digits>) (<digits>) (<digits>) " ++
            "(<digits>) (<digits>) (<digits>) (<digits>) x"), ofString "$9"⟩
        (ofString "n 1 2 3 4 5 6 7 8 9 10 x") =
      some { result := .OK, arg := some (ofString "10"), err := none } := by
  decide

/-- C13, the failing input: a template that ends in `$`. The expansion loop
ends on the terminator while the escape is open, and `try_entry` returns `OK`
with the text before the `$`, not `INVALID_ENTRY`; a `$` followed by another
byte that is neither `*` nor a digit does give `INVALID_ENTRY`. -/
theorem C13_dollar_at_template_end :
    try_entry ⟨ofString "name <digits>", ofString "a$"⟩ (ofString "name 42") =
      some { result := .OK, arg := some (ofString "a"), err := none } ∧
    try_entry ⟨ofString "name <digits>", ofString "a$x"⟩ (ofString "name 42") =
      some { result := .INVALID_ENTRY, arg := none, err := none } := by
  decide

/-- C14 (output bound without truncation). For a rule whose template is well
formed for the captures produced (every `$` followed by `*` or by the digit of
a produced capture) and a line that the pattern matches, let `E` be the
template with every `$*` replaced by the text of the wildcard span and every
`$N` by the text of capture `N`. When `E` has fewer than `MAX_ARG_LENGTH`
(65536) bytes `try_entry` returns `OK` with exactly `E`; otherwise it returns
`E2BIG` with no string. So an `OK` result is the whole of `E` and is shorter
than 65536 bytes. -/
theorem C14_output_bound (entry : SimpleConfEntry) (buf : CStr) (v : Vars) (ms : List Match)
    (hm : Matches entry buf v ms) (hnul : ∀ b ∈ entry.out, b ≠ 0)
    (hwf : well_formed ms.length entry.out = true) :
    try_entry entry buf =
      some (if (expansion buf ms (v.wildcard_start.getD 0) (wildcard_len v) entry.out).length <
            MAX_ARG_LENGTH then
          { result := .OK,
            arg := some (expansion buf ms (v.wildcard_start.getD 0) (wildcard_len v) entry.out),
            err := none }
        else { result := .E2BIG, arg := none, err := none }) ∧
    ∀ r, try_entry entry buf = some r → r.result = .OK →
      r.arg = some (expansion buf ms (v.wildcard_start.getD 0) (wildcard_len v) entry.out) ∧
      (expansion buf ms (v.wildcard_start.getD 0) (wildcard_len v) entry.out).length <
        MAX_ARG_LENGTH := by
  have h := try_entry_of_matches hm
  rw [expand_spec buf ms _ _ entry.out.length entry.out [] (Nat.le_refl _) hnul hwf] at h
  simp only [List.nil_append] at h
  refine ⟨h, ?_⟩
  intro r hr hok
  rw [h] at hr
  by_cases hlen : (expansion buf ms (v.wildcard_start.getD 0) (wildcard_len v) entry.out).length <
      MAX_ARG_LENGTH
  · rw [if_pos hlen] at hr
    simp only [Option.some.injEq] at hr
    subst hr
    exact ⟨rfl, hlen⟩
  · rw [if_neg hlen] at hr
    simp only [Option.some.injEq] at hr
    subst hr
    simp [ret_plain] at hok

/-- C14 at the rule `name (<digits>) x` with template `--n=$0$*` and the line
`name 42 x`: the capture is `42`, the wildcard span `42 x`, and the result
`--n=4242 x`. -/
theorem C14_output_bound_witness :
    try_entry ⟨ofString "name (<digits>) x", ofString "--n=$0$*"⟩ (ofString "name 42 x") =
      some { result := .OK, arg := some (ofString "--n=4242 x"), err := none } :=
  (C14_output_bound ⟨ofString "name (<digits>) x", ofString "--n=$0$*"⟩ (ofString "name 42 x")
    { in_pnt := [], line_pnt := 9, match_start := some 5, wildcard_start := some 5,
      matches_ := [{ str := 5, str_len := 2 }], state := .RCHAR, expect_char := false,
      is_boolean := false, is_enabled := false, d := 120 }
    [{ str := 5, str_len := 2 }]
    ⟨⟨by decide, 18, by decide⟩, by decide, by decide⟩ (by decide) (by decide)).1.trans
    (by decide)

/-- C15 (wildcard round-trip). For the pattern `name (<nospace>)` and every
line (shorter than 2^64 bytes), `try_entry` with the template `$*` returns
what it returns with the template `$0`, outcome and string alike; and when the
outcome is `OK` the string is the text of the line from offset `w` to its end,
where `w` is the offset of the first byte after the name and the separator
that is neither whitespace nor `=` nor `:`. -/
theorem C15_wildcard_round_trip (buf : CStr) (hlen : buf.length < SIZE_T_MOD) :
    try_entry ⟨ofString "name (<nospace>)", ofString "$*"⟩ buf =
      try_entry ⟨ofString "name (<nospace>)", ofString "$0"⟩ buf ∧
    ∀ a, try_entry ⟨ofString "name (<nospace>)", ofString "$*"⟩ buf =
        some { result := .OK, arg := some a, err := none } →
      ∃ w, value_start buf w ∧ a = (cstr buf).drop w := by
  have key : ∀ r, try_entry ⟨nospace_pattern, [36, 42]⟩ buf = some r →
      try_entry ⟨nospace_pattern, [36, 48]⟩ buf = some r ∧
      (r.result = .OK → ∃ w, value_start buf w ∧ r.arg = some ((cstr buf).drop w)) := by
    intro r h1
    rcases try_entry_cases _ buf r h1 with ⟨h0, hr⟩ | ⟨v, hv, hc, hb⟩ | ⟨v, hv, hc, hr⟩
    · refine ⟨?_, ?_⟩
      · unfold try_entry
        simp only [h0, if_true, hr]
      · intro hok; rw [hr] at hok; simp [ret_plain] at hok
    · have hv2 : Reaches ⟨nospace_pattern, [36, 48]⟩ buf v := hv
      refine ⟨?_, ?_⟩
      · rw [try_entry_of_reaches hv2]
        exact try_from_ret hc hb
      · intro hok
        rcases loop_body_ret _ _ _ _ _ hb with h | h | h | h | ⟨h, _⟩ <;> rw [h] at hok <;>
          simp [ret_plain, err_mismatch, err_syntax] at hok
    · have hv2 : Reaches ⟨nospace_pattern, [36, 48]⟩ buf v := hv
      obtain ⟨w, hws, hvs, hlt, hm, hd⟩ := nospace_end _ buf hlen v hv hc
      have e1 := nospace_after_loop [36, 42] buf (skip_spaces buf 0) v w (Or.inl rfl) hws hm hd
      have e2 := nospace_after_loop [36, 48] buf (skip_spaces buf 0) v w (Or.inr rfl) hws hm hd
      refine ⟨?_, ?_⟩
      · rw [try_entry_of_reaches hv2, try_from_done hc, hr]
        exact congrArg some (e2.trans e1.symm)
      · intro hok
        refine ⟨w, hvs, ?_⟩
        have hr2 : r = after_loop [36, 42] buf (skip_spaces buf 0) v := hr
        rw [e1] at hr2
        cases hchk : after_loop_checks buf (skip_spaces buf 0) v with
        | inl r0 =>
          rw [hchk] at hr2
          dsimp only at hr2
          rw [hr2] at hok
          exact absurd hok (after_loop_checks_inl hchk)
        | inr ms =>
          rw [hchk] at hr2
          dsimp only at hr2
          have hend := loop_end_line _ buf v hv hc
          have hsp : span_text buf w (v.line_pnt - w) = (cstr buf).drop w := by
            rw [hend, span_text_eq buf w _ (strlen_le_length buf), cstr_eq_take]
          rw [hsp] at hr2
          split at hr2
          · rw [hr2]
          · rw [hr2] at hok; simp [ret_plain] at hok
  have htot := try_entry_total ⟨nospace_pattern, [36, 42]⟩ buf
  cases h1 : try_entry ⟨nospace_pattern, [36, 42]⟩ buf with
  | none => exact absurd h1 htot
  | some r =>
    obtain ⟨k1, k2⟩ := key r h1
    refine ⟨?_, ?_⟩
    · show try_entry ⟨nospace_pattern, [36, 42]⟩ buf = try_entry ⟨nospace_pattern, [36, 48]⟩ buf
      rw [h1, k1]
    · intro a ha
      have ha2 : try_entry ⟨nospace_pattern, [36, 42]⟩ buf =
          some { result := .OK, arg := some a, err := none } := ha
      rw [h1] at ha2
      simp only [Option.some.injEq] at ha2
      obtain ⟨w, hw1, hw2⟩ := k2 (by rw [ha2])
      refine ⟨w, hw1, ?_⟩
      rw [ha2] at hw2
      simpa using hw2

/-- C15 on the line `name: ab=c`: both templates give `ab=c`, the text from
offset 6. -/
theorem C15_wildcard_round_trip_witness :
    try_entry ⟨ofString "name (<nospace>)", ofString "$*"⟩ (ofString "name: ab=c") =
      try_entry ⟨ofString "name (<nospace>)", ofString "$0"⟩ (ofString "name: ab=c") ∧
    ∀ a, try_entry ⟨ofString "name (<nospace>)", ofString "$*"⟩ (ofString "name: ab=c") =
        some { result := .OK, arg := some a, err := none } →
      ∃ w, value_start (ofString "name: ab=c") w ∧ a = (cstr (ofString "name: ab=c")).drop w :=
  C15_wildcard_round_trip (ofString "name: ab=c") (by decide)

/-- C16, as stated, fails for the property name `#n`: with the pattern `#n v`
and the template `t`, the line `#n v` begins with `#`, is a comment, and is
ignored before any matching. -/
theorem C16_counterexample :
    try_entry ⟨ofString "#n" ++ 32 :: ofString "v", ofString "t"⟩
        (ofString "#n" ++ ofString " " ++ ofString "v") =
      some { result := .IGNORE, arg := none, err := none } := by
  decide

/-- C16 (literal-only value region), amended. Let the pattern be `N`, a
blank and `V`, with `N` a non-empty property name without whitespace, `?` or a
leading `#`, and `V` a non-empty string of printable non-blank bytes other than
`(`, `)` and `<`; let the template `T` be free of `$` and shorter than 65536
bytes. For every line `N'`, `sep`, `V'` where `N'` equals `N` up to letter case,
`sep` is a valid separator and `V'` is non-empty, free of whitespace and does
not begin with `=` or `:`: `try_entry` returns `OK` with `T` when `V' = V`, and
`MISMATCH` otherwise. -/
theorem C16_literal_value_region (N V T N' sep V' : CStr)
    (hN : N ≠ []) (hNb : ∀ b ∈ N, isspace b = false ∧ b ≠ 0 ∧ b ≠ 63) (hN0 : N.headD 0 ≠ 35)
    (hV : V ≠ []) (hVb : ∀ b ∈ V, isgraph b = true ∧ b ≠ 40 ∧ b ≠ 41 ∧ b ≠ 60)
    (hT : ∀ b ∈ T, b ≠ 0 ∧ b ≠ 36) (hTl : T.length < MAX_ARG_LENGTH)
    (hN' : N'.map tolower = N.map tolower) (hsep : valid_separator sep)
    (hV' : V' ≠ []) (hV'b : ∀ b ∈ V', isspace b = false ∧ b ≠ 0)
    (hV'0 : V'.headD 0 ≠ 61 ∧ V'.headD 0 ≠ 58) :
    (V' = V → try_entry ⟨N ++ 32 :: V, T⟩ (N' ++ sep ++ V') =
      some { result := .OK, arg := some T, err := none }) ∧
    (V' ≠ V → ∃ e, try_entry ⟨N ++ 32 :: V, T⟩ (N' ++ sep ++ V') =
      some { result := .MISMATCH, arg := none, err := some e }) := by
  -- the first byte of the line
  obtain ⟨n0, N1, rfl⟩ := List.exists_cons_of_ne_nil hN
  obtain ⟨x, rest, rfl⟩ := List.exists_cons_of_ne_nil hV'
  obtain ⟨y, V1, rfl⟩ := List.exists_cons_of_ne_nil hV
  cases N' with
  | nil => simp at hN'
  | cons m0 M1 =>
  have hhead : tolower m0 = tolower n0 := by
    simp only [List.map_cons, List.cons.injEq] at hN'
    exact hN'.1
  have hn0 := hNb n0 (by simp)
  have hm0s : isspace m0 = false := by rw [isspace_of_tolower hhead]; exact hn0.1
  have hm00 : m0 ≠ 0 := by
    intro h0
    rw [h0] at hhead
    exact hn0.2.1 (tolower_eq_zero.mp hhead.symm)
  have hm035 : m0 ≠ 35 := by
    intro h35
    rw [h35] at hhead
    exact hN0 (tolower_fixed hhead.symm rfl (by omega))
  have hb0 : byteAt (m0 :: M1 ++ sep ++ x :: rest) 0 = m0 := rfl
  have hline : skip_spaces (m0 :: M1 ++ sep ++ x :: rest) 0 = 0 :=
    skip_spaces_stay (by rw [hb0]; exact hm0s)
  have hstart : try_entry ⟨n0 :: N1 ++ 32 :: y :: V1, T⟩ (m0 :: M1 ++ sep ++ x :: rest) =
      try_from ⟨n0 :: N1 ++ 32 :: y :: V1, T⟩ (m0 :: M1 ++ sep ++ x :: rest) 0
        (init_vars (n0 :: N1 ++ 32 :: y :: V1) 0) := by
    unfold try_entry
    simp only [hline, hb0]
    rw [if_neg (by simp [hm00, hm035])]
  -- the property name
  have hfilter : (n0 :: N1).filter (fun b => b != 63) = n0 :: N1 := by
    rw [List.filter_eq_self]
    intro b hb
    simpa using (hNb b hb).2.2
  have hcontains : (n0 :: N1).contains 63 = false := by
    rw [Bool.eq_false_iff]
    intro hc
    have hmem : (63 : Nat) ∈ n0 :: N1 := by simpa using hc
    exact (hNb 63 hmem).2.2 rfl
  have hname := propname_phase ⟨n0 :: N1 ++ 32 :: y :: V1, T⟩ (m0 :: M1 ++ sep ++ x :: rest) 0 32
    (y :: V1) (sep ++ x :: rest) (by decide) (n0 :: N1) (m0 :: M1)
    (init_vars (n0 :: N1 ++ 32 :: y :: V1) 0) rfl rfl (fun b hb => ⟨(hNb b hb).1, (hNb b hb).2.1⟩)
    (by simp [init_vars]) (by rw [hfilter]; exact hN')
  -- the separator
  have hx := hV'b x (by simp)
  have hx0 : isspace x = false ∧ x ≠ 61 ∧ x ≠ 58 ∧ x ≠ 0 :=
    ⟨hx.1, by simpa using hV'0.1, by simpa using hV'0.2, hx.2⟩
  have hy := hVb y (by simp)
  have hy0 : y ≠ 0 := class_ne_zero.2.2.2.2.1 hy.1
  have hdropN : (m0 :: M1 ++ sep ++ x :: rest).drop (0 + (m0 :: M1).length) =
      sep ++ x :: rest := by
    rw [Nat.zero_add, List.append_assoc]
    exact List.drop_left' rfl
  have hsepstep := sep_accept ⟨n0 :: N1 ++ 32 :: y :: V1, T⟩ (m0 :: M1 ++ sep ++ x :: rest) 0 x
    rest hx0 sep hsep
    { init_vars (n0 :: N1 ++ 32 :: y :: V1) 0 with
      in_pnt := y :: V1, line_pnt := 0 + (m0 :: M1).length, state := .AFTERPROPNAME,
      is_boolean := (init_vars (n0 :: N1 ++ 32 :: y :: V1) 0).is_boolean ||
        (n0 :: N1).contains 63, d := 32 }
    rfl hdropN (by simpa [peek] using hy0) (by simp; omega)
  have hdropV : (m0 :: M1 ++ sep ++ x :: rest).drop (0 + (m0 :: M1).length + sep.length) =
      x :: rest := drop_add_of_append hdropN
  rw [hstart, hname]
  simp only [init_vars] at hsepstep ⊢
  rw [hsepstep]
  constructor
  · intro hVV
    refine literal_region_ok ⟨n0 :: N1 ++ 32 :: y :: V1, T⟩ _ 0 hT hTl (y :: V1) _ rfl rfl hVb
      (by rw [← hVV]; exact hdropV) rfl ?_ ?_
    · simp only [hcontains, Bool.or_false]
    · simpa [peek] using hy.2.2.1
  · intro hVV
    exact literal_region_mismatch ⟨n0 :: N1 ++ 32 :: y :: V1, T⟩ _ 0 (y :: V1) _ (x :: rest) rfl
      rfl hVb hdropV (fun b hb => (hV'b b hb).2) hVV

/-- C16 at the pattern `opt value` with template `--x`, on the line
`Opt = value`. -/
theorem C16_literal_value_region_witness :
    (ofString "value" = ofString "value" →
      try_entry ⟨ofString "opt" ++ 32 :: ofString "value", ofString "--x"⟩
          (ofString "Opt" ++ ofString " = " ++ ofString "value") =
        some { result := .OK, arg := some (ofString "--x"), err := none }) ∧
    (ofString "value" ≠ ofString "value" →
      ∃ e, try_entry ⟨ofString "opt" ++ 32 :: ofString "value", ofString "--x"⟩
          (ofString "Opt" ++ ofString " = " ++ ofString "value") =
        some { result := .MISMATCH, arg := none, err := some e }) :=
  C16_literal_value_region (ofString "opt") (ofString "value") (ofString "--x") (ofString "Opt")
    (ofString " = ") (ofString "value") (by decide) (by decide) (by decide) (by decide)
    (by decide) (by decide) (by decide) (by decide)
    (Or.inr ⟨[32], 61, [32], by decide, Or.inl rfl, by decide, by decide⟩) (by decide)
    (by decide) (by decide)

/-- C17, as stated, fails for the rule `name (<digits>)` on the line `name x`.
Matching stops at offset 5, at the byte `x`, where the `)` has no text to
record; the position reported with the mismatch is the start of the line,
offset 0, because that return is `err_mismatch(err_p, line, line)`. -/
theorem C17_counterexample :
    Reaches ⟨ofString "name (<digits>)", ofString "$0"⟩ (ofString "name x")
      { in_pnt := ofString ")", line_pnt := 5, match_start := some 5, wildcard_start := some 5,
        matches_ := [], state := .RCHAR, expect_char := true, is_boolean := false,
        is_enabled := false, d := 41 } ∧
    byteAt (ofString "name x") 5 = 120 ∧
    loop_body (ofString "name (<digits>)") (ofString "name x") 0
      { in_pnt := ofString ")", line_pnt := 5, match_start := some 5, wildcard_start := some 5,
        matches_ := [], state := .RCHAR, expect_char := true, is_boolean := false,
        is_enabled := false, d := 41 } =
      .ret { result := .MISMATCH, arg := none, err := some 0 } ∧
    try_entry ⟨ofString "name (<digits>)", ofString "$0"⟩ (ofString "name x") =
      some { result := .MISMATCH, arg := none, err := some 0 } := by
  refine ⟨⟨by decide, 11, by decide⟩, by decide, by decide, by decide⟩

/-- C17 (error position), amended. Whenever `try_entry` returns `MISMATCH`
or `SYNTAX`, matching has stopped at some locals `v` of the loop, and, unless
the return is the `SYNTAX` of the closing step after the loop (taken when `d`
is `)`), it reports an error position inside the line: the line offset at
which matching stopped when there is a byte at that offset, and the start of
the line (its first non-blank byte) when matching stopped at the end of the
line or at a `)` whose capture cannot be recorded. -/
theorem C17_error_position (entry : SimpleConfEntry) (buf : CStr) (r : Ret)
    (h : try_entry entry buf = some r) (hres : r.result = .MISMATCH ∨ r.result = .SYNTAX) :
    ∃ v, Reaches entry buf v ∧
      ((loop_cond buf v = true ∧ loop_body entry.in_ buf (skip_spaces buf 0) v = .ret r) ∨
        (loop_cond buf v = false ∧ r = after_loop entry.out buf (skip_spaces buf 0) v)) ∧
      ((loop_cond buf v = false ∧ v.d = 41 ∧ r = ret_plain .SYNTAX) ∨
        ∃ e, r.err = some e ∧ e < strlen buf ∧
          ((e = v.line_pnt ∧ byteAt buf v.line_pnt ≠ 0) ∨
            (e = skip_spaces buf 0 ∧
              (byteAt buf v.line_pnt = 0 ∨ (v.state = .RCHAR ∧ peek v.in_pnt = 41))))) := by
  -- positions inside the line
  have hline : ∀ v, Reaches entry buf v → skip_spaces buf 0 < strlen buf := by
    intro v hv
    have h0 := hv.1
    simp only [Bool.or_eq_false_iff, beq_eq_false_iff_ne, ne_eq] at h0
    apply le_strlen_of_bytes buf (skip_spaces buf 0 + 1)
    intro i hi
    by_cases hlt : i < skip_spaces buf 0
    · exact isspace_ne_zero (skip_spaces_bytes buf i hlt)
    · have : i = skip_spaces buf 0 := by omega
      rw [this]; exact h0.1
  have hlp : ∀ v, Reaches entry buf v → byteAt buf v.line_pnt ≠ 0 → v.line_pnt < strlen buf := by
    intro v hv hb
    have hinv := (reaches_inv entry buf v hv).2
    apply le_strlen_of_bytes buf (v.line_pnt + 1)
    intro i hi
    by_cases hlt : i < v.line_pnt
    · exact hinv i hlt
    · have : i = v.line_pnt := by omega
      rw [this]; exact hb
  -- a return with the position `line_pnt`, or the start of the line at the end of the line
  have hpos : ∀ v, Reaches entry buf v → ∀ e,
      e = (if byteAt buf v.line_pnt != 0 then v.line_pnt else skip_spaces buf 0) →
      e < strlen buf ∧
        ((e = v.line_pnt ∧ byteAt buf v.line_pnt ≠ 0) ∨
          (e = skip_spaces buf 0 ∧ byteAt buf v.line_pnt = 0)) := by
    intro v hv e he
    by_cases hb : byteAt buf v.line_pnt = 0
    · have : e = skip_spaces buf 0 := by rw [he]; simp [hb]
      exact ⟨by rw [this]; exact hline v hv, Or.inr ⟨this, hb⟩⟩
    · have : e = v.line_pnt := by rw [he]; simp [hb]
      exact ⟨by rw [this]; exact hlp v hv hb, Or.inl ⟨this, hb⟩⟩
  rcases try_entry_cases entry buf r h with ⟨_, hr⟩ | ⟨v, hv, hc, hb⟩ | ⟨v, hv, hc, hr⟩
  · subst hr
    rcases hres with h1 | h1 <;> simp [ret_plain] at h1
  · refine ⟨v, hv, Or.inl ⟨hc, hb⟩, Or.inr ?_⟩
    rcases loop_body_ret _ _ _ _ _ hb with hr | hr | hr | hr | ⟨hr, hst, hpk⟩
    · subst hr; rcases hres with h1 | h1 <;> simp [ret_plain] at h1
    · subst hr; rcases hres with h1 | h1 <;> simp [ret_plain] at h1
    · obtain ⟨h1, h2⟩ := hpos v hv _ rfl
      refine ⟨_, by rw [hr]; rfl, h1, ?_⟩
      rcases h2 with h2 | ⟨h2, h3⟩
      · exact Or.inl h2
      · exact Or.inr ⟨h2, Or.inl h3⟩
    · obtain ⟨h1, h2⟩ := hpos v hv _ rfl
      refine ⟨_, by rw [hr]; rfl, h1, ?_⟩
      rcases h2 with h2 | ⟨h2, h3⟩
      · exact Or.inl h2
      · exact Or.inr ⟨h2, Or.inl h3⟩
    · refine ⟨skip_spaces buf 0, by rw [hr]; simp [err_mismatch], hline v hv, ?_⟩
      exact Or.inr ⟨rfl, Or.inr ⟨hst, hpk⟩⟩
  · refine ⟨v, hv, Or.inr ⟨hc, hr⟩, ?_⟩
    rw [hr] at hres
    rcases after_loop_error _ _ _ _ hres with ha | ⟨ha, hd⟩
    · right
      have hb0 : byteAt buf v.line_pnt = 0 := by
        simp only [loop_cond, Bool.or_eq_false_iff, bne_eq_false_iff_eq] at hc
        exact hc.2
      refine ⟨skip_spaces buf 0, by rw [hr, ha]; simp [err_mismatch, hb0], hline v hv, ?_⟩
      exact Or.inr ⟨rfl, Or.inl hb0⟩
    · left
      exact ⟨hc, hd, by rw [hr, ha]⟩

/-- C17 at the rule `name <digits>` on the line `name x`: the mismatch is
reported at offset 5, where matching stopped. -/
theorem C17_error_position_witness :
    ∃ v, Reaches ⟨ofString "name <digits>", ofString "x"⟩ (ofString "name x") v ∧
      ((loop_cond (ofString "name x") v = true ∧
          loop_body (ofString "name <digits>") (ofString "name x")
            (skip_spaces (ofString "name x") 0) v =
            .ret { result := .MISMATCH, arg := none, err := some 5 }) ∨
        (loop_cond (ofString "name x") v = false ∧
          ({ result := .MISMATCH, arg := none, err := some 5 } : Ret) =
            after_loop (ofString "x") (ofString "name x") (skip_spaces (ofString "name x") 0) v)) ∧
      ((loop_cond (ofString "name x") v = false ∧ v.d = 41 ∧
          ({ result := .MISMATCH, arg := none, err := some 5 } : Ret) = ret_plain .SYNTAX) ∨
        ∃ e, (some 5 : Option Nat) = some e ∧ e < strlen (ofString "name x") ∧
          ((e = v.line_pnt ∧ byteAt (ofString "name x") v.line_pnt ≠ 0) ∨
            (e = skip_spaces (ofString "name x") 0 ∧
              (byteAt (ofString "name x") v.line_pnt = 0 ∨
                (v.state = .RCHAR ∧ peek v.in_pnt = 41))))) :=
  C17_error_position ⟨ofString "name <digits>", ofString "x"⟩ (ofString "name x")
    { result := .MISMATCH, arg := none, err := some 5 } (by decide) (Or.inl rfl)

/-- C18, the failing input: the pattern `name <alpha>() x` on the line
`name a x`. The group `()` opens and closes at offset 6, a blank;
`add_to_matches` skips that blank, so the start of the span, 7, passes its
end, 6, the length `end - start` wraps around to 2^64 - 1, and the capture is
recorded instead of the `)` failing. The template `$0` then fills the output
buffer and the result is `E2BIG`. -/
theorem C18_capture_start_passes_end :
    Reaches ⟨ofString "name <alpha>() x", ofString "$0"⟩ (ofString "name a x")
      { in_pnt := ofString " x", line_pnt := 6, match_start := some 6, wildcard_start := some 5,
        matches_ := [{ str := 7, str_len := 2 ^ 64 - 1 }], state := .RCHAR,
        expect_char := false, is_boolean := false, is_enabled := false, d := 41 } ∧
    try_entry ⟨ofString "name <alpha>() x", ofString "$0"⟩ (ofString "name a x") =
      some { result := .E2BIG, arg := none, err := none } := by
  refine ⟨⟨by decide, 13, by decide⟩, ?_⟩
  have hr : Reaches ⟨ofString "name <alpha>() x", ofString "$0"⟩ (ofString "name a x")
      { in_pnt := [], line_pnt := 8, match_start := some 6, wildcard_start := some 5,
        matches_ := [{ str := 7, str_len := 2 ^ 64 - 1 }], state := .RCHAR,
        expect_char := false, is_boolean := false, is_enabled := false, d := 120 } :=
    ⟨by decide, 17, by decide⟩
  rw [try_entry_of_reaches hr, try_from_done (by decide)]
  have hchk : after_loop_checks (ofString "name a x") (skip_spaces (ofString "name a x") 0)
      { in_pnt := [], line_pnt := 8, match_start := some 6, wildcard_start := some 5,
        matches_ := [{ str := 7, str_len := 2 ^ 64 - 1 }], state := .RCHAR,
        expect_char := false, is_boolean := false, is_enabled := false, d := 120 } =
      .inr [{ str := 7, str_len := 2 ^ 64 - 1 }] := by decide
  have hout : ofString "$0" = [36, 48] := by decide
  simp only [after_loop, hchk, hout]
  rw [expand_rchar_dollar _ _ _ _ _ _ (by decide),
    expand_esc_digit _ _ _ _ _ _ _ (by decide) (by decide) (by decide), if_neg (by decide)]
  rcases copy_bounded_cases (ofString "name a x") []
      (([{ str := 7, str_len := 2 ^ 64 - 1 }] : List Match).getD (48 - 48) ⟨0, 0⟩).str
      (([{ str := 7, str_len := 2 ^ 64 - 1 }] : List Match).getD (48 - 48) ⟨0, 0⟩).str_len
      (by decide) with ⟨h1, _⟩ | ⟨_, h2⟩
  · exact absurd h1 (by decide)
  · rw [expand_full _ _ _ _ _ _ _ h2]; rfl

/-- C19, the failing input: on the rule `x? <bool> <bool>` the line `x no no`
gets past the second `<bool>` tag, because the test made there is on
`is_enabled`, which the literal `no` leaves at 0; the outcome is `IGNORE`, and
`x no yes` gives `OK`. Only after a true literal is the second tag refused. -/
theorem C19_second_bool_after_false :
    try_entry ⟨ofString "x? <bool> <bool>", ofString "y"⟩ (ofString "x no no") =
      some { result := .IGNORE, arg := none, err := none } ∧
    try_entry ⟨ofString "x? <bool> <bool>", ofString "y"⟩ (ofString "x no yes") =
      some { result := .OK, arg := some (ofString "y"), err := none } ∧
    try_entry ⟨ofString "x? <bool> <bool>", ofString "y"⟩ (ofString "x yes yes") =
      some { result := .INVALID_ENTRY, arg := none, err := none } := by
  decide

/-- C20, as stated, fails for the rule `name <digits>` on the line `name 42`.
After the blank that follows the name the loop is in `STATE_AFTERPROPNAME2` at
the byte `4`: that iteration only switches to `STATE_AFTERPROPNAMESEP`, and the
next one only switches to `STATE_RCHAR`; neither returns or moves a position. -/
theorem C20_counterexample :
    Reaches ⟨ofString "name <digits>", ofString "x"⟩ (ofString "name 42")
      { in_pnt := ofString "<digits>", line_pnt := 5, match_start := none,
        wildcard_start := none, matches_ := [], state := .AFTERPROPNAME2, expect_char := false,
        is_boolean := false, is_enabled := false, d := 60 } ∧
    ¬ (settles (ofString "name <digits>") (ofString "name 42") 0
        { in_pnt := ofString "<digits>", line_pnt := 5, match_start := none,
          wildcard_start := none, matches_ := [], state := .AFTERPROPNAME2, expect_char := false,
          is_boolean := false, is_enabled := false, d := 60 } ∨
      ∃ v1, switches (ofString "name <digits>") (ofString "name 42") 0
          { in_pnt := ofString "<digits>", line_pnt := 5, match_start := none,
            wildcard_start := none, matches_ := [], state := .AFTERPROPNAME2,
            expect_char := false, is_boolean := false, is_enabled := false, d := 60 } v1 ∧
        settles (ofString "name <digits>") (ofString "name 42") 0 v1) := by
  refine ⟨⟨by decide, 6, by decide⟩, ?_⟩
  have h1 : switches (ofString "name <digits>") (ofString "name 42") 0
      { in_pnt := ofString "<digits>", line_pnt := 5, match_start := none,
        wildcard_start := none, matches_ := [], state := .AFTERPROPNAME2, expect_char := false,
        is_boolean := false, is_enabled := false, d := 60 }
      { in_pnt := ofString "<digits>", line_pnt := 5, match_start := none,
        wildcard_start := none, matches_ := [], state := .AFTERPROPNAMESEP, expect_char := false,
        is_boolean := false, is_enabled := false, d := 60 } :=
    ⟨by decide, rfl, rfl⟩
  have h2 : switches (ofString "name <digits>") (ofString "name 42") 0
      { in_pnt := ofString "<digits>", line_pnt := 5, match_start := none,
        wildcard_start := none, matches_ := [], state := .AFTERPROPNAMESEP, expect_char := false,
        is_boolean := false, is_enabled := false, d := 60 }
      { in_pnt := ofString "<digits>", line_pnt := 5, match_start := none,
        wildcard_start := some 5, matches_ := [], state := .RCHAR, expect_char := false,
        is_boolean := false, is_enabled := false, d := 60 } :=
    ⟨by decide, rfl, rfl⟩
  rintro (h | ⟨v1, hs, hv1⟩)
  · exact switches_not_settles h1 h
  · have hv : Step.cont v1 = Step.cont _ := hs.1.symm.trans h1.1
    rw [Step.cont.injEq] at hv
    subst hv
    exact switches_not_settles h2 hv1

/-- C20 (totality of the matcher), amended. For every pattern, line and
template: `try_entry` returns; the matching loop makes at most
`3 * (pattern length + line length)` iterations; the pattern position stays a
suffix of the pattern and the line position stays within the line, neither
past the terminator; every iteration returns, or advances one of the two
positions over at least one byte that is not the terminator, or switches,
moving no position, to a state from which at most one more such switch leads
to an iteration that returns or advances; and the expansion loop makes at
most `template length + 65536` steps. -/
theorem C20_totality (entry : SimpleConfEntry) (buf : CStr) :
    try_entry entry buf ≠ none ∧
    (∀ k v, loop_iter entry.in_ buf (skip_spaces buf 0) k
        (init_vars entry.in_ (skip_spaces buf 0)) = some v →
      k ≤ 3 * (entry.in_.length + buf.length)) ∧
    (∀ v, Reaches entry buf v →
      (∃ pre, entry.in_ = pre ++ v.in_pnt ∧ pre.length ≤ strlen entry.in_) ∧
      v.line_pnt ≤ strlen buf) ∧
    (∀ line v, settles entry.in_ buf line v ∨
      ∃ v1, switches entry.in_ buf line v v1 ∧
        (settles entry.in_ buf line v1 ∨
          ∃ v2, switches entry.in_ buf line v1 v2 ∧ settles entry.in_ buf line v2)) ∧
    (∀ ms wl, expand_steps ms wl .TEMPLATE_RCHAR entry.out 0 ≤
      entry.out.length + MAX_ARG_LENGTH) := by
  refine ⟨try_entry_total entry buf, ?_, ?_, ?_, ?_⟩
  · intro k v h
    have := loop_iter_measure k _ _ h
    simp only [loop_measure, init_vars, state_rank] at this
    omega
  · intro v hv
    obtain ⟨⟨pre, hpre, hpre0, _, _⟩, hline⟩ := reaches_inv entry buf v hv
    refine ⟨⟨pre, hpre, ?_⟩, le_strlen_of_bytes buf _ hline⟩
    rw [hpre]
    exact prefix_le_strlen pre _ hpre0
  · intro line v
    exact loop_body_settles entry.in_ buf line v
  · intro ms wl
    exact expand_steps_le ms wl entry.out .TEMPLATE_RCHAR 0 (by decide)

/-- C20 at the rule `name <digits>` with template `x` and the line `name 42`. -/
theorem C20_totality_witness :
    try_entry ⟨ofString "name <digits>", ofString "x"⟩ (ofString "name 42") ≠ none ∧
    expand_steps [] 2 .TEMPLATE_RCHAR (ofString "x") 0 ≤ (ofString "x").length + MAX_ARG_LENGTH :=
  ⟨(C20_totality ⟨ofString "name <digits>", ofString "x"⟩ (ofString "name 42")).1,
    (C20_totality ⟨ofString "name <digits>", ofString "x"⟩ (ofString "name 42")).2.2.2.2 [] 2⟩

end SimpleConf
